import Mathlib

/-!
# VoltDB execution engine: nested-loop index join executor

A shallow embedding of `NestLoopIndexExecutor::p_execute`
(`src/ee/executors/nestloopindexexecutor.cpp`) as explicit state passing.

* The executor's mutable members (search-key buffer `index_values`, the index
  iterator, the output table and its `tempTuple`) form `ExecState`.
* The index is a collaborator given by its interface (`TableIndex`), over an
  arbitrary iterator state.
* `ExecState.trace` is a ghost log of the calls made on the index, in call
  order; no branch of the executor reads it.
* C++ exceptions, `return false`, a failed `assert` and an out-of-range
  `m_outputExpressions[...]` are the `Outcome`s that end `p_execute`.
* The `assert` of line 264 ends `p_execute` in `handleKeyException`, the build
  with assertions; `handleKeyExceptionNDEBUG`, `buildSearchKeyNDEBUG` and
  `processOuterTupleNDEBUG` are the build without them.
* `p_init` is embedded over the parts of the plan node it reads and the
  uninitialised storage of the key buffer; `executorAfterInit` is the executor
  `p_execute` then runs.
* `SizePtrPairComparator` and `Sized` are those of `ThreadLocalPool.h`.  The
  compacting pool and the catalog, whose code is not among the files at hand,
  are modelled from the specification.
-/

set_option autoImplicit false

namespace voltdb

/-! ## Collaborator types -/

/-- Modelled from the spec: `NValue` is declared outside the files at hand
(`common/NValue.hpp`).  A value is SQL NULL, a boolean (the result of a
predicate), an integer or a string. -/
inductive NValue where
  | null
  | boolean (b : Bool)
  | integer (i : Int)
  | varchar (s : String)
  deriving DecidableEq, Repr

/-- Modelled from the spec: `NValue::isTrue`, "evaluates true"; NULL is not true. -/
def NValue.isTrue : NValue → Bool
  | .boolean true => true
  | _ => false

/-- Modelled from the spec: `NValue::isFalse`, "evaluates false"; NULL is not false. -/
def NValue.isFalse : NValue → Bool
  | .boolean false => true
  | _ => false

/-- Modelled from the spec: `NValue::setNull` turns a value into SQL NULL. -/
def NValue.setNull (_ : NValue) : NValue := .null

/-- Modelled from the spec: a `TableTuple` is the row of its column values; the
null tuple (`isNullTuple()`) is `none` in `Option TableTuple`. -/
abbrev TableTuple := List NValue

/-- `TableTuple::getNValue(idx)`.  The source asserts `idx` to be a column of
the tuple; outside the tuple the read gives NULL here. -/
def TableTuple.getNValue (t : TableTuple) (idx : Nat) : NValue := t.getD idx .null

/-- `TableTuple::setNValue(idx, value)` on an untyped buffer (the output row).
The source asserts `idx` to be a column of the tuple; outside the tuple the
write is dropped here. -/
def TableTuple.setNValue (t : TableTuple) (idx : Nat) (value : NValue) : TableTuple :=
  t.set idx value

/-- `TableTuple::setAllNulls()`. -/
def TableTuple.setAllNulls (t : TableTuple) : TableTuple := t.map (fun _ => NValue.null)

/-- Modelled from the spec: lookup kind ∈ {EQ, GT, GTE, LT, LTE}. -/
inductive IndexLookupType where
  | INDEX_LOOKUP_TYPE_EQ
  | INDEX_LOOKUP_TYPE_GT
  | INDEX_LOOKUP_TYPE_GTE
  | INDEX_LOOKUP_TYPE_LT
  | INDEX_LOOKUP_TYPE_LTE
  deriving DecidableEq, Repr

/-- Modelled from the spec: sort direction ∈ {ASC, DESC, INVALID}. -/
inductive SortDirectionType where
  | SORT_DIRECTION_TYPE_INVALID
  | SORT_DIRECTION_TYPE_ASC
  | SORT_DIRECTION_TYPE_DESC
  deriving DecidableEq, Repr

/-- Modelled from the spec: join kind ∈ {INNER, LEFT}. -/
inductive JoinType where
  | JOIN_TYPE_INNER
  | JOIN_TYPE_LEFT
  deriving DecidableEq, Repr

open IndexLookupType SortDirectionType JoinType

/-- Modelled from the spec: the structured error of a typed assignment.  Of
`getInternalFlags()` only the two bits the executor tests are kept:
`overflow` is `flags & TYPE_OVERFLOW`, `underflow` is `flags & TYPE_UNDERFLOW`. -/
structure SQLException where
  overflow : Bool
  underflow : Bool
  deriving DecidableEq, Repr

/-- The calls the executor makes on the index, with the tuple a fetch returned. -/
inductive IndexCall where
  | moveToKey (key : TableTuple)
  | moveToGreaterThanKey (key : TableTuple)
  | moveToKeyOrGreater (key : TableTuple)
  | moveToEnd (toStart : Bool)
  | nextValue (result : Option TableTuple)
  | nextValueAtKey (result : Option TableTuple)
  deriving DecidableEq, Repr

/-- Modelled from the spec: the index handle (`indexes/tableindex.h`), by its
interface over an iterator state `σ`.  The index iterates a finite table:
`remaining` bounds the number of tuples the iterator can still yield. -/
structure TableIndex (σ : Type) where
  moveToKey : TableTuple → σ → σ
  moveToGreaterThanKey : TableTuple → σ → σ
  moveToKeyOrGreater : TableTuple → σ → σ
  moveToEnd : Bool → σ → σ
  nextValue : σ → Option TableTuple × σ
  nextValueAtKey : σ → Option TableTuple × σ
  remaining : σ → Nat
  nextValue_remaining : ∀ s,
    remaining (nextValue s).2 + (if (nextValue s).1.isSome then 1 else 0) ≤ remaining s
  nextValueAtKey_remaining : ∀ s,
    remaining (nextValueAtKey s).2 + (if (nextValueAtKey s).1.isSome then 1 else 0)
      ≤ remaining s

/-! ## The executor -/

/-- The members of `NestLoopIndexExecutor` that `p_execute` reads, as `p_init`
leaves them, together with the parts of the plan node it consults.
Expressions are taken after parameter substitution; `keySetNValue ctr v` is
`index_values.setNValue(ctr, v)`, the typed assignment into key column `ctr`,
which stores a value or throws. -/
structure NestLoopIndexExecutor (σ : Type) where
  searchKeyExpressions : List (TableTuple → NValue)
  end_expression : Option (TableTuple → TableTuple → NValue)
  post_expression : Option (TableTuple → TableTuple → NValue)
  join_type : JoinType
  m_lookupType : IndexLookupType
  m_sortDirection : SortDirectionType
  m_outputExpressions : List (TableTuple → NValue)
  index : TableIndex σ
  keySetNValue : Nat → NValue → Except SQLException NValue
  num_of_outer_cols : Nat
  num_of_inner_cols : Nat

/-- The state `p_execute` mutates. -/
structure ExecState (σ : Type) where
  index_values : TableTuple
  cursor : σ
  join_tuple : TableTuple
  output_table : List TableTuple
  trace : List IndexCall

/-- How `p_execute` ends: by `return`, by an exception that leaves it, on the
`assert` of line 264 (taken as compiled in), or on an access
`m_outputExpressions[col_ctr]` past the end of the vector. -/
inductive Outcome where
  | returned (b : Bool)
  | threw (e : SQLException)
  | assertionFailed
  | outOfBounds
  deriving DecidableEq, Repr

/-- The per-outer-tuple locals of key construction (lines 221-231). -/
structure KeyState where
  activeNumOfSearchKeys : Nat
  localLookupType : IndexLookupType
  localSortDirection : SortDirectionType
  keyException : Bool
  index_values : TableTuple
  deriving DecidableEq, Repr

/-- Lines 297-300: the last search key is given up. -/
def dropLastKey (ks : KeyState) : KeyState :=
  { ks with
    activeNumOfSearchKeys := ks.activeNumOfSearchKeys - 1
    localSortDirection :=
      if ks.localSortDirection = SORT_DIRECTION_TYPE_INVALID then SORT_DIRECTION_TYPE_ASC
      else ks.localSortDirection }

/-- The `catch` block of key construction (lines 245-308) for the exception `e`
raised at key column `ctr`: what ends `p_execute`, if anything, and the locals
at the `break`.  This is the build with assertions: a failed `assert` of line
264 ends `p_execute`.  `handleKeyExceptionNDEBUG` is the build without them. -/
def handleKeyException (e : SQLException) (ctr : Nat) (ks : KeyState) :
    Option Outcome × KeyState :=
  if !(e.overflow || e.underflow) then
    (some (.threw e), ks)
  else if ks.localLookupType ≠ INDEX_LOOKUP_TYPE_EQ ∧ ctr = ks.activeNumOfSearchKeys - 1 then
    if ¬ (ks.activeNumOfSearchKeys > 1) then
      (some .assertionFailed, ks)
    else if e.overflow then
      if ks.localLookupType = INDEX_LOOKUP_TYPE_GT ∨
          ks.localLookupType = INDEX_LOOKUP_TYPE_GTE then
        (none, { ks with keyException := true })
      else
        (some (.threw e), ks)
    else if e.underflow then
      if ks.localLookupType = INDEX_LOOKUP_TYPE_LT ∨
          ks.localLookupType = INDEX_LOOKUP_TYPE_LTE then
        (some (.threw e), ks)
      else
        (none, dropLastKey { ks with localLookupType := INDEX_LOOKUP_TYPE_GT })
    else
      (none, dropLastKey ks)
  else
    (none, { ks with keyException := true })

/-- The key-construction loop (lines 238-309), from key column `ctr` on, over
the search-key expressions not yet evaluated. -/
def buildSearchKey (keySetNValue : Nat → NValue → Except SQLException NValue)
    (outer_tuple : TableTuple) :
    List (TableTuple → NValue) → Nat → KeyState → Option Outcome × KeyState
  | [], _, ks => (none, ks)
  | expr :: rest, ctr, ks =>
    let candidateValue := expr outer_tuple
    match keySetNValue ctr candidateValue with
    | .ok v =>
      buildSearchKey keySetNValue outer_tuple rest (ctr + 1)
        { ks with index_values := ks.index_values.set ctr v }
    | .error e => handleKeyException e ctr ks

variable {σ : Type}

/-- The locals at the top of the loop body (lines 221-237). -/
def initialKeyState (ex : NestLoopIndexExecutor σ) (st : ExecState σ) : KeyState :=
  { activeNumOfSearchKeys := ex.searchKeyExpressions.length
    localLookupType := ex.m_lookupType
    localSortDirection := ex.m_sortDirection
    keyException := false
    index_values := st.index_values.setAllNulls }

/-- The if-ladder that primes the index iterator (lines 332-349); `none` is the
`return false` of line 344. -/
def positionIndex (ex : NestLoopIndexExecutor σ) (ks : KeyState) (st : ExecState σ) :
    Option (ExecState σ) :=
  if ex.searchKeyExpressions.length > 0 then
    match ks.localLookupType with
    | INDEX_LOOKUP_TYPE_EQ =>
      some { st with cursor := ex.index.moveToKey st.index_values st.cursor
                     trace := st.trace ++ [.moveToKey st.index_values] }
    | INDEX_LOOKUP_TYPE_GT =>
      some { st with cursor := ex.index.moveToGreaterThanKey st.index_values st.cursor
                     trace := st.trace ++ [.moveToGreaterThanKey st.index_values] }
    | INDEX_LOOKUP_TYPE_GTE =>
      some { st with cursor := ex.index.moveToKeyOrGreater st.index_values st.cursor
                     trace := st.trace ++ [.moveToKeyOrGreater st.index_values] }
    | _ => none
  else
    let toStartActually := decide (ks.localSortDirection ≠ SORT_DIRECTION_TYPE_DESC)
    some { st with cursor := ex.index.moveToEnd toStartActually st.cursor
                   trace := st.trace ++ [.moveToEnd toStartActually] }

/-- The call `index->nextValue()`. -/
def callNextValue (ex : NestLoopIndexExecutor σ) (st : ExecState σ) :
    Option TableTuple × ExecState σ :=
  let r := ex.index.nextValue st.cursor
  (r.1, { st with cursor := r.2, trace := st.trace ++ [.nextValue r.1] })

/-- The call `index->nextValueAtKey()`. -/
def callNextValueAtKey (ex : NestLoopIndexExecutor σ) (st : ExecState σ) :
    Option TableTuple × ExecState σ :=
  let r := ex.index.nextValueAtKey st.cursor
  (r.1, { st with cursor := r.2, trace := st.trace ++ [.nextValueAtKey r.1] })

/-- The condition of the inner `while` (lines 351-354), with its short-circuit
evaluation: the inner tuple it leaves in `inner_tuple` when it holds. -/
def nextInnerTuple (ex : NestLoopIndexExecutor σ) (ks : KeyState) (st : ExecState σ) :
    Option TableTuple × ExecState σ :=
  if ks.localLookupType = INDEX_LOOKUP_TYPE_EQ then
    match callNextValueAtKey ex st with
    | (some t, st1) => (some t, st1)
    | (none, st1) =>
      if ex.searchKeyExpressions.length = 0 then callNextValue ex st1 else (none, st1)
  else
    callNextValue ex st

/-- The first copy loop (lines 399-401). -/
def copyOuterColumns (num_of_outer_cols : Nat) (outer_tuple join_tuple : TableTuple) :
    TableTuple :=
  (List.range num_of_outer_cols).foldl
    (fun jt col_ctr => jt.setNValue col_ctr (outer_tuple.getNValue col_ctr)) join_tuple

/-- The projection loop (lines 403-408); `none` when `m_outputExpressions[col_ctr]`
is out of range. -/
def projectInnerColumns (m_outputExpressions : List (TableTuple → NValue))
    (num_of_outer_cols num_of_inner_cols : Nat) (inner_tuple join_tuple : TableTuple) :
    Option TableTuple :=
  (List.range num_of_inner_cols).foldlM
    (fun jt col_ctr =>
      match m_outputExpressions[col_ctr]? with
      | some expr => some (jt.setNValue (num_of_outer_cols + col_ctr) (expr inner_tuple))
      | none => none) join_tuple

/-- `output_table->insertTupleNonVirtual(join_tuple)`: the row is copied to the
end of the temp table. -/
def insertTupleNonVirtual (st : ExecState σ) : ExecState σ :=
  { st with output_table := st.output_table ++ [st.join_tuple] }

/-- The emission of a joined row (lines 399-414). -/
def emitJoinTuple (ex : NestLoopIndexExecutor σ) (outer_tuple inner_tuple : TableTuple)
    (st : ExecState σ) : Option (ExecState σ) :=
  match projectInnerColumns ex.m_outputExpressions ex.num_of_outer_cols ex.num_of_inner_cols
      inner_tuple (copyOuterColumns ex.num_of_outer_cols outer_tuple st.join_tuple) with
  | some jt => some (insertTupleNonVirtual { st with join_tuple := jt })
  | none => none

/-- The test of lines 363-364: the end expression is present and evaluates to
false on the pair of tuples. -/
def endExpressionIsFalse (ex : NestLoopIndexExecutor σ) (outer_tuple inner_tuple : TableTuple) :
    Bool :=
  match ex.end_expression with
  | some e => (e outer_tuple inner_tuple).isFalse
  | none => false

/-- The test of lines 372-373: the post expression is absent or evaluates to
true on the pair of tuples. -/
def postExpressionPasses (ex : NestLoopIndexExecutor σ) (outer_tuple inner_tuple : TableTuple) :
    Bool :=
  match ex.post_expression with
  | some p => (p outer_tuple inner_tuple).isTrue
  | none => true

/-- The inner `while` loop (lines 351-416).  Results: what ends `p_execute`, if
anything; the local `match` (here `matched`); the state.  The first argument
bounds the number of iterations; `scanInner` starts it above `remaining`, so it
never runs out (`scanLoop_fuel`). -/
def scanLoop (ex : NestLoopIndexExecutor σ) (ks : KeyState) (outer_tuple : TableTuple) :
    Nat → Bool → ExecState σ → Option Outcome × Bool × ExecState σ
  | 0, matched, st => (none, matched, st)
  | fuel + 1, matched, st =>
    match nextInnerTuple ex ks st with
    | (none, st1) => (none, matched, st1)
    | (some inner_tuple, st1) =>
      if endExpressionIsFalse ex outer_tuple inner_tuple then
        (none, true, st1)
      else if postExpressionPasses ex outer_tuple inner_tuple then
        match emitJoinTuple ex outer_tuple inner_tuple st1 with
        | some st2 => scanLoop ex ks outer_tuple fuel true st2
        | none => (some .outOfBounds, true, st1)
      else
        scanLoop ex ks outer_tuple fuel true st1

/-- The inner scan of one outer tuple, from the positioned iterator. -/
def scanInner (ex : NestLoopIndexExecutor σ) (ks : KeyState) (outer_tuple : TableTuple)
    (st : ExecState σ) : Option Outcome × Bool × ExecState σ :=
  scanLoop ex ks outer_tuple (ex.index.remaining st.cursor + 1) false st

/-- The null-padding loop of the left-outer fallback (lines 426-432). -/
def nullInnerColumns (num_of_outer_cols num_of_inner_cols : Nat) (join_tuple : TableTuple) :
    TableTuple :=
  (List.range num_of_inner_cols).foldl
    (fun jt col_ctr =>
      let index := col_ctr + num_of_outer_cols
      let value := jt.getNValue index
      jt.setNValue (col_ctr + num_of_outer_cols) value.setNull) join_tuple

/-- The left-outer fallback (lines 422-434), taken when `!match` and the join
is LEFT. -/
def leftOuterFallback (ex : NestLoopIndexExecutor σ) (st : ExecState σ) : ExecState σ :=
  insertTupleNonVirtual
    { st with join_tuple :=
        nullInnerColumns ex.num_of_outer_cols ex.num_of_inner_cols st.join_tuple }

/-- The part of the loop body guarded by `if (!keyException)` (lines 314-417). -/
def positionAndScan (ex : NestLoopIndexExecutor σ) (ks : KeyState) (outer_tuple : TableTuple)
    (st : ExecState σ) : Option Outcome × Bool × ExecState σ :=
  if !ks.keyException then
    match positionIndex ex ks st with
    | none => (some (.returned false), false, st)
    | some st1 => scanInner ex ks outer_tuple st1
  else
    (none, false, st)

/-- The body of the outer `while` for one outer tuple (lines 218-435). -/
def processOuterTuple (ex : NestLoopIndexExecutor σ) (outer_tuple : TableTuple)
    (st : ExecState σ) : Option Outcome × ExecState σ :=
  match buildSearchKey ex.keySetNValue outer_tuple ex.searchKeyExpressions 0
      (initialKeyState ex st) with
  | (some stop, ks) => (some stop, { st with index_values := ks.index_values })
  | (none, ks) =>
    match positionAndScan ex ks outer_tuple { st with index_values := ks.index_values } with
    | (some stop, _, st1) => (some stop, st1)
    | (none, matched, st1) =>
      if !matched ∧ ex.join_type = JOIN_TYPE_LEFT then
        (none, leftOuterFallback ex st1)
      else
        (none, st1)

/-- `NestLoopIndexExecutor::p_execute` over the tuples of the outer table in
outer-iterator order (lines 217-440). -/
def p_execute (ex : NestLoopIndexExecutor σ) :
    List TableTuple → ExecState σ → Outcome × ExecState σ
  | [], st => (.returned true, st)
  | outer_tuple :: rest, st =>
    match processOuterTuple ex outer_tuple st with
    | (some stop, st1) => (stop, st1)
    | (none, st1) => p_execute ex rest st1

/-! ## A concrete index and the scenarios of the specification -/

/-- Modelled from the spec: order of two key values; NULL sorts below every
other value, integers by value. -/
def NValue.lt : NValue → NValue → Bool
  | .null, .null => false
  | .null, _ => true
  | .integer a, .integer b => decide (a < b)
  | _, _ => false

/-- Modelled from the spec: lexicographic order of two index keys. -/
def keyLt : TableTuple → TableTuple → Bool
  | a :: as, b :: bs => a.lt b || (a == b && keyLt as bs)
  | _, _ => false

/-- The iterator state of `sortedIndex`: the tuples `nextValue` and
`nextValueAtKey` have still to return. -/
structure ListCursor where
  scan : List TableTuple
  atKey : List TableTuple
  deriving DecidableEq, Repr

/-- Modelled from the spec: an index over the entries `(key, tuple)`, listed in
key order.  `moveToKey` puts the tuples with that key before `nextValueAtKey`;
the other moves put the tuples from the chosen position on before `nextValue`. -/
def sortedIndex (entries : List (TableTuple × TableTuple)) : TableIndex ListCursor where
  moveToKey key _ :=
    { scan := (entries.filter (fun e => !keyLt e.1 key)).map Prod.snd
      atKey := (entries.filter (fun e => e.1 == key)).map Prod.snd }
  moveToGreaterThanKey key _ :=
    { scan := (entries.filter (fun e => keyLt key e.1)).map Prod.snd, atKey := [] }
  moveToKeyOrGreater key _ :=
    { scan := (entries.filter (fun e => !keyLt e.1 key)).map Prod.snd, atKey := [] }
  moveToEnd toStart _ :=
    { scan := if toStart then entries.map Prod.snd else entries.reverse.map Prod.snd
      atKey := [] }
  nextValue c := (c.scan.head?, { c with scan := c.scan.tail })
  nextValueAtKey c := (c.atKey.head?, { c with atKey := c.atKey.tail })
  remaining c := c.scan.length + c.atKey.length
  nextValue_remaining c := by
    cases h : c.scan <;> simp [h]
    omega
  nextValueAtKey_remaining c := by
    cases h : c.atKey <;> simp [h]
    omega

/-- An executor state before the first outer tuple: key buffer of `keyCols`
columns, output row buffer of `outCols` columns, empty output table. -/
def freshState (keyCols outCols : Nat) : ExecState ListCursor :=
  { index_values := List.replicate keyCols NValue.null
    cursor := { scan := [], atKey := [] }
    join_tuple := List.replicate outCols NValue.null
    output_table := []
    trace := [] }

/-- The inner index of scenarios S1 and S2: one column `I`, rows {1, 2, 3}. -/
def s1Index : TableIndex ListCursor :=
  sortedIndex [([.integer 1], [.integer 1]), ([.integer 2], [.integer 2]),
    ([.integer 3], [.integer 3])]

/-- The outer tuples of scenarios S1 and S2. -/
def s1Outer : List TableTuple :=
  [[.integer 1, .varchar "a"], [.integer 2, .varchar "b"], [.integer 4, .varchar "c"]]

/-- The executor of scenarios S1 (INNER) and S2 (LEFT): EQ lookup with key
expression `outer[0]`, no end or post expression, inner column projected as is. -/
def s1Executor (join_type : JoinType) : NestLoopIndexExecutor ListCursor :=
  { searchKeyExpressions := [fun o => o.getNValue 0]
    end_expression := none
    post_expression := none
    join_type := join_type
    m_lookupType := INDEX_LOOKUP_TYPE_EQ
    m_sortDirection := SORT_DIRECTION_TYPE_INVALID
    m_outputExpressions := [fun t => t.getNValue 0]
    index := s1Index
    keySetNValue := fun _ v => .ok v
    num_of_outer_cols := 2
    num_of_inner_cols := 1 }

/-- The inner tuples the index iterator yielded in a stretch of calls, in order. -/
def yieldedTuples (calls : List IndexCall) : List TableTuple :=
  calls.filterMap (fun c =>
    match c with
    | .nextValue r => r
    | .nextValueAtKey r => r
    | _ => none)

/-- The number of inner tuples the index iterator yielded in a stretch of calls. -/
def yieldCount (calls : List IndexCall) : Nat := (yieldedTuples calls).length

/-- The number of inner tuples the index iterator yields while the outer tuple
`o` is processed from the state `st`. -/
def yieldedFor (ex : NestLoopIndexExecutor σ) (o : TableTuple) (st : ExecState σ) : Nat :=
  yieldCount ((processOuterTuple ex o st).2.trace.drop st.trace.length)

/-- For each outer tuple in turn, the number of inner tuples the index iterator
yields for it, in the state in which the executor reaches it; once `p_execute`
has ended (exception, `return false`), the iterator yields nothing for the
outer tuples left. -/
def yieldCounts (ex : NestLoopIndexExecutor σ) : List TableTuple → ExecState σ → List Nat
  | [], _ => []
  | o :: rest, st =>
    yieldedFor ex o st ::
      match (processOuterTuple ex o st).1 with
      | none => yieldCounts ex rest (processOuterTuple ex o st).2
      | some _ => rest.map (fun _ => 0)

/-- Modelled from the spec: typed assignment into a TINYINT key column, which
holds -127 .. 127; a larger integer signals overflow, a smaller one underflow,
and a value that is no integer an error with neither flag. -/
def tinyintSetNValue (_ : Nat) : NValue → Except SQLException NValue
  | .null => .ok .null
  | .integer i =>
    if i > 127 then .error { overflow := true, underflow := false }
    else if i < -127 then .error { overflow := false, underflow := true }
    else .ok (.integer i)
  | _ => .error { overflow := false, underflow := false }

/-- The inner index of scenario S3: key columns (a, b), both TINYINT; the
tuples are the keys themselves. -/
def s3Index : TableIndex ListCursor :=
  sortedIndex [([.integer 3, .integer 1], [.integer 3, .integer 1]),
    ([.integer 5, .integer 7], [.integer 5, .integer 7]),
    ([.integer 6, .integer 0], [.integer 6, .integer 0]),
    ([.integer 7, .integer 1], [.integer 7, .integer 1])]

/-- The executor of scenario S3: search key (outer.a, outer.b) assigned to two
TINYINT key columns, no end or post expression. -/
def s3Executor (join_type : JoinType) (lookup : IndexLookupType) :
    NestLoopIndexExecutor ListCursor :=
  { searchKeyExpressions := [fun o => o.getNValue 0, fun o => o.getNValue 1]
    end_expression := none
    post_expression := none
    join_type := join_type
    m_lookupType := lookup
    m_sortDirection := SORT_DIRECTION_TYPE_INVALID
    m_outputExpressions := [fun t => t.getNValue 0, fun t => t.getNValue 1]
    index := s3Index
    keySetNValue := tinyintSetNValue
    num_of_outer_cols := 2
    num_of_inner_cols := 2 }

/-- The inner index of scenario S6: keys 5, 8, 11, 12. -/
def s6Index : TableIndex ListCursor :=
  sortedIndex [([.integer 5], [.integer 5]), ([.integer 8], [.integer 8]),
    ([.integer 11], [.integer 11]), ([.integer 12], [.integer 12])]

/-- The predicate `inner.key > 10` of scenario S6, NULL on a key that is no integer. -/
def innerKeyGreaterThan10 (_ inner : TableTuple) : NValue :=
  match inner.getNValue 0 with
  | .integer i => .boolean (decide (i > 10))
  | _ => .null

/-- The predicate `inner.key <= 10`, NULL on a key that is no integer. -/
def innerKeyAtMost10 (_ inner : TableTuple) : NValue :=
  match inner.getNValue 0 with
  | .integer i => .boolean (decide (i ≤ 10))
  | _ => .null

/-- The executor of scenario S6 with the given end expression: GTE lookup on
`outer[0]`, post expression always true, INNER join. -/
def s6Executor (end_expression : TableTuple → TableTuple → NValue) :
    NestLoopIndexExecutor ListCursor :=
  { searchKeyExpressions := [fun o => o.getNValue 0]
    end_expression := some end_expression
    post_expression := some (fun _ _ => .boolean true)
    join_type := JOIN_TYPE_INNER
    m_lookupType := INDEX_LOOKUP_TYPE_GTE
    m_sortDirection := SORT_DIRECTION_TYPE_ASC
    m_outputExpressions := [fun t => t.getNValue 0]
    index := s6Index
    keySetNValue := fun _ v => .ok v
    num_of_outer_cols := 1
    num_of_inner_cols := 1 }

/-- A LEFT join over the index of S1 whose post expression rejects every pair. -/
def rejectingLeftExecutor : NestLoopIndexExecutor ListCursor :=
  { s1Executor JOIN_TYPE_LEFT with post_expression := some (fun _ _ => .boolean false) }

/-- A LEFT join over the index of S1, GTE lookup, whose end expression `inner.key > 10`
is false at the first inner tuple. -/
def endingLeftExecutor : NestLoopIndexExecutor ListCursor :=
  { s1Executor JOIN_TYPE_LEFT with
    m_lookupType := INDEX_LOOKUP_TYPE_GTE
    end_expression := some innerKeyGreaterThan10 }

/-- The state of scenario S6 once the iterator is positioned on key 5 for the
outer tuple (5). -/
def s6Positioned : ExecState ListCursor :=
  { index_values := [.integer 5]
    cursor := { scan := [[.integer 5], [.integer 8], [.integer 11], [.integer 12]], atKey := [] }
    join_tuple := [.null, .null]
    output_table := []
    trace := [.moveToKeyOrGreater [.integer 5]] }

/-- The locals of scenario S6 after key construction for the outer tuple (5). -/
def s6KeyState : KeyState :=
  { activeNumOfSearchKeys := 1
    localLookupType := INDEX_LOOKUP_TYPE_GTE
    localSortDirection := SORT_DIRECTION_TYPE_ASC
    keyException := false
    index_values := [.integer 5] }

/-- How the locals `ks1` after key construction stand to the locals `ks0` before
it: untouched, or degraded by the drop of the last key (under GT or GTE, with
more than one key), or marked by `keyException`. -/
def KeyLocalsFrom (ks0 ks1 : KeyState) : Prop :=
  (ks1.keyException = true ∧ ks1.activeNumOfSearchKeys = ks0.activeNumOfSearchKeys ∧
    ks1.localLookupType = ks0.localLookupType ∧
    ks1.localSortDirection = ks0.localSortDirection) ∨
  (ks1.keyException = false ∧ ks1.activeNumOfSearchKeys = ks0.activeNumOfSearchKeys ∧
    ks1.localLookupType = ks0.localLookupType ∧
    ks1.localSortDirection = ks0.localSortDirection) ∨
  (ks1.keyException = false ∧
    (ks0.localLookupType = INDEX_LOOKUP_TYPE_GT ∨ ks0.localLookupType = INDEX_LOOKUP_TYPE_GTE) ∧
    1 < ks0.activeNumOfSearchKeys ∧
    ks1.activeNumOfSearchKeys = ks0.activeNumOfSearchKeys - 1 ∧
    ks1.localLookupType = INDEX_LOOKUP_TYPE_GT ∧
    ks1.localSortDirection =
      (if ks0.localSortDirection = SORT_DIRECTION_TYPE_INVALID then SORT_DIRECTION_TYPE_ASC
       else ks0.localSortDirection))

/-- Positioning as the specification words it, on the per-tuple values: with
`active_keys > 0`, EQ calls `moveToKey`, GT `moveToGreaterThanKey` and GTE
`moveToKeyOrGreater` on the search-key buffer, LT and LTE are the plan error;
with `active_keys == 0`, `moveToEnd(to_start)` with `to_start` true exactly when
the local sort direction is not DESC. -/
def positionBySpec (ex : NestLoopIndexExecutor σ) (ks : KeyState) (st : ExecState σ) :
    Option (ExecState σ) :=
  if ks.activeNumOfSearchKeys > 0 then
    match ks.localLookupType with
    | INDEX_LOOKUP_TYPE_EQ =>
      some { st with cursor := ex.index.moveToKey st.index_values st.cursor
                     trace := st.trace ++ [.moveToKey st.index_values] }
    | INDEX_LOOKUP_TYPE_GT =>
      some { st with cursor := ex.index.moveToGreaterThanKey st.index_values st.cursor
                     trace := st.trace ++ [.moveToGreaterThanKey st.index_values] }
    | INDEX_LOOKUP_TYPE_GTE =>
      some { st with cursor := ex.index.moveToKeyOrGreater st.index_values st.cursor
                     trace := st.trace ++ [.moveToKeyOrGreater st.index_values] }
    | _ => none
  else
    some { st with
      cursor := ex.index.moveToEnd
        (decide (ks.localSortDirection ≠ SORT_DIRECTION_TYPE_DESC)) st.cursor
      trace := st.trace ++
        [.moveToEnd (decide (ks.localSortDirection ≠ SORT_DIRECTION_TYPE_DESC))] }

/-- The call is `nextValue`. -/
def IndexCall.isNextValue : IndexCall → Bool
  | .nextValue _ => true
  | _ => false

/-- The call is `nextValueAtKey`. -/
def IndexCall.isNextValueAtKey : IndexCall → Bool
  | .nextValueAtKey _ => true
  | _ => false

/-- A plan without search keys under lookup kind EQ, over the index of S1: the
whole index is scanned for every outer tuple. -/
def zeroKeyExecutor : NestLoopIndexExecutor ListCursor :=
  { s1Executor JOIN_TYPE_INNER with searchKeyExpressions := [] }

/-! ## Initialisation of the executor -/

/-- Modelled from the spec: a tuple schema, as far as the executor uses the key
schema of the index: its column count and the typed assignment into a column,
which stores a value or throws. -/
structure TupleSchema where
  columnCount : Nat
  setNValue : Nat → NValue → Except SQLException NValue

/-- Modelled from the spec: the inner table, as far as `p_init` and `p_execute`
use it: its column count and `index(name)`, which is NULL (`none`) when the
table has no index of that name. -/
structure PersistentTable (σ : Type) where
  columnCount : Nat
  index : String → Option (TableIndex σ × TupleSchema)

/-- Modelled from the spec: the inline index-scan node of the plan.  A NULL slot
of `getSearchKeyExpressions()` is `none`; `outputSchema` lists
`getOutputSchema()[i]->getExpression()`. -/
structure IndexScanPlanNode (σ : Type) where
  lookupType : IndexLookupType
  sortDirection : SortDirectionType
  outputSchema : List (TableTuple → NValue)
  searchKeyExpressions : List (Option (TableTuple → NValue))
  endExpression : Option (TableTuple → TableTuple → NValue)
  predicate : Option (TableTuple → TableTuple → NValue)
  targetIndexName : String
  targetTable : PersistentTable σ

/-- Modelled from the spec: the join node of the plan, with its inline
index-scan node and the column count of its one input table.  The casts and
`assert`s of lines 71-76, 86 and 124-132 hold of every value of this type. -/
structure NestLoopIndexPlanNode (σ : Type) where
  joinType : JoinType
  inlineIndexScan : IndexScanPlanNode σ
  inputTableColumnCount : Nat

/-- The members of the executor that `p_init` assigns; `index` and
`index_values` are `none` while not assigned. -/
structure InitMembers (σ : Type) where
  join_type : JoinType
  m_lookupType : IndexLookupType
  m_sortDirection : SortDirectionType
  m_outputExpressions : List (TableTuple → NValue)
  index : Option (TableIndex σ × TupleSchema)
  index_values : Option TableTuple

/-- The loop of lines 114-121: some search-key expression slot is NULL. -/
def hasNullSearchKey : List (Option (TableTuple → NValue)) → Bool
  | [] => false
  | none :: _ => true
  | some _ :: rest => hasNullSearchKey rest

/-- `NestLoopIndexExecutor::p_init` (lines 67-152): the value returned and the
members as the call leaves them.  `m_outputExpressions0` is the vector before
the call, to which lines 95-98 append.  `index_values_backing_store i` is what
the storage of line 148 (`new char[...]`, not initialised) holds as key column
`i` when line 150 calls `setAllNulls`. -/
def p_init (node : NestLoopIndexPlanNode σ) (m_outputExpressions0 : List (TableTuple → NValue))
    (index_values_backing_store : Nat → NValue) : Bool × InitMembers σ :=
  let inline_node := node.inlineIndexScan
  let cached : InitMembers σ :=
    { join_type := node.joinType
      m_lookupType := inline_node.lookupType
      m_sortDirection := inline_node.sortDirection
      m_outputExpressions := m_outputExpressions0 ++ inline_node.outputSchema
      index := none
      index_values := none }
  if hasNullSearchKey inline_node.searchKeyExpressions then
    (false, cached)
  else
    match inline_node.targetTable.index inline_node.targetIndexName with
    | none => (false, cached)
    | some (index, keySchema) =>
      (true, { cached with
        index := some (index, keySchema)
        index_values :=
          some (TableTuple.setAllNulls
            ((List.range keySchema.columnCount).map index_values_backing_store)) })

/-- A content of the fresh storage of the key buffer that is not NULL: key
column `i` holds the integer `7 + i`. -/
def staleStorage (i : Nat) : NValue := .integer (7 + i)

/-! ## The deferred free set of the thread-local pool -/

/-- `SizePtrPair` (`ThreadLocalPool.h`, line 147): `std::pair<int32_t, void*>`,
the pointer taken as its address. -/
abbrev SizePtrPair := Int × Nat

/-- `SizePtrPairComparator::operator()` (`ThreadLocalPool.h`, lines 149-172). -/
def SizePtrPairComparator (v1 v2 : SizePtrPair) : Int :=
  if v1.1 < v2.1 then -1
  else if v1.1 > v2.1 then 1
  else if v1.2 < v2.2 then -1
  else if v1.2 > v2.2 then 1
  else 0

/-- The inner table of scenario S1, with its index `I_IDX` on the one column. -/
def s1Table : PersistentTable ListCursor :=
  { columnCount := 1
    index := fun name =>
      if name = "I_IDX" then
        some (s1Index, { columnCount := 1, setNValue := fun _ v => .ok v })
      else none }

/-- The plan of scenario S1, with the given search-key expression slots and
target index name. -/
def s1Plan (searchKeys : List (Option (TableTuple → NValue))) (indexName : String) :
    NestLoopIndexPlanNode ListCursor :=
  { joinType := JOIN_TYPE_LEFT
    inlineIndexScan :=
      { lookupType := INDEX_LOOKUP_TYPE_EQ
        sortDirection := SORT_DIRECTION_TYPE_INVALID
        outputSchema := [fun t => t.getNValue 0]
        searchKeyExpressions := searchKeys
        endExpression := none
        predicate := none
        targetIndexName := indexName
        targetTable := s1Table }
    inputTableColumnCount := 2 }

/-- The row is the one the emission block (lines 399-414) builds from the outer
tuple `o` and the inner tuple `t`, on some content of the row buffer. -/
def EmittedFor (ex : NestLoopIndexExecutor σ) (o t row : TableTuple) : Prop :=
  ∃ st st1 : ExecState σ, emitJoinTuple ex o t st = some st1 ∧ st1.join_tuple = row

/-- The rows inserted while the outer tuple `o` is processed from the state `st`,
in insertion order. -/
def rowsAddedFor (ex : NestLoopIndexExecutor σ) (o : TableTuple) (st : ExecState σ) :
    List TableTuple :=
  (processOuterTuple ex o st).2.output_table.drop st.output_table.length

/-- The calls made on the index while the outer tuple `o` is processed from the
state `st`, in call order. -/
def callsFor (ex : NestLoopIndexExecutor σ) (o : TableTuple) (st : ExecState σ) :
    List IndexCall :=
  (processOuterTuple ex o st).2.trace.drop st.trace.length

/-- For each outer tuple in outer-iterator order, the rows inserted for it, in
the state in which the executor reaches it; none once `p_execute` has ended. -/
def rowBlocks (ex : NestLoopIndexExecutor σ) : List TableTuple → ExecState σ →
    List (List TableTuple)
  | [], _ => []
  | o :: rest, st =>
    rowsAddedFor ex o st ::
      match (processOuterTuple ex o st).1 with
      | none => rowBlocks ex rest (processOuterTuple ex o st).2
      | some _ => rest.map (fun _ => [])

/-- The number of rows in the blocks before block `i`: the position, among the
rows inserted by a run, of the first row of the `i`-th outer tuple. -/
def blockOffset (blocks : List (List TableTuple)) (i : Nat) : Nat :=
  ((blocks.take i).flatten).length

/-! ## The compacting pool of the thread -/

/-- `ThreadLocalPool::Sized` (`ThreadLocalPool.h`, lines 47-51): the size prefix
`m_size`, which the constructor sets to the requested size, followed by the
user data `m_data`. -/
structure Sized where
  m_size : Int
  m_data : List Nat
  deriving DecidableEq, Repr

/-- Modelled from the spec: a live slot of a size class, which holds the sized
payload and, as per-slot metadata, the address of the caller's persistent
pointer slot (the `referrer` of `allocateRelocatable`). -/
structure PoolSlot where
  payload : Sized
  referrer : Nat
  deriving DecidableEq, Repr

/-- Modelled from the spec: the size classes, an implementation choice: a finite
table of classes and the class a requested size is rounded up to; `none` above
the ceiling of 1 MiB + 12 bytes, where the request fails fatally. -/
structure PoolConfig where
  classCount : Nat
  sizeClassOf : Int → Option (Fin classCount)

/-- Modelled from the spec: the address of a payload: its size class and the
position of its slot in the storage of that class, in address order. -/
abbrev PayloadAddress (cfg : PoolConfig) := Fin cfg.classCount × Nat

/-- Modelled from the spec: the compacting pool of one thread, with the memory
of its callers.  Per size class the live slots are contiguous, in address
order, the last one being the tail.  `referrerContents r` is what the caller's
slot at address `r` holds.  `deferredRelease` is the release mode and
`deferredFrees` the deferred free set, in the order of `SizePtrPairComparator`. -/
structure CompactingPool (cfg : PoolConfig) where
  slots : Fin cfg.classCount → List PoolSlot
  referrerContents : Nat → Option (PayloadAddress cfg)
  deferredRelease : Bool
  deferredFrees : List (PayloadAddress cfg)

variable {cfg : PoolConfig}

/-- The (size-class, pointer) pair of a payload address. -/
def PayloadAddress.toSizePtrPair (a : PayloadAddress cfg) : SizePtrPair :=
  ((a.1.val : Int), a.2)

/-- Modelled from the spec: the order of the deferred free set, "first by size
class ascending, then by address ascending", as `SizePtrPairComparator` gives it. -/
def addressLE (a b : PayloadAddress cfg) : Prop :=
  SizePtrPairComparator a.toSizePtrPair b.toSizePtrPair ≤ 0

instance addressLE_decidable (a b : PayloadAddress cfg) : Decidable (addressLE a b) :=
  inferInstanceAs (Decidable (SizePtrPairComparator a.toSizePtrPair b.toSizePtrPair ≤ 0))

/-- Modelled from the spec: insertion into the deferred free set, an ordered set. -/
def deferredInsert (a : PayloadAddress cfg) (frees : List (PayloadAddress cfg)) :
    List (PayloadAddress cfg) :=
  if a ∈ frees then frees else List.orderedInsert addressLE a frees

/-- A pool without allocations, in immediate release mode, before any caller
slot was written. -/
def emptyPool (cfg : PoolConfig) : CompactingPool cfg :=
  { slots := fun _ => []
    referrerContents := fun _ => none
    deferredRelease := false
    deferredFrees := [] }

/-- Modelled from the spec: `allocateRelocatable(referrer, sz)`, followed by the
caller's write of `data` into the payload.  The size class is selected; the
free slot after the tail is taken; the size prefix is written and the caller's
slot address stored with the slot; the payload address is written into the
caller's slot.  `none` is the fatal failure above the size ceiling. -/
def allocateRelocatable (p : CompactingPool cfg) (referrer : Nat) (sz : Int)
    (data : List Nat) : Option (CompactingPool cfg) :=
  match cfg.sizeClassOf sz with
  | none => none
  | some c =>
    some { p with
      slots := Function.update p.slots c (p.slots c ++ [{ payload := ⟨sz, data⟩, referrer := referrer }])
      referrerContents := Function.update p.referrerContents referrer (some (c, (p.slots c).length)) }

/-- Modelled from the spec: free in immediate mode.  The size class is located by
the size prefix; the tail payload is moved into the freed slot by copy and the
slot of the tail's owner is rewritten to the new location, unless the freed slot
is the tail; the live count goes down by one.  `none` when the address is not
that of a live slot of the class its prefix names (undefined by the contract). -/
def freeImmediate (p : CompactingPool cfg) (a : PayloadAddress cfg) :
    Option (CompactingPool cfg) :=
  match (p.slots a.1)[a.2]?, (p.slots a.1).getLast? with
  | some freed, some tail =>
    if cfg.sizeClassOf freed.payload.m_size = some a.1 then
      if a.2 = (p.slots a.1).length - 1 then
        some { p with slots := Function.update p.slots a.1 (p.slots a.1).dropLast }
      else
        some { p with
          slots := Function.update p.slots a.1 ((p.slots a.1).set a.2 tail).dropLast
          referrerContents := Function.update p.referrerContents tail.referrer (some a) }
    else none
  | _, _ => none

/-- Modelled from the spec: free in deferred mode: the (size-class, address) pair
goes into the deferred free set, and nothing is compacted. -/
def freeDeferred (p : CompactingPool cfg) (a : PayloadAddress cfg) :
    Option (CompactingPool cfg) :=
  match (p.slots a.1)[a.2]? with
  | some freed =>
    if cfg.sizeClassOf freed.payload.m_size = some a.1 then
      some { p with deferredFrees := deferredInsert a p.deferredFrees }
    else none
  | none => none

/-- Modelled from the spec: `freeRelocatable`, by the release mode. -/
def freeRelocatable (p : CompactingPool cfg) (a : PayloadAddress cfg) :
    Option (CompactingPool cfg) :=
  if p.deferredRelease then freeDeferred p a else freeImmediate p a

/-- An operation of a caller on the pool: an allocation registered at the
caller's slot `referrer`, with the data the caller stores in it, or the free of
the payload that the caller's slot `referrer` points to. -/
inductive PoolOp where
  | allocate (referrer : Nat) (sz : Int) (data : List Nat)
  | free (referrer : Nat)
  deriving DecidableEq, Repr

/-- One operation: `free referrer` is `freeRelocatable(*referrer)`. -/
def applyOp (p : CompactingPool cfg) : PoolOp → Option (CompactingPool cfg)
  | .allocate referrer sz data => allocateRelocatable p referrer sz data
  | .free referrer =>
    match p.referrerContents referrer with
    | some a => freeRelocatable p a
    | none => none

/-- A sequence of operations, in order. -/
def runOps : CompactingPool cfg → List PoolOp → Option (CompactingPool cfg)
  | p, [] => some p
  | p, op :: rest =>
    match applyOp p op with
    | some p1 => runOps p1 rest
    | none => none

/-- Modelled from the spec: the drain of the deferred free set, from the highest
pair to the lowest, each tombstone freed as in immediate mode and taken out of
the set. -/
def drainFrees : CompactingPool cfg → List (PayloadAddress cfg) → Option (CompactingPool cfg)
  | p, [] => some p
  | p, a :: rest =>
    match freeImmediate p a with
    | some p1 =>
      drainFrees { p1 with deferredFrees := p1.deferredFrees.filter (fun b => b ≠ a) } rest
    | none => none

/-- Modelled from the spec: the constructor of `ScopedPoolDeferredReleaseMode`:
nothing when the mode is deferred already; otherwise the mode is set to
deferred, and the guard records that it flipped it. -/
def guardEnter (p : CompactingPool cfg) : Bool × CompactingPool cfg :=
  if p.deferredRelease then (false, p) else (true, { p with deferredRelease := true })

/-- Modelled from the spec: the destructor of `ScopedPoolDeferredReleaseMode`: a
guard that flipped the mode drains the deferred free set under the immediate
mode, which it restores. -/
def guardExit (flipped : Bool) (p : CompactingPool cfg) : Option (CompactingPool cfg) :=
  if flipped then
    drainFrees { p with deferredRelease := false } p.deferredFrees.reverse
  else some p

/-- The operations run inside the scope of a `ScopedPoolDeferredReleaseMode`,
up to the destruction of the guard. -/
def runGuarded (p : CompactingPool cfg) (ops : List PoolOp) : Option (CompactingPool cfg) :=
  match runOps (guardEnter p).2 ops with
  | some p1 => guardExit (guardEnter p).1 p1
  | none => none

/-- The payloads of a stretch of slots that are not tombstoned, the first slot
being at position `k`. -/
def survivingFrom (dead : Nat → Bool) : Nat → List PoolSlot → List PoolSlot
  | _, [] => []
  | k, s :: rest =>
    if dead k then survivingFrom dead (k + 1) rest else s :: survivingFrom dead (k + 1) rest

/-- The surviving payloads of a size class: the live slots that are not in the
deferred free set, with their referrers. -/
def survivorsOfClass (p : CompactingPool cfg) (c : Fin cfg.classCount) : List PoolSlot :=
  survivingFrom (fun i => decide ((c, i) ∈ p.deferredFrees)) 0 (p.slots c)

/-- The surviving payloads of the pool, by content and referrer slot address. -/
def survivors (p : CompactingPool cfg) : List PoolSlot :=
  (List.finRange cfg.classCount).flatMap (survivorsOfClass p)

/-- The allocations of a sequence of operations that it has not freed, by
referrer, size passed and data, starting from the allocations `live`. -/
def liveAllocations : List PoolSlot → List PoolOp → List PoolSlot
  | live, [] => live
  | live, .allocate referrer sz data :: rest =>
    liveAllocations (live ++ [{ payload := ⟨sz, data⟩, referrer := referrer }]) rest
  | live, .free referrer :: rest =>
    liveAllocations (live.filter (fun s => s.referrer ≠ referrer)) rest

/-- Modelled from the spec: the contract of the callers, for a sequence of
operations on top of the allocations `live`: a request is within the size
ceiling; the slot it registers holds the address of no other live payload (the
slot is "a caller-owned memory location holding the address of the payload",
for the payload's lifetime); and a free is of a live allocation of this pool
(any other free is "undefined at the contract level"). -/
def respectsContract (cfg : PoolConfig) : List PoolSlot → List PoolOp → Bool
  | _, [] => true
  | live, .allocate referrer sz data :: rest =>
    (cfg.sizeClassOf sz).isSome && !(live.map PoolSlot.referrer).contains referrer &&
      respectsContract cfg (live ++ [{ payload := ⟨sz, data⟩, referrer := referrer }]) rest
  | live, .free referrer :: rest =>
    (live.map PoolSlot.referrer).contains referrer &&
      respectsContract cfg (live.filter (fun s => s.referrer ≠ referrer)) rest
/-- A table of two size classes, of requests up to 32 and up to 64 bytes. -/
def twoClasses : PoolConfig :=
  { classCount := 2
    sizeClassOf := fun sz => if sz ≤ 32 then some 0 else if sz ≤ 64 then some 1 else none }

/-- Scenario S4: A, B, C of 32 bytes at the caller slots 100, 200, 300; B freed. -/
def s4Ops : List PoolOp :=
  [.allocate 100 32 [1], .allocate 200 32 [2], .allocate 300 32 [3], .free 200]

/-- Scenario S5: A, B, C, D of one size class, then B and A freed. -/
def s5Ops : List PoolOp :=
  [.allocate 100 32 [1], .allocate 200 32 [2], .allocate 300 32 [3], .allocate 400 32 [4],
    .free 200, .free 100]

/-- The invariant of the pool: the caller's slot of every surviving payload holds
the address of the payload; every slot lies in the size class of its prefix;
the deferred free set holds addresses of live slots, in order and once each. -/
structure PoolInv (p : CompactingPool cfg) : Prop where
  points : ∀ (c : Fin cfg.classCount) (i : Nat) (s : PoolSlot),
    (p.slots c)[i]? = some s → (c, i) ∉ p.deferredFrees →
    p.referrerContents s.referrer = some (c, i)
  classOf : ∀ (c : Fin cfg.classCount) (i : Nat) (s : PoolSlot),
    (p.slots c)[i]? = some s → cfg.sizeClassOf s.payload.m_size = some c
  freesValid : ∀ a ∈ p.deferredFrees, a.2 < (p.slots a.1).length
  freesSorted : p.deferredFrees.Sorted addressLE
  freesNodup : p.deferredFrees.Nodup

/-- Relocation correctness of the pool state `p` reached by the operations `S`:
the caller's slot of every surviving payload holds the address at which the
payload is now; and the surviving payloads are, with their referrers, the
allocations of `S` that it has not freed, each with the size that was passed
in its size prefix and the data that was stored. -/
def RelocationCorrect (S : List PoolOp) (p : CompactingPool cfg) : Prop :=
  (∀ (c : Fin cfg.classCount) (i : Nat) (s : PoolSlot),
    (p.slots c)[i]? = some s → (c, i) ∉ p.deferredFrees →
    p.referrerContents s.referrer = some (c, i)) ∧
  (∀ s ∈ survivors p, PoolOp.allocate s.referrer s.payload.m_size s.payload.m_data ∈ S) ∧
  (survivors p : Multiset PoolSlot) = (liveAllocations [] S : Multiset PoolSlot)

/-! ## From `p_init` to `p_execute` -/

/-- The executor as `p_execute` finds it after `p_init` (lines 179-214): the
search-key, end and post expressions are read from the inline index-scan node,
the column counts from the input table and the inner table, the rest from the
members `p_init` assigned; the typed assignment into the key buffer is that of
the key schema of the index.  `none` while `index` is not assigned.  After a
`p_init` that returned true no search-key slot is NULL, so that every slot is
kept. -/
def executorAfterInit (node : NestLoopIndexPlanNode σ) (m : InitMembers σ) :
    Option (NestLoopIndexExecutor σ) :=
  match m.index with
  | none => none
  | some (index, keySchema) =>
    some
      { searchKeyExpressions := node.inlineIndexScan.searchKeyExpressions.reduceOption
        end_expression := node.inlineIndexScan.endExpression
        post_expression := node.inlineIndexScan.predicate
        join_type := m.join_type
        m_lookupType := m.m_lookupType
        m_sortDirection := m.m_sortDirection
        m_outputExpressions := m.m_outputExpressions
        index := index
        keySetNValue := keySchema.setNValue
        num_of_outer_cols := node.inputTableColumnCount
        num_of_inner_cols := node.inlineIndexScan.targetTable.columnCount }

/-- The inner table of scenario S1 with a TINYINT key column in its index. -/
def tinyintTable : PersistentTable ListCursor :=
  { columnCount := 1
    index := fun name =>
      if name = "I_IDX" then
        some (s1Index, { columnCount := 1, setNValue := tinyintSetNValue })
      else none }

/-- A plan with exactly one search key, `outer[0]`, under the given lookup kind,
on the TINYINT key column of `tinyintTable`. -/
def singleKeyPlan (lookup : IndexLookupType) : NestLoopIndexPlanNode ListCursor :=
  { joinType := JOIN_TYPE_INNER
    inlineIndexScan :=
      { lookupType := lookup
        sortDirection := SORT_DIRECTION_TYPE_INVALID
        outputSchema := [fun t => t.getNValue 0]
        searchKeyExpressions := [some (fun o => o.getNValue 0)]
        endExpression := none
        predicate := none
        targetIndexName := "I_IDX"
        targetTable := tinyintTable }
    inputTableColumnCount := 1 }

/-- The plan of scenario S1 with an inline index-scan node whose output schema
is empty, over the inner table of one column. -/
def narrowPlan : NestLoopIndexPlanNode ListCursor :=
  { joinType := JOIN_TYPE_INNER
    inlineIndexScan :=
      { lookupType := INDEX_LOOKUP_TYPE_EQ
        sortDirection := SORT_DIRECTION_TYPE_INVALID
        outputSchema := []
        searchKeyExpressions := [some (fun o => o.getNValue 0)]
        endExpression := none
        predicate := none
        targetIndexName := "I_IDX"
        targetTable := s1Table }
    inputTableColumnCount := 2 }

/-! ## The left-outer fallback of one outer tuple -/

/-- The local `match` at the test of line 422 for the outer tuple; `none` when
the loop body does not get there (exception, `return false`, failed `assert`,
access out of range). -/
def matchAtFallback (ex : NestLoopIndexExecutor σ) (outer_tuple : TableTuple)
    (st : ExecState σ) : Option Bool :=
  match buildSearchKey ex.keySetNValue outer_tuple ex.searchKeyExpressions 0
      (initialKeyState ex st) with
  | (some _, _) => none
  | (none, ks) =>
    match positionAndScan ex ks outer_tuple { st with index_values := ks.index_values } with
    | (some _, _, _) => none
    | (none, matched, _) => some matched

/-- The block of the left-outer fallback (lines 422-434) is entered for the outer
tuple: the test `!match && join_type == JOIN_TYPE_LEFT` is reached and holds. -/
def fallbackTaken (ex : NestLoopIndexExecutor σ) (outer_tuple : TableTuple)
    (st : ExecState σ) : Bool :=
  match matchAtFallback ex outer_tuple st with
  | some matched => !matched && decide (ex.join_type = JOIN_TYPE_LEFT)
  | none => false

/-- The local `keyException` at the test of line 314 for the outer tuple; false
when the loop body does not get there. -/
def keyErrorFor (ex : NestLoopIndexExecutor σ) (outer_tuple : TableTuple)
    (st : ExecState σ) : Bool :=
  match buildSearchKey ex.keySetNValue outer_tuple ex.searchKeyExpressions 0
      (initialKeyState ex st) with
  | (some _, _) => false
  | (none, ks) => ks.keyException

/-- The inner tuple the first evaluation of the condition of the inner `while`
(lines 351-354) fetches for the outer tuple, `some none` being the null tuple;
`none` when the condition is not evaluated for the outer tuple. -/
def firstFetchFor (ex : NestLoopIndexExecutor σ) (outer_tuple : TableTuple)
    (st : ExecState σ) : Option (Option TableTuple) :=
  match buildSearchKey ex.keySetNValue outer_tuple ex.searchKeyExpressions 0
      (initialKeyState ex st) with
  | (some _, _) => none
  | (none, ks) =>
    if ks.keyException then none
    else
      match positionIndex ex ks { st with index_values := ks.index_values } with
      | none => none
      | some st1 => some (nextInnerTuple ex ks st1).1

/-! ## The predicates of the inner scan -/

/-- The call is a fetch that returned the null tuple. -/
def IndexCall.fetchedNull : IndexCall → Bool
  | .nextValue none => true
  | .nextValueAtKey none => true
  | _ => false

/-- An end expression that is NULL at inner key 8, false from inner key 12 on
and true elsewhere. -/
def endNullAt8 (_ inner : TableTuple) : NValue :=
  match inner.getNValue 0 with
  | .integer i => if i = 8 then .null else .boolean (decide (i < 12))
  | _ => .null

/-- A post expression that is NULL at inner key 11 and true elsewhere. -/
def postNullAt11 (_ inner : TableTuple) : NValue :=
  match inner.getNValue 0 with
  | .integer i => if i = 11 then .null else .boolean true
  | _ => .null

/-- The executor of scenario S6 with predicates that evaluate to NULL: the end
expression at inner key 8, the post expression at inner key 11. -/
def nullPredicateExecutor : NestLoopIndexExecutor ListCursor :=
  { s6Executor endNullAt8 with post_expression := some postNullAt11 }

/-! ## The catalog and its delta commands -/

/-- Modelled from the spec: the path of an item of the catalog tree, as the
(collection, name) steps from the root; the root is the empty path. -/
abbrev CatalogPath := List (String × String)

/-- The text of a path, as the tests of `add_drop_table.cpp` spell it:
`/clusters[cluster]/databases[database]`, and `/` for the root. -/
def CatalogPath.text : CatalogPath → String
  | [] => "/"
  | segs => String.join (segs.map (fun s => "/" ++ s.1 ++ "[" ++ s.2 ++ "]"))

/-- Modelled from the spec: an item of the catalog tree (`catalog::CatalogType`,
not among the files at hand): its path, the flag `wasAdded()` and the fields
the `set` commands have written. -/
structure CatalogType where
  path : CatalogPath
  wasAdded : Bool
  fields : List (String × String)
  deriving DecidableEq, Repr

/-- Modelled from the spec: a textual delta, by its words: `add <ref>
<collection> <name>`, `set <ref> <field> <value>` and `delete <ref>
<collection> <name>`, the reference being a path. -/
inductive CatalogCommand where
  | add (ref : CatalogPath) (collection name : String)
  | set (ref : CatalogPath) (field value : String)
  | delete (ref : CatalogPath) (collection name : String)
  deriving DecidableEq, Repr

/-- Modelled from the spec: the catalog (`catalog::Catalog`, not among the files
at hand): the items of the tree below the root and the deleted paths that
`execute` accumulates. -/
structure Catalog where
  items : List CatalogType
  deletions : List CatalogPath
  deriving DecidableEq, Repr

/-- The catalog has an item at the path; the root is always there. -/
def Catalog.contains (c : Catalog) (p : CatalogPath) : Bool :=
  p == [] || c.items.any (fun it => it.path == p)

/-- The path of the item an `add` command creates. -/
def CatalogCommand.addedPath : CatalogCommand → Option CatalogPath
  | .add ref collection name => some (ref ++ [(collection, name)])
  | _ => none

/-- The path of the item a `delete` command removes. -/
def CatalogCommand.deletedPath : CatalogCommand → Option CatalogPath
  | .delete ref collection name => some (ref ++ [(collection, name)])
  | _ => none

/-- Modelled from the spec: one delta applied to the catalog tree.  `add` puts a
new item into a collection of the referenced item and marks it `was_added`;
`set` writes a field of the referenced item; `delete` takes the item, with what
is below it, out of its parent collection and adds its path to the deleted
paths.  `none` is the exception on a reference to an item that is not there, on
the `add` of an item that is there (test `BadAddTable`) and on the `delete` of
one that is not (test `BadDropTable`). -/
def Catalog.executeOne (c : Catalog) : CatalogCommand → Option Catalog
  | .add ref collection name =>
    if c.contains ref && !c.contains (ref ++ [(collection, name)]) then
      some { c with
        items := c.items ++
          [{ path := ref ++ [(collection, name)], wasAdded := true, fields := [] }] }
    else none
  | .set ref field value =>
    if c.contains ref then
      some { c with
        items := c.items.map (fun it =>
          if it.path = ref then
            { it with fields := it.fields.filter (fun f => f.1 ≠ field) ++ [(field, value)] }
          else it) }
    else none
  | .delete ref collection name =>
    if c.contains (ref ++ [(collection, name)]) then
      some
        { items := c.items.filter (fun it => !(ref ++ [(collection, name)]).isPrefixOf it.path)
          deletions := c.deletions ++ [ref ++ [(collection, name)]] }
    else none

/-- The deltas of a batch, in order. -/
def Catalog.executeAll : Catalog → List CatalogCommand → Option Catalog
  | c, [] => some c
  | c, cmd :: rest =>
    match c.executeOne cmd with
    | some c1 => c1.executeAll rest
    | none => none

/-- Modelled from the spec: "each `execute` clears the prior batch's flags": the
`was_added` marks, and with them the deleted paths, which the test
`DeletionsSetCleared` finds to be those of the last batch only. -/
def Catalog.cleanupExecutionBookkeeping (c : Catalog) : Catalog :=
  { items := c.items.map (fun it => { it with wasAdded := false })
    deletions := [] }

/-- Modelled from the spec: `Catalog::execute` on a batch of deltas: the marks
of the prior batch are cleared, then the deltas are applied in order. -/
def Catalog.execute (c : Catalog) (batch : List CatalogCommand) : Option Catalog :=
  c.cleanupExecutionBookkeeping.executeAll batch

/-- `Catalog::getDeletedPaths`: the text of the deleted paths. -/
def Catalog.getDeletedPaths (c : Catalog) : List String :=
  c.deletions.map CatalogPath.text

/-- The items of a collection of the item at `ref`, by name. -/
def Catalog.collection (c : Catalog) (ref : CatalogPath) (collection : String) :
    List CatalogType :=
  c.items.filter (fun it => it.path.dropLast == ref &&
    (it.path.getLast?.map Prod.fst) == some collection)

/-- The path of the database of the tests. -/
def testDatabase : CatalogPath := [("clusters", "cluster"), ("databases", "database")]

/-- The catalog the fixture of `AddDropTableTest` loads. -/
def initialCatalogCmds : List CatalogCommand :=
  [.add [] "clusters" "cluster",
   .add [("clusters", "cluster")] "databases" "database",
   .add testDatabase "programs" "program",
   .add [("clusters", "cluster")] "hosts" "0",
   .add [("clusters", "cluster")] "partitions" "0",
   .add [("clusters", "cluster")] "partitions" "1",
   .add [("clusters", "cluster")] "partitions" "2",
   .add [("clusters", "cluster")] "sites" "0",
   .set [("clusters", "cluster"), ("sites", "0")] "partition" "/clusters[cluster]/partitions[0]",
   .set [("clusters", "cluster"), ("sites", "0")] "host" "/clusters[cluster]/hosts[0]"]

/-- The batches `tableACmds()` and `tableBCmds()` of the tests, for the table of
the given name. -/
def tableCmds (table : String) : List CatalogCommand :=
  [.add testDatabase "tables" table,
   .set (testDatabase ++ [("tables", table)]) "type" "0",
   .set (testDatabase ++ [("tables", table)]) "isreplicated" "false",
   .set (testDatabase ++ [("tables", table)]) "partitioncolumn" "0",
   .set (testDatabase ++ [("tables", table)]) "estimatedtuplecount" "0",
   .add (testDatabase ++ [("tables", table)]) "columns" "A",
   .set (testDatabase ++ [("tables", table), ("columns", "A")]) "index" "0",
   .set (testDatabase ++ [("tables", table), ("columns", "A")]) "type" "5",
   .set (testDatabase ++ [("tables", table), ("columns", "A")]) "size" "0",
   .set (testDatabase ++ [("tables", table), ("columns", "A")]) "nullable" "false",
   .set (testDatabase ++ [("tables", table), ("columns", "A")]) "name" "\"A\""]

/-- The batches `tableADeleteCmd()` and `tableBDeleteCmd()` of the tests. -/
def tableDeleteCmd (table : String) : List CatalogCommand :=
  [.delete testDatabase "tables" table]

/-- An empty catalog. -/
def emptyCatalog : Catalog := { items := [], deletions := [] }

/-- The batches in turn, each by `execute`. -/
def Catalog.executeBatches : Catalog → List (List CatalogCommand) → Option Catalog
  | c, [] => some c
  | c, batch :: rest =>
    match c.execute batch with
    | some c1 => c1.executeBatches rest
    | none => none

/-- The catalog of the tests after the fixture and the batches of tables A and B,
each by one `execute`. -/
def testCatalogAB : Catalog :=
  (emptyCatalog.executeBatches [initialCatalogCmds, tableCmds "tableA", tableCmds "tableB"]).getD
    emptyCatalog

/-- The catalog of the tests after the further batch that deletes table A. -/
def testCatalogB : Catalog :=
  (testCatalogAB.execute (tableDeleteCmd "tableA")).getD emptyCatalog

/-! ## The tuples of the positioned index iterator -/

/-- The tuples an iterator returns from the cursor `c` on, fetch after fetch,
up to the first null tuple; `fuel` bounds the number of fetches. -/
def drainIterator (fetch : σ → Option TableTuple × σ) : Nat → σ → List TableTuple
  | 0, _ => []
  | fuel + 1, c =>
    match fetch c with
    | (some t, c1) => t :: drainIterator fetch fuel c1
    | (none, _) => []

/-- The fetch of the inner scan on the index alone: under a lookup kind other
than EQ `nextValue`; under EQ with search keys `nextValueAtKey`; under EQ
without search keys `nextValueAtKey` and, on the null tuple, `nextValue`. -/
def iteratorFetch (index : TableIndex σ) (lookup : IndexLookupType) (num_of_searchkeys : Nat)
    (c : σ) : Option TableTuple × σ :=
  match lookup with
  | INDEX_LOOKUP_TYPE_EQ =>
    if num_of_searchkeys = 0 then
      match index.nextValueAtKey c with
      | (some t, c1) => (some t, c1)
      | (none, c1) => index.nextValue c1
    else index.nextValueAtKey c
  | _ => index.nextValue c

/-- The cursor of the index once it is positioned on the search key `key` from
the cursor `c`, by the index alone: with search keys `moveToKey` under EQ,
`moveToGreaterThanKey` under GT, `moveToKeyOrGreater` under GTE, nothing under
LT and LTE; without search keys `moveToEnd`. -/
def positionedCursor (index : TableIndex σ) (lookup : IndexLookupType)
    (sortDirection : SortDirectionType) (num_of_searchkeys : Nat) (key : TableTuple) (c : σ) :
    Option σ :=
  if num_of_searchkeys > 0 then
    match lookup with
    | INDEX_LOOKUP_TYPE_EQ => some (index.moveToKey key c)
    | INDEX_LOOKUP_TYPE_GT => some (index.moveToGreaterThanKey key c)
    | INDEX_LOOKUP_TYPE_GTE => some (index.moveToKeyOrGreater key c)
    | _ => none
  else some (index.moveToEnd (decide (sortDirection ≠ SORT_DIRECTION_TYPE_DESC)) c)

/-- The inner tuples that match the key of the outer tuple `o`: all the tuples
the index iterator, positioned on the search key built from `o`, yields up to
the null tuple.  These are read from the index, not from the calls the executor
makes.  No tuple matches when the search key cannot be built or the iterator
cannot be positioned. -/
def matchingTuples (ex : NestLoopIndexExecutor σ) (o : TableTuple) (st : ExecState σ) :
    List TableTuple :=
  match buildSearchKey ex.keySetNValue o ex.searchKeyExpressions 0 (initialKeyState ex st) with
  | (some _, _) => []
  | (none, ks) =>
    if ks.keyException then []
    else
      match positionedCursor ex.index ks.localLookupType ks.localSortDirection
          ex.searchKeyExpressions.length ks.index_values st.cursor with
      | none => []
      | some c =>
        drainIterator (iteratorFetch ex.index ks.localLookupType ex.searchKeyExpressions.length)
          (ex.index.remaining c + 1) c

/-- The entries of a sorted index that match the search key under the lookup
kind: equal keys under EQ, greater keys under GT, keys not below under GTE. -/
def matchingEntries (entries : List (TableTuple × TableTuple)) (lookup : IndexLookupType)
    (key : TableTuple) : List TableTuple :=
  match lookup with
  | INDEX_LOOKUP_TYPE_EQ => (entries.filter (fun e => e.1 == key)).map Prod.snd
  | INDEX_LOOKUP_TYPE_GT => (entries.filter (fun e => keyLt key e.1)).map Prod.snd
  | INDEX_LOOKUP_TYPE_GTE => (entries.filter (fun e => !keyLt e.1 key)).map Prod.snd
  | _ => []

/-- The `catch` block of key construction (lines 245-308) in a build with
`NDEBUG`, where the `assert` of line 264 is no statement: otherwise as
`handleKeyException`. -/
def handleKeyExceptionNDEBUG (e : SQLException) (ctr : Nat) (ks : KeyState) :
    Option Outcome × KeyState :=
  if !(e.overflow || e.underflow) then
    (some (.threw e), ks)
  else if ks.localLookupType ≠ INDEX_LOOKUP_TYPE_EQ ∧ ctr = ks.activeNumOfSearchKeys - 1 then
    if e.overflow then
      if ks.localLookupType = INDEX_LOOKUP_TYPE_GT ∨
          ks.localLookupType = INDEX_LOOKUP_TYPE_GTE then
        (none, { ks with keyException := true })
      else
        (some (.threw e), ks)
    else if e.underflow then
      if ks.localLookupType = INDEX_LOOKUP_TYPE_LT ∨
          ks.localLookupType = INDEX_LOOKUP_TYPE_LTE then
        (some (.threw e), ks)
      else
        (none, dropLastKey { ks with localLookupType := INDEX_LOOKUP_TYPE_GT })
    else
      (none, dropLastKey ks)
  else
    (none, { ks with keyException := true })

/-- The key-construction loop (lines 238-309) in a build with `NDEBUG`. -/
def buildSearchKeyNDEBUG (keySetNValue : Nat → NValue → Except SQLException NValue)
    (outer_tuple : TableTuple) :
    List (TableTuple → NValue) → Nat → KeyState → Option Outcome × KeyState
  | [], _, ks => (none, ks)
  | expr :: rest, ctr, ks =>
    let candidateValue := expr outer_tuple
    match keySetNValue ctr candidateValue with
    | .ok v =>
      buildSearchKeyNDEBUG keySetNValue outer_tuple rest (ctr + 1)
        { ks with index_values := ks.index_values.set ctr v }
    | .error e => handleKeyExceptionNDEBUG e ctr ks

/-- The body of the outer `while` for one outer tuple (lines 218-435) in a build
with `NDEBUG`. -/
def processOuterTupleNDEBUG (ex : NestLoopIndexExecutor σ) (outer_tuple : TableTuple)
    (st : ExecState σ) : Option Outcome × ExecState σ :=
  match buildSearchKeyNDEBUG ex.keySetNValue outer_tuple ex.searchKeyExpressions 0
      (initialKeyState ex st) with
  | (some stop, ks) => (some stop, { st with index_values := ks.index_values })
  | (none, ks) =>
    match positionAndScan ex ks outer_tuple { st with index_values := ks.index_values } with
    | (some stop, _, st1) => (some stop, st1)
    | (none, matched, st1) =>
      if !matched ∧ ex.join_type = JOIN_TYPE_LEFT then
        (none, leftOuterFallback ex st1)
      else
        (none, st1)

/-- The executor of `singleKeyPlan` under GT after `p_init`: one search key,
`outer[0]`, on the TINYINT key column of the index over the inner rows 1, 2, 3. -/
def singleKeyExecutor : NestLoopIndexExecutor ListCursor :=
  { searchKeyExpressions := [fun o => o.getNValue 0]
    end_expression := none
    post_expression := none
    join_type := JOIN_TYPE_INNER
    m_lookupType := INDEX_LOOKUP_TYPE_GT
    m_sortDirection := SORT_DIRECTION_TYPE_INVALID
    m_outputExpressions := [fun t => t.getNValue 0]
    index := s1Index
    keySetNValue := tinyintSetNValue
    num_of_outer_cols := 1
    num_of_inner_cols := 1 }

/-- The locals of `singleKeyExecutor` after key construction, in a build with
`NDEBUG`, for the outer tuple (-200): the one key is dropped. -/
def droppedKeyState : KeyState :=
  { activeNumOfSearchKeys := 0
    localLookupType := INDEX_LOOKUP_TYPE_GT
    localSortDirection := SORT_DIRECTION_TYPE_ASC
    keyException := false
    index_values := [.null] }

/-! ## The row buffer loops -/

theorem copyOuterColumns_spec (outer_tuple : TableTuple) (n : Nat) (jt : TableTuple) :
    (copyOuterColumns n outer_tuple jt).length = jt.length ∧
    ∀ i, i < jt.length → (copyOuterColumns n outer_tuple jt).getNValue i =
      if i < n then outer_tuple.getNValue i else jt.getNValue i := by
  induction n with
  | zero => simp [copyOuterColumns]
  | succ n ih =>
    obtain ⟨hl, hv⟩ := ih
    have hstep : copyOuterColumns (n + 1) outer_tuple jt =
        (copyOuterColumns n outer_tuple jt).setNValue n (outer_tuple.getNValue n) := by
      simp [copyOuterColumns, List.range_succ, List.foldl_append]
    rw [hstep]
    refine ⟨by simp [TableTuple.setNValue, hl], ?_⟩
    intro i hi
    have := hv i hi
    simp only [TableTuple.setNValue, TableTuple.getNValue] at *
    by_cases hin : i = n
    · subst hin
      simp [List.getD_eq_getElem?_getD, List.getElem?_set, hl, hi]
    · have hne : n ≠ i := fun h => hin h.symm
      simp only [List.getD_eq_getElem?_getD, List.getElem?_set_ne hne] at *
      rw [this]
      by_cases h1 : i < n
      · simp [h1, Nat.lt_succ_of_lt h1]
      · have : ¬ i < n + 1 := by omega
        simp [h1, this]

theorem nullInnerColumns_spec (nO : Nat) (m : Nat) (jt : TableTuple) :
    (nullInnerColumns nO m jt).length = jt.length ∧
    ∀ i, i < jt.length → (nullInnerColumns nO m jt).getNValue i =
      if nO ≤ i ∧ i < nO + m then NValue.null else jt.getNValue i := by
  induction m with
  | zero =>
    refine ⟨by simp [nullInnerColumns], ?_⟩
    intro i hi
    have : ¬ (nO ≤ i ∧ i < nO) := by omega
    simp [nullInnerColumns, this]
  | succ m ih =>
    obtain ⟨hl, hv⟩ := ih
    have hstep : nullInnerColumns nO (m + 1) jt =
        (nullInnerColumns nO m jt).setNValue (m + nO) NValue.null := by
      simp [nullInnerColumns, List.range_succ, List.foldl_append, NValue.setNull]
    rw [hstep]
    refine ⟨by simp [TableTuple.setNValue, hl], ?_⟩
    intro i hi
    have := hv i hi
    simp only [TableTuple.setNValue, TableTuple.getNValue] at *
    by_cases hin : i = m + nO
    · subst hin
      have : nO ≤ m + nO ∧ m + nO < nO + (m + 1) := by omega
      simp [List.getD_eq_getElem?_getD, List.getElem?_set, hl, hi, this]
    · have hne : m + nO ≠ i := fun h => hin h.symm
      simp only [List.getD_eq_getElem?_getD, List.getElem?_set_ne hne] at *
      rw [this]
      by_cases h1 : nO ≤ i ∧ i < nO + m
      · have : nO ≤ i ∧ i < nO + (m + 1) := by omega
        simp [h1, this]
      · have : ¬ (nO ≤ i ∧ i < nO + (m + 1)) := by omega
        simp [h1, this]

theorem projectInnerColumns_spec (exprs : List (TableTuple → NValue)) (nO : Nat)
    (inner_tuple : TableTuple) (m : Nat) (jt : TableTuple) (hm : m ≤ exprs.length) :
    ∃ row, projectInnerColumns exprs nO m inner_tuple jt = some row ∧
      row.length = jt.length ∧
      (∀ i, i < jt.length → ¬ (nO ≤ i ∧ i < nO + m) → row.getNValue i = jt.getNValue i) ∧
      (∀ c (hc : c < m), nO + c < jt.length →
        row.getNValue (nO + c) = (exprs.get ⟨c, Nat.lt_of_lt_of_le hc hm⟩) inner_tuple) := by
  induction m with
  | zero =>
    exact ⟨jt, by simp [projectInnerColumns], rfl, fun _ _ _ => rfl, fun c hc => absurd hc (by omega)⟩
  | succ m ih =>
    obtain ⟨row, hrow, hl, hout, hin⟩ := ih (Nat.le_of_succ_le hm)
    have hlt : m < exprs.length := hm
    refine ⟨row.setNValue (nO + m) ((exprs.get ⟨m, hlt⟩) inner_tuple), ?_, ?_, ?_, ?_⟩
    · unfold projectInnerColumns at hrow ⊢
      rw [List.range_succ, List.foldlM_append, hrow]
      simp [List.getElem?_eq_getElem hlt]
    · simp [TableTuple.setNValue, hl]
    · intro i hi hni
      have hne : nO + m ≠ i := by omega
      have := hout i hi (by omega)
      simp only [TableTuple.setNValue, TableTuple.getNValue,
        List.getD_eq_getElem?_getD, List.getElem?_set_ne hne] at *
      exact this
    · intro c hc hlen
      by_cases hcm : c = m
      · subst hcm
        simp [TableTuple.setNValue, TableTuple.getNValue, List.getD_eq_getElem?_getD,
          List.getElem?_set, hl, hlen]
      · have hne : nO + m ≠ nO + c := by omega
        have := hin c (by omega) hlen
        simp only [TableTuple.setNValue, TableTuple.getNValue,
          List.getD_eq_getElem?_getD, List.getElem?_set_ne hne] at *
        exact this

/-! ## The inner scan -/

theorem callNextValue_spec (ex : NestLoopIndexExecutor σ) (st : ExecState σ) :
    (callNextValue ex st).2.output_table = st.output_table ∧
    (callNextValue ex st).2.join_tuple = st.join_tuple ∧
    (callNextValue ex st).2.index_values = st.index_values ∧
    (callNextValue ex st).2.trace = st.trace ++ [.nextValue (callNextValue ex st).1] ∧
    ex.index.remaining (callNextValue ex st).2.cursor +
      (if (callNextValue ex st).1.isSome then 1 else 0) ≤ ex.index.remaining st.cursor :=
  ⟨rfl, rfl, rfl, rfl, ex.index.nextValue_remaining st.cursor⟩

theorem callNextValueAtKey_spec (ex : NestLoopIndexExecutor σ) (st : ExecState σ) :
    (callNextValueAtKey ex st).2.output_table = st.output_table ∧
    (callNextValueAtKey ex st).2.join_tuple = st.join_tuple ∧
    (callNextValueAtKey ex st).2.index_values = st.index_values ∧
    (callNextValueAtKey ex st).2.trace =
      st.trace ++ [.nextValueAtKey (callNextValueAtKey ex st).1] ∧
    ex.index.remaining (callNextValueAtKey ex st).2.cursor +
      (if (callNextValueAtKey ex st).1.isSome then 1 else 0) ≤ ex.index.remaining st.cursor :=
  ⟨rfl, rfl, rfl, rfl, ex.index.nextValueAtKey_remaining st.cursor⟩

/-- What one evaluation of the loop condition does to the state. -/
theorem nextInnerTuple_spec (ex : NestLoopIndexExecutor σ) (ks : KeyState) (st : ExecState σ) :
    (nextInnerTuple ex ks st).2.output_table = st.output_table ∧
    (nextInnerTuple ex ks st).2.join_tuple = st.join_tuple ∧
    (nextInnerTuple ex ks st).2.index_values = st.index_values ∧
    (∃ calls, (nextInnerTuple ex ks st).2.trace = st.trace ++ calls ∧ calls ≠ [] ∧
      yieldCount calls = (if (nextInnerTuple ex ks st).1.isSome then 1 else 0)) ∧
    ex.index.remaining (nextInnerTuple ex ks st).2.cursor +
      (if (nextInnerTuple ex ks st).1.isSome then 1 else 0) ≤ ex.index.remaining st.cursor := by
  unfold nextInnerTuple
  by_cases hEQ : ks.localLookupType = INDEX_LOOKUP_TYPE_EQ
  · rw [if_pos hEQ]
    obtain ⟨h1, h2, h3, h4, h5⟩ := callNextValueAtKey_spec ex st
    rcases hr : callNextValueAtKey ex st with ⟨r, st1⟩
    rw [hr] at h1 h2 h3 h4 h5
    simp only at h1 h2 h3 h4 h5
    cases r with
    | some t =>
      refine ⟨h1, h2, h3, ⟨[.nextValueAtKey (some t)], h4, by simp, by simp [yieldCount, yieldedTuples]⟩, h5⟩
    | none =>
      simp only
      by_cases hK : ex.searchKeyExpressions.length = 0
      · simp only [if_pos hK]
        obtain ⟨g1, g2, g3, g4, g5⟩ := callNextValue_spec ex st1
        refine ⟨g1.trans h1, g2.trans h2, g3.trans h3, ⟨[.nextValueAtKey none,
          .nextValue (callNextValue ex st1).1], ?_, by simp, ?_⟩, ?_⟩
        · rw [g4, h4]; simp
        · cases (callNextValue ex st1).1 <;> simp [yieldCount, yieldedTuples]
        · simp at h5; omega
      · simp only [if_neg hK]
        exact ⟨h1, h2, h3, ⟨[.nextValueAtKey none], h4, by simp, by simp [yieldCount, yieldedTuples]⟩, h5⟩
  · rw [if_neg hEQ]
    obtain ⟨g1, g2, g3, g4, g5⟩ := callNextValue_spec ex st
    refine ⟨g1, g2, g3, ⟨[.nextValue (callNextValue ex st).1], g4, by simp, ?_⟩, g5⟩
    cases (callNextValue ex st).1 <;> simp [yieldCount, yieldedTuples]

/-- What the emission of a joined row does to the state. -/
theorem emitJoinTuple_frame (ex : NestLoopIndexExecutor σ) (o t : TableTuple)
    (st st2 : ExecState σ) (h : emitJoinTuple ex o t st = some st2) :
    st2.cursor = st.cursor ∧ st2.trace = st.trace ∧ st2.index_values = st.index_values ∧
    st2.output_table = st.output_table ++ [st2.join_tuple] := by
  unfold emitJoinTuple at h
  split at h
  · injection h with h
    subst h
    exact ⟨rfl, rfl, rfl, rfl⟩
  · exact absurd h (by simp)

/-- With an output expression for every inner column the emission succeeds. -/
theorem emitJoinTuple_isSome (ex : NestLoopIndexExecutor σ) (o t : TableTuple)
    (st : ExecState σ) (hexprs : ex.num_of_inner_cols ≤ ex.m_outputExpressions.length) :
    ∃ st2, emitJoinTuple ex o t st = some st2 := by
  obtain ⟨row, hrow, _⟩ := projectInnerColumns_spec ex.m_outputExpressions ex.num_of_outer_cols
    t ex.num_of_inner_cols (copyOuterColumns ex.num_of_outer_cols o st.join_tuple) hexprs
  exact ⟨insertTupleNonVirtual { st with join_tuple := row }, by simp only [emitJoinTuple, hrow]⟩

/-- The bound on the iterations of the inner loop is never reached: above
`remaining`, the loop does not depend on it. -/
theorem scanLoop_fuel (ex : NestLoopIndexExecutor σ) (ks : KeyState) (o : TableTuple) :
    ∀ (n k : Nat) (m : Bool) (st : ExecState σ),
      ex.index.remaining st.cursor < n → ex.index.remaining st.cursor < k →
      scanLoop ex ks o n m st = scanLoop ex ks o k m st := by
  intro n
  induction n with
  | zero => intro k m st hn; exact absurd hn (by omega)
  | succ n ih =>
    intro k m st hn hk
    cases k with
    | zero => exact absurd hk (by omega)
    | succ k =>
      obtain ⟨-, -, -, -, hrem⟩ := nextInnerTuple_spec ex ks st
      unfold scanLoop
      rcases hr : nextInnerTuple ex ks st with ⟨r, st1⟩
      rw [hr] at hrem
      cases r with
      | none => rfl
      | some t =>
        simp only at hrem ⊢
        simp only [Option.isSome_some, if_true] at hrem
        split
        · rfl
        · split
          · cases he : emitJoinTuple ex o t st1 with
            | none => rfl
            | some st2 =>
              simp only
              obtain ⟨hc, -⟩ := emitJoinTuple_frame ex o t st1 st2 he
              exact ih k true st2 (by rw [hc]; omega) (by rw [hc]; omega)
          · exact ih k true st1 (by omega) (by omega)

theorem yieldCount_append (a b : List IndexCall) :
    yieldCount (a ++ b) = yieldCount a + yieldCount b := by
  simp [yieldCount, yieldedTuples, List.filterMap_append]

/-- The inner loop only appends: to the log of index calls and to the output
table.  It ends normally or on an out-of-range output expression. -/
theorem scanLoop_frame (ex : NestLoopIndexExecutor σ) (ks : KeyState) (o : TableTuple) :
    ∀ (n : Nat) (m : Bool) (st : ExecState σ),
      ((scanLoop ex ks o n m st).1 = none ∨ (scanLoop ex ks o n m st).1 = some .outOfBounds) ∧
      (scanLoop ex ks o n m st).2.2.index_values = st.index_values ∧
      ∃ calls rows, (scanLoop ex ks o n m st).2.2.trace = st.trace ++ calls ∧
        (scanLoop ex ks o n m st).2.2.output_table = st.output_table ++ rows ∧
        rows.length ≤ yieldCount calls ∧
        ((scanLoop ex ks o n m st).2.1 = false → m = false ∧ yieldCount calls = 0) := by
  intro n
  induction n with
  | zero =>
    intro m st
    exact ⟨Or.inl rfl, rfl, [], [], by simp [scanLoop], by simp [scanLoop], by simp,
      fun h => ⟨h, rfl⟩⟩
  | succ n ih =>
    intro m st
    obtain ⟨h1, h2, h3, ⟨calls, h4, -, h4c⟩, -⟩ := nextInnerTuple_spec ex ks st
    unfold scanLoop
    rcases hr : nextInnerTuple ex ks st with ⟨r, st1⟩
    rw [hr] at h1 h2 h3 h4 h4c
    simp only at h1 h2 h3 h4 h4c
    cases r with
    | none =>
      exact ⟨Or.inl rfl, h3, calls, [], h4, by simp [h1], by simp,
        fun h => ⟨h, by simpa using h4c⟩⟩
    | some t =>
      simp only [Option.isSome_some, if_true] at h4c
      simp only
      split
      · exact ⟨Or.inl rfl, h3, calls, [], h4, by simp [h1], by simp,
          fun h => absurd h (by simp)⟩
      · split
        · cases he : emitJoinTuple ex o t st1 with
          | none =>
            exact ⟨Or.inr rfl, h3, calls, [], h4, by simp [h1], by simp,
              fun h => absurd h (by simp)⟩
          | some st2 =>
            simp only
            obtain ⟨-, e2, e3, e4⟩ := emitJoinTuple_frame ex o t st1 st2 he
            obtain ⟨i1, i2, calls2, rows2, i3, i4, i5, i6⟩ := ih true st2
            refine ⟨i1, by rw [i2, e3, h3], calls ++ calls2, st2.join_tuple :: rows2, ?_, ?_, ?_, ?_⟩
            · rw [i3, e2, h4, List.append_assoc]
            · rw [i4, e4, h1]; simp
            · rw [yieldCount_append]; simp; omega
            · intro h; exact absurd (i6 h).1 (by simp)
        · obtain ⟨i1, i2, calls2, rows2, i3, i4, i5, i6⟩ := ih true st1
          refine ⟨i1, by rw [i2, h3], calls ++ calls2, rows2, ?_, ?_, ?_, ?_⟩
          · rw [i3, h4, List.append_assoc]
          · rw [i4, h1]
          · rw [yieldCount_append]; omega
          · intro h; exact absurd (i6 h).1 (by simp)

/-- Without end and post expression, and with an output expression for every
inner column, the inner loop inserts one row per inner tuple yielded. -/
theorem scanLoop_count (ex : NestLoopIndexExecutor σ) (ks : KeyState) (o : TableTuple)
    (hend : ex.end_expression = none) (hpost : ex.post_expression = none)
    (hexprs : ex.num_of_inner_cols ≤ ex.m_outputExpressions.length) :
    ∀ (n : Nat) (m : Bool) (st : ExecState σ),
      (scanLoop ex ks o n m st).1 = none ∧
      ∃ calls, (scanLoop ex ks o n m st).2.2.trace = st.trace ++ calls ∧
        (scanLoop ex ks o n m st).2.2.output_table.length =
          st.output_table.length + yieldCount calls := by
  intro n
  induction n with
  | zero =>
    intro m st
    exact ⟨rfl, [], by simp [scanLoop], by simp [scanLoop, yieldCount, yieldedTuples]⟩
  | succ n ih =>
    intro m st
    obtain ⟨h1, -, -, ⟨calls, h4, -, h4c⟩, -⟩ := nextInnerTuple_spec ex ks st
    unfold scanLoop
    rcases hr : nextInnerTuple ex ks st with ⟨r, st1⟩
    rw [hr] at h1 h4 h4c
    simp only at h1 h4 h4c
    cases r with
    | none => exact ⟨rfl, calls, h4, by simpa [h1] using h4c⟩
    | some t =>
      simp only [Option.isSome_some, if_true] at h4c
      obtain ⟨st2, he⟩ := emitJoinTuple_isSome ex o t st1 hexprs
      obtain ⟨-, e2, -, e4⟩ := emitJoinTuple_frame ex o t st1 st2 he
      obtain ⟨i1, calls2, i3, i4⟩ := ih true st2
      simp only [endExpressionIsFalse, postExpressionPasses, hend, hpost, he, if_true,
        Bool.false_eq_true, if_false]
      refine ⟨i1, calls ++ calls2, ?_, ?_⟩
      · rw [i3, e2, h4, List.append_assoc]
      · rw [i4, e4, h1, yieldCount_append]; simp; omega

/-! ## Key construction -/

/-- The `catch` block ends `p_execute` only by re-throwing or on the assertion. -/
theorem handleKeyException_stop (e : SQLException) (ctr : Nat) (ks : KeyState) :
    (handleKeyException e ctr ks).1 = none ∨
    (handleKeyException e ctr ks).1 = some (.threw e) ∨
    (handleKeyException e ctr ks).1 = some .assertionFailed := by
  unfold handleKeyException
  split_ifs <;> simp

theorem buildSearchKey_cons_ok (f : Nat → NValue → Except SQLException NValue)
    (o : TableTuple) (expr : TableTuple → NValue) (rest : List (TableTuple → NValue))
    (ctr : Nat) (ks : KeyState) (v : NValue) (h : f ctr (expr o) = .ok v) :
    buildSearchKey f o (expr :: rest) ctr ks =
      buildSearchKey f o rest (ctr + 1) { ks with index_values := ks.index_values.set ctr v } := by
  simp only [buildSearchKey, h]

theorem buildSearchKey_cons_error (f : Nat → NValue → Except SQLException NValue)
    (o : TableTuple) (expr : TableTuple → NValue) (rest : List (TableTuple → NValue))
    (ctr : Nat) (ks : KeyState) (e : SQLException) (h : f ctr (expr o) = .error e) :
    buildSearchKey f o (expr :: rest) ctr ks = handleKeyException e ctr ks := by
  simp only [buildSearchKey, h]

/-- Key construction ends `p_execute` only by an exception or on the assertion. -/
theorem buildSearchKey_stop (f : Nat → NValue → Except SQLException NValue) (o : TableTuple) :
    ∀ (exprs : List (TableTuple → NValue)) (ctr : Nat) (ks : KeyState),
      (buildSearchKey f o exprs ctr ks).1 = none ∨
      (∃ e, (buildSearchKey f o exprs ctr ks).1 = some (.threw e)) ∨
      (buildSearchKey f o exprs ctr ks).1 = some .assertionFailed := by
  intro exprs
  induction exprs with
  | nil => intro ctr ks; exact Or.inl rfl
  | cons expr rest ih =>
    intro ctr ks
    cases h : f ctr (expr o) with
    | ok v => rw [buildSearchKey_cons_ok f o expr rest ctr ks v h]; exact ih _ _
    | error e =>
      rw [buildSearchKey_cons_error f o expr rest ctr ks e h]
      rcases handleKeyException_stop e ctr ks with h1 | h1 | h1
      · exact Or.inl h1
      · exact Or.inr (Or.inl ⟨e, h1⟩)
      · exact Or.inr (Or.inr h1)

/-- When the key columns before `c` are assigned and the assignment of column
`c` throws `e`, key construction ends in the `catch` block for `e` at `c`, with
all locals but the key buffer as they were. -/
theorem buildSearchKey_error_at (f : Nat → NValue → Except SQLException NValue)
    (o : TableTuple) (e : SQLException) :
    ∀ (c : Nat) (exprs : List (TableTuple → NValue)) (ctr : Nat) (ks : KeyState),
      (∀ i expr, i < c → exprs[i]? = some expr → ∃ v, f (ctr + i) (expr o) = .ok v) →
      (∃ expr, exprs[c]? = some expr ∧ f (ctr + c) (expr o) = .error e) →
      ∃ iv, buildSearchKey f o exprs ctr ks =
        handleKeyException e (ctr + c) { ks with index_values := iv } := by
  intro c
  induction c with
  | zero =>
    intro exprs ctr ks _ herr
    obtain ⟨expr, hx, he⟩ := herr
    cases exprs with
    | nil => simp at hx
    | cons x rest =>
      simp at hx
      subst hx
      refine ⟨ks.index_values, ?_⟩
      simp only [Nat.add_zero] at he ⊢
      rw [buildSearchKey_cons_error f o x rest ctr ks e he]
  | succ c ih =>
    intro exprs ctr ks hok herr
    obtain ⟨expr, hx, he⟩ := herr
    cases exprs with
    | nil => simp at hx
    | cons x rest =>
      obtain ⟨v, hv⟩ := hok 0 x (by omega) (by simp)
      simp at hv
      simp at hx
      obtain ⟨iv, hiv⟩ := ih rest (ctr + 1) { ks with index_values := ks.index_values.set ctr v }
        (fun i ex2 hi hget => by
          have := hok (i + 1) ex2 (by omega) (by simpa using hget)
          simpa [Nat.add_assoc, Nat.add_comm 1 i] using this)
        ⟨expr, hx, by simpa [Nat.add_assoc, Nat.add_comm 1 c] using he⟩
      refine ⟨iv, ?_⟩
      rw [buildSearchKey_cons_ok f o x rest ctr ks v hv, hiv]
      simp [Nat.add_assoc, Nat.add_comm 1 c]

/-- Priming the iterator makes one call on the index, which yields no tuple,
and touches neither the output table nor the row buffer. -/
theorem positionIndex_spec (ex : NestLoopIndexExecutor σ) (ks : KeyState)
    (st st1 : ExecState σ) (h : positionIndex ex ks st = some st1) :
    st1.output_table = st.output_table ∧ st1.join_tuple = st.join_tuple ∧
    st1.index_values = st.index_values ∧
    ∃ c, st1.trace = st.trace ++ [c] ∧ yieldCount [c] = 0 := by
  unfold positionIndex at h
  split_ifs at h
  · split at h
    all_goals first
      | (injection h with h; subst h; exact ⟨rfl, rfl, rfl, _, rfl, rfl⟩)
      | exact absurd h (by simp)
  · simp only [Option.some.injEq] at h
    subst h
    exact ⟨rfl, rfl, rfl, _, rfl, rfl⟩

/-! ## One outer tuple -/

/-- The guarded part of the loop body never stops `p_execute` with `true`. -/
theorem positionAndScan_stop (ex : NestLoopIndexExecutor σ) (ks : KeyState) (o : TableTuple)
    (st : ExecState σ) :
    (positionAndScan ex ks o st).1 = none ∨
    (positionAndScan ex ks o st).1 = some (.returned false) ∨
    (positionAndScan ex ks o st).1 = some .outOfBounds := by
  unfold positionAndScan
  split_ifs
  · cases hp : positionIndex ex ks st with
    | none => exact Or.inr (Or.inl rfl)
    | some st1 =>
      rcases (scanLoop_frame ex ks o (ex.index.remaining st1.cursor + 1) false st1).1 with h | h
      · exact Or.inl h
      · exact Or.inr (Or.inr h)
  · exact Or.inl rfl

/-- The body of the outer loop never stops `p_execute` with `true`. -/
theorem processOuterTuple_stop (ex : NestLoopIndexExecutor σ) (o : TableTuple)
    (st : ExecState σ) : (processOuterTuple ex o st).1 ≠ some (.returned true) := by
  unfold processOuterTuple
  rcases hb : buildSearchKey ex.keySetNValue o ex.searchKeyExpressions 0
    (initialKeyState ex st) with ⟨fl, ks⟩
  have hstop := buildSearchKey_stop ex.keySetNValue o ex.searchKeyExpressions 0
    (initialKeyState ex st)
  rw [hb] at hstop
  simp only at hstop
  cases fl with
  | some stop =>
    simp only
    rcases hstop with h | ⟨e, h⟩ | h <;> simp at h <;> simp [h]
  | none =>
    simp only
    have hps := positionAndScan_stop ex ks o { st with index_values := ks.index_values }
    rcases hp : positionAndScan ex ks o { st with index_values := ks.index_values } with
      ⟨fl2, m, st1⟩
    rw [hp] at hps
    simp only at hps
    cases fl2 with
    | some stop => rcases hps with h | h | h <;> simp at h <;> simp [h]
    | none => simp only; split_ifs <;> simp

/-- When key construction sets `keyException`, the outer tuple is skipped: only
the left-outer fallback can follow. -/
theorem processOuterTuple_keyException (ex : NestLoopIndexExecutor σ) (o : TableTuple)
    (st : ExecState σ) (ks : KeyState)
    (hb : buildSearchKey ex.keySetNValue o ex.searchKeyExpressions 0 (initialKeyState ex st)
      = (none, ks))
    (hk : ks.keyException = true) :
    processOuterTuple ex o st =
      if ex.join_type = JOIN_TYPE_LEFT then
        (none, leftOuterFallback ex { st with index_values := ks.index_values })
      else (none, { st with index_values := ks.index_values }) := by
  unfold processOuterTuple
  rw [hb]
  simp only [positionAndScan, hk, Bool.not_true, Bool.false_eq_true, if_false, Bool.not_false,
    true_and]

/-- The left-outer fallback appends one row, whose inner columns are NULL and
whose other columns are those of the row buffer; it makes no call on the index. -/
theorem leftOuterFallback_spec (ex : NestLoopIndexExecutor σ) (st : ExecState σ) :
    (leftOuterFallback ex st).trace = st.trace ∧
    (leftOuterFallback ex st).cursor = st.cursor ∧
    (leftOuterFallback ex st).index_values = st.index_values ∧
    ∃ row, (leftOuterFallback ex st).output_table = st.output_table ++ [row] ∧
      row.length = st.join_tuple.length ∧
      (∀ i, ex.num_of_outer_cols ≤ i → i < ex.num_of_outer_cols + ex.num_of_inner_cols →
        i < st.join_tuple.length → row[i]? = some NValue.null) ∧
      (∀ i, i < ex.num_of_outer_cols → row[i]? = st.join_tuple[i]?) := by
  obtain ⟨hl, hv⟩ := nullInnerColumns_spec ex.num_of_outer_cols ex.num_of_inner_cols st.join_tuple
  refine ⟨rfl, rfl, rfl, _, rfl, hl, ?_, ?_⟩
  · intro i h1 h2 h3
    have := hv i h3
    rw [if_pos ⟨h1, h2⟩] at this
    rw [← this]
    simp [TableTuple.getNValue, List.getD_eq_getElem?_getD, List.getElem?_eq_getElem, hl, h3]
  · intro i h1
    by_cases h3 : i < st.join_tuple.length
    · have := hv i h3
      rw [if_neg (by omega)] at this
      simp only [TableTuple.getNValue, List.getD_eq_getElem?_getD] at this
      rw [List.getElem?_eq_getElem (by rw [hl]; exact h3), List.getElem?_eq_getElem h3] at this ⊢
      simpa using this
    · have hl2 : (nullInnerColumns ex.num_of_outer_cols ex.num_of_inner_cols
          st.join_tuple).length ≤ i := by rw [hl]; omega
      rw [List.getElem?_eq_none hl2, List.getElem?_eq_none (by omega)]

/-- For an INNER join without end and post expression, the rows inserted for one
outer tuple are as many as the inner tuples the iterator yielded for it. -/
theorem processOuterTuple_count (ex : NestLoopIndexExecutor σ) (o : TableTuple)
    (st : ExecState σ) (hjoin : ex.join_type = JOIN_TYPE_INNER)
    (hend : ex.end_expression = none) (hpost : ex.post_expression = none)
    (hexprs : ex.num_of_inner_cols ≤ ex.m_outputExpressions.length) :
    (processOuterTuple ex o st).2.output_table.length =
      st.output_table.length + yieldedFor ex o st := by
  have key : ∃ calls, (processOuterTuple ex o st).2.trace = st.trace ++ calls ∧
      (processOuterTuple ex o st).2.output_table.length =
        st.output_table.length + yieldCount calls := by
    unfold processOuterTuple
    rcases hb : buildSearchKey ex.keySetNValue o ex.searchKeyExpressions 0
      (initialKeyState ex st) with ⟨fl, ks⟩
    cases fl with
    | some stop => exact ⟨[], by simp, by simp [yieldCount, yieldedTuples]⟩
    | none =>
      simp only
      have hscan : ∃ calls,
          (positionAndScan ex ks o { st with index_values := ks.index_values }).2.2.trace =
            st.trace ++ calls ∧
          (positionAndScan ex ks o { st with index_values := ks.index_values }).2.2.output_table.length
            = st.output_table.length + yieldCount calls := by
        unfold positionAndScan
        split_ifs
        · cases hp : positionIndex ex ks { st with index_values := ks.index_values } with
          | none => exact ⟨[], by simp, by simp [yieldCount, yieldedTuples]⟩
          | some st1 =>
            obtain ⟨p1, -, -, c, p4, p5⟩ := positionIndex_spec ex ks _ st1 hp
            obtain ⟨-, calls, s1, s2⟩ := scanLoop_count ex ks o hend hpost hexprs
              (ex.index.remaining st1.cursor + 1) false st1
            refine ⟨c :: calls, ?_, ?_⟩
            · simp only [scanInner]; rw [s1, p4]; simp
            · simp only [scanInner]; rw [s2, p1]
              have : yieldCount (c :: calls) = yieldCount [c] + yieldCount calls := by
                rw [← yieldCount_append]; rfl
              rw [this, p5]; simp
        · exact ⟨[], by simp, by simp [yieldCount, yieldedTuples]⟩
      rcases hp : positionAndScan ex ks o { st with index_values := ks.index_values } with
        ⟨fl2, m, st1⟩
      rw [hp] at hscan
      simp only at hscan
      cases fl2 with
      | some stop => exact hscan
      | none =>
        simp only [hjoin]
        simpa using hscan
  obtain ⟨calls, h1, h2⟩ := key
  rw [h2, yieldedFor, h1]
  simp

/-- For an INNER join without end and post expression, `p_execute` inserts, in
all, one row per inner tuple the index iterator yielded, summed over the outer
tuples. -/
theorem p_execute_count (ex : NestLoopIndexExecutor σ)
    (hjoin : ex.join_type = JOIN_TYPE_INNER)
    (hend : ex.end_expression = none) (hpost : ex.post_expression = none)
    (hexprs : ex.num_of_inner_cols ≤ ex.m_outputExpressions.length) :
    ∀ (outer_table : List TableTuple) (st : ExecState σ),
      (p_execute ex outer_table st).2.output_table.length =
        st.output_table.length + (yieldCounts ex outer_table st).sum := by
  intro outer_table
  induction outer_table with
  | nil => intro st; simp [p_execute, yieldCounts]
  | cons o rest ih =>
    intro st
    have hcount := processOuterTuple_count ex o st hjoin hend hpost hexprs
    unfold p_execute yieldCounts
    rcases hp : processOuterTuple ex o st with ⟨fl, st1⟩
    rw [hp] at hcount
    cases fl with
    | some stop =>
      simp only at hcount ⊢
      rw [hcount]
      simp
    | none =>
      simp only at hcount ⊢
      rw [ih st1, hcount]
      simp
      omega

/-! ## Overflow and underflow of a search key -/

/-- Key construction from the top of the loop body, when the assignment of key
column `c` is the first to throw. -/
theorem buildSearchKey_first_error (ex : NestLoopIndexExecutor σ) (o : TableTuple)
    (st : ExecState σ) (e : SQLException) (c : Nat)
    (hok : ∀ i expr, i < c → ex.searchKeyExpressions[i]? = some expr →
      ∃ v, ex.keySetNValue i (expr o) = .ok v)
    (herr : ∃ expr, ex.searchKeyExpressions[c]? = some expr ∧
      ex.keySetNValue c (expr o) = .error e) :
    ∃ iv, buildSearchKey ex.keySetNValue o ex.searchKeyExpressions 0 (initialKeyState ex st) =
      handleKeyException e c { initialKeyState ex st with index_values := iv } := by
  obtain ⟨iv, h⟩ := buildSearchKey_error_at ex.keySetNValue o e c ex.searchKeyExpressions 0
    (initialKeyState ex st) (by simpa using hok) (by simpa using herr)
  exact ⟨iv, by simpa using h⟩

/-- The `catch` block on an overflow at the last key column under GT or GTE. -/
theorem handleKeyException_overflow_last (e : SQLException) (ctr : Nat) (ks : KeyState)
    (hov : e.overflow = true)
    (hl : ks.localLookupType = INDEX_LOOKUP_TYPE_GT ∨ ks.localLookupType = INDEX_LOOKUP_TYPE_GTE)
    (hc : ctr = ks.activeNumOfSearchKeys - 1) (hK : 1 < ks.activeNumOfSearchKeys) :
    handleKeyException e ctr ks = (none, { ks with keyException := true }) := by
  have hne : ks.localLookupType ≠ INDEX_LOOKUP_TYPE_EQ := by
    rcases hl with h | h <;> rw [h] <;> decide
  unfold handleKeyException
  simp [hov, hne, hc, hK, hl]

/-- The `catch` block on an underflow without overflow at the last key column
under GT or GTE. -/
theorem handleKeyException_underflow_last (e : SQLException) (ctr : Nat) (ks : KeyState)
    (hov : e.overflow = false) (hun : e.underflow = true)
    (hl : ks.localLookupType = INDEX_LOOKUP_TYPE_GT ∨ ks.localLookupType = INDEX_LOOKUP_TYPE_GTE)
    (hc : ctr = ks.activeNumOfSearchKeys - 1) (hK : 1 < ks.activeNumOfSearchKeys) :
    handleKeyException e ctr ks =
      (none, dropLastKey { ks with localLookupType := INDEX_LOOKUP_TYPE_GT }) := by
  have hne : ks.localLookupType ≠ INDEX_LOOKUP_TYPE_EQ := by
    rcases hl with h | h <;> rw [h] <;> decide
  have hlt : ¬ (ks.localLookupType = INDEX_LOOKUP_TYPE_LT ∨
      ks.localLookupType = INDEX_LOOKUP_TYPE_LTE) := by
    rcases hl with h | h <;> rw [h] <;> decide
  unfold handleKeyException
  simp [hov, hun, hne, hc, hK, hlt]

/-- The `catch` block on an overflow or underflow at a key column that is not
the last, or under EQ. -/
theorem handleKeyException_not_last_or_EQ (e : SQLException) (ctr : Nat) (ks : KeyState)
    (hflags : e.overflow = true ∨ e.underflow = true)
    (hc : ctr ≠ ks.activeNumOfSearchKeys - 1 ∨ ks.localLookupType = INDEX_LOOKUP_TYPE_EQ) :
    handleKeyException e ctr ks = (none, { ks with keyException := true }) := by
  have h1 : (e.overflow || e.underflow) = true := by
    rcases hflags with h | h <;> simp [h]
  have h2 : ¬ (ks.localLookupType ≠ INDEX_LOOKUP_TYPE_EQ ∧
      ctr = ks.activeNumOfSearchKeys - 1) := by
    rintro ⟨a, b⟩
    rcases hc with h | h
    · exact h b
    · exact a h
  unfold handleKeyException
  rw [if_neg (by simp [h1]), if_neg h2]

/-- What processing an outer tuple does once `keyException` is set: no call on
the index, no row under INNER, one null-padded row under LEFT, and the outer
loop goes on. -/
theorem processOuterTuple_skipped (ex : NestLoopIndexExecutor σ) (o : TableTuple)
    (st : ExecState σ) (ks : KeyState)
    (hb : buildSearchKey ex.keySetNValue o ex.searchKeyExpressions 0 (initialKeyState ex st)
      = (none, ks))
    (hk : ks.keyException = true)
    (hbuf : ex.num_of_outer_cols + ex.num_of_inner_cols ≤ st.join_tuple.length) :
    (processOuterTuple ex o st).1 = none ∧
    (processOuterTuple ex o st).2.trace = st.trace ∧
    (processOuterTuple ex o st).2.cursor = st.cursor ∧
    (ex.join_type = JOIN_TYPE_INNER →
      (processOuterTuple ex o st).2.output_table = st.output_table) ∧
    (ex.join_type = JOIN_TYPE_LEFT →
      ∃ row, (processOuterTuple ex o st).2.output_table = st.output_table ++ [row] ∧
        row.length = st.join_tuple.length ∧
        ∀ i, ex.num_of_outer_cols ≤ i → i < ex.num_of_outer_cols + ex.num_of_inner_cols →
          row[i]? = some NValue.null) := by
  rw [processOuterTuple_keyException ex o st ks hb hk]
  cases hj : ex.join_type with
  | JOIN_TYPE_INNER =>
    simp
  | JOIN_TYPE_LEFT =>
    obtain ⟨h1, h2, -, row, h4, h5, h6, -⟩ :=
      leftOuterFallback_spec ex { st with index_values := ks.index_values }
    rw [if_pos rfl]
    refine ⟨rfl, h1, h2, fun h => absurd h (by decide), fun _ => ⟨row, h4, ?_, ?_⟩⟩
    · rw [h5]
    · intro i hi1 hi2
      exact h6 i hi1 hi2 (by simp only; omega)



/-! ## The end expression -/

theorem yieldedTuples_append (a b : List IndexCall) :
    yieldedTuples (a ++ b) = yieldedTuples a ++ yieldedTuples b := by
  simp [yieldedTuples, List.filterMap_append]

/-- The calls of one evaluation of the loop condition yield the tuple it leaves
in `inner_tuple`, and no other. -/
theorem nextInnerTuple_yielded (ex : NestLoopIndexExecutor σ) (ks : KeyState)
    (st : ExecState σ) :
    ∃ calls, (nextInnerTuple ex ks st).2.trace = st.trace ++ calls ∧
      yieldedTuples calls = (nextInnerTuple ex ks st).1.toList := by
  unfold nextInnerTuple
  by_cases hEQ : ks.localLookupType = INDEX_LOOKUP_TYPE_EQ
  · rw [if_pos hEQ]
    have h4 := (callNextValueAtKey_spec ex st).2.2.2.1
    rcases hr : callNextValueAtKey ex st with ⟨r, st1⟩
    rw [hr] at h4
    simp only at h4
    cases r with
    | some t => exact ⟨[.nextValueAtKey (some t)], h4, by simp [yieldedTuples]⟩
    | none =>
      simp only
      by_cases hK : ex.searchKeyExpressions.length = 0
      · simp only [if_pos hK]
        have g4 := (callNextValue_spec ex st1).2.2.2.1
        refine ⟨[.nextValueAtKey none, .nextValue (callNextValue ex st1).1], ?_, ?_⟩
        · rw [g4, h4]; simp
        · cases (callNextValue ex st1).1 <;> simp [yieldedTuples]
      · simp only [if_neg hK]
        exact ⟨[.nextValueAtKey none], h4, by simp [yieldedTuples]⟩
  · rw [if_neg hEQ]
    have g4 := (callNextValue_spec ex st).2.2.2.1
    refine ⟨[.nextValue (callNextValue ex st).1], g4, ?_⟩
    cases (callNextValue ex st).1 <;> simp [yieldedTuples]

/-- Over the whole inner loop of one outer tuple: an inner tuple on which the
end expression is false is the last the iterator yields, and the rows inserted
are at most the yielded tuples on which the end expression is not false. -/
theorem scanLoop_end_false_last (ex : NestLoopIndexExecutor σ) (ks : KeyState) (o : TableTuple) :
    ∀ (n : Nat) (m : Bool) (st : ExecState σ),
      ∃ calls rows, (scanLoop ex ks o n m st).2.2.trace = st.trace ++ calls ∧
        (scanLoop ex ks o n m st).2.2.output_table = st.output_table ++ rows ∧
        (∀ ts t ts', yieldedTuples calls = ts ++ t :: ts' →
          endExpressionIsFalse ex o t = true → ts' = []) ∧
        rows.length ≤
          ((yieldedTuples calls).filter (fun t => !endExpressionIsFalse ex o t)).length := by
  intro n
  induction n with
  | zero =>
    intro m st
    exact ⟨[], [], by simp [scanLoop], by simp [scanLoop],
      fun ts t ts' h => by simp [yieldedTuples] at h, by simp⟩
  | succ n ih =>
    intro m st
    have h1 := (nextInnerTuple_spec ex ks st).1
    obtain ⟨calls, h4, hy⟩ := nextInnerTuple_yielded ex ks st
    unfold scanLoop
    rcases hr : nextInnerTuple ex ks st with ⟨r, st1⟩
    rw [hr] at h1 h4 hy
    simp only at h1 h4 hy
    cases r with
    | none =>
      refine ⟨calls, [], h4, by simp [h1], ?_, by simp⟩
      intro ts t ts' h
      rw [hy] at h
      simp at h
    | some t0 =>
      simp only [Option.toList_some] at hy
      have hsingle : ∀ ts t ts', [t0] = ts ++ t :: ts' → ts' = [] := by
        intro ts t ts' h
        cases ts with
        | nil => simp at h; exact h.2
        | cons a as =>
          have := congrArg List.length h
          simp at this
      simp only
      by_cases hE : endExpressionIsFalse ex o t0 = true
      · rw [if_pos hE]
        refine ⟨calls, [], h4, by simp [h1], ?_, by simp⟩
        intro ts t ts' h _
        rw [hy] at h
        exact hsingle ts t ts' h
      · rw [if_neg hE]
        have hstep : ∀ (st2 : ExecState σ) (new : List TableTuple),
            st2.trace = st1.trace → st2.output_table = st1.output_table ++ new →
            new.length ≤ 1 →
            ∃ calls rows, (scanLoop ex ks o n true st2).2.2.trace = st.trace ++ calls ∧
              (scanLoop ex ks o n true st2).2.2.output_table = st.output_table ++ rows ∧
              (∀ ts t ts', yieldedTuples calls = ts ++ t :: ts' →
                endExpressionIsFalse ex o t = true → ts' = []) ∧
              rows.length ≤
                ((yieldedTuples calls).filter
                  (fun t => !endExpressionIsFalse ex o t)).length := by
          intro st2 new e2 e4 hnew
          obtain ⟨calls2, rows2, i3, i4, i5, i6⟩ := ih true st2
          refine ⟨calls ++ calls2, new ++ rows2, ?_, ?_, ?_, ?_⟩
          · rw [i3, e2, h4, List.append_assoc]
          · rw [i4, e4, h1, List.append_assoc]
          · intro ts t ts' h hf
            rw [yieldedTuples_append, hy] at h
            cases ts with
            | nil =>
              simp at h
              rw [← h.1] at hf
              exact absurd hf hE
            | cons a as =>
              simp at h
              exact i5 as t ts' h.2 hf
          · rw [yieldedTuples_append, hy]
            simp [hE]
            omega
        by_cases hP : postExpressionPasses ex o t0 = true
        · rw [if_pos hP]
          cases he : emitJoinTuple ex o t0 st1 with
          | none =>
            refine ⟨calls, [], h4, by simp [h1], ?_, by simp⟩
            intro ts t ts' h _
            rw [hy] at h
            exact hsingle ts t ts' h
          | some st2 =>
            simp only
            obtain ⟨-, e2, -, e4⟩ := emitJoinTuple_frame ex o t0 st1 st2 he
            exact hstep st2 [st2.join_tuple] e2 e4 (by simp)
        · rw [if_neg hP]
          exact hstep st1 [] rfl (by simp) (by simp)

/-! ## A degraded scan -/

/-- Under a lookup kind other than EQ the inner loop starts with a call of
`nextValue`. -/
theorem scanInner_first_fetch (ex : NestLoopIndexExecutor σ) (ks : KeyState) (o : TableTuple)
    (st : ExecState σ) (hne : ks.localLookupType ≠ INDEX_LOOKUP_TYPE_EQ) :
    ∃ r rest, (scanInner ex ks o st).2.2.trace = st.trace ++ .nextValue r :: rest := by
  have hn : nextInnerTuple ex ks st = callNextValue ex st := by
    unfold nextInnerTuple
    rw [if_neg hne]
  have g4 := (callNextValue_spec ex st).2.2.2.1
  unfold scanInner scanLoop
  rw [hn]
  rcases hr : callNextValue ex st with ⟨r, st1⟩
  rw [hr] at g4
  simp only at g4
  have hframe : ∀ m, ∃ rest, (scanLoop ex ks o (ex.index.remaining st.cursor) m st1).2.2.trace =
      st.trace ++ .nextValue r :: rest := by
    intro m
    obtain ⟨-, -, calls, -, i3, -⟩ := scanLoop_frame ex ks o (ex.index.remaining st.cursor) m st1
    exact ⟨calls, by rw [i3, g4]; simp⟩
  cases r with
  | none => exact ⟨none, [], by simp [g4]⟩
  | some t =>
    simp only
    split
    · exact ⟨some t, [], by simp [g4]⟩
    · split
      · cases he : emitJoinTuple ex o t st1 with
        | none => exact ⟨some t, [], by simp [g4]⟩
        | some st2 =>
          simp only
          obtain ⟨-, e2, -, -⟩ := emitJoinTuple_frame ex o t st1 st2 he
          obtain ⟨-, -, calls, -, i3, -⟩ :=
            scanLoop_frame ex ks o (ex.index.remaining st.cursor) true st2
          exact ⟨some t, calls, by rw [i3, e2, g4]; simp⟩
      · obtain ⟨rest, h⟩ := hframe true
        exact ⟨some t, rest, h⟩

/-- When key construction succeeds and the iterator is primed, the calls made
on the index for the outer tuple are those of priming and of the inner loop. -/
theorem processOuterTuple_scanned (ex : NestLoopIndexExecutor σ) (o : TableTuple)
    (st st1 : ExecState σ) (ks : KeyState)
    (hb : buildSearchKey ex.keySetNValue o ex.searchKeyExpressions 0 (initialKeyState ex st)
      = (none, ks))
    (hk : ks.keyException = false)
    (hp : positionIndex ex ks { st with index_values := ks.index_values } = some st1) :
    (processOuterTuple ex o st).2.trace = (scanInner ex ks o st1).2.2.trace := by
  unfold processOuterTuple
  rw [hb]
  simp only [positionAndScan, hk, hp, Bool.not_false, if_true]
  rcases hs : scanInner ex ks o st1 with ⟨fl, m, st2⟩
  cases fl with
  | some stop => rfl
  | none =>
    simp only
    split_ifs
    · exact (leftOuterFallback_spec ex st2).1
    · rfl

/-- When the body of the outer loop ends normally, `p_execute` goes on with the
next outer tuple. -/
theorem p_execute_cons_of_none (ex : NestLoopIndexExecutor σ) (o : TableTuple)
    (rest : List TableTuple) (st : ExecState σ) (h : (processOuterTuple ex o st).1 = none) :
    p_execute ex (o :: rest) st = p_execute ex rest (processOuterTuple ex o st).2 := by
  rcases hp : processOuterTuple ex o st with ⟨fl, st1⟩
  rw [hp] at h
  simp only at h
  subst h
  simp only [p_execute, hp]

/-! ## Exceptions that leave `p_execute` -/

/-- The `catch` block on an overflow or underflow at the last key column under
LT or LTE: the exception is thrown again, the locals are untouched. -/
theorem handleKeyException_LT_last (e : SQLException) (ctr : Nat) (ks : KeyState)
    (hflags : e.overflow = true ∨ e.underflow = true)
    (hl : ks.localLookupType = INDEX_LOOKUP_TYPE_LT ∨ ks.localLookupType = INDEX_LOOKUP_TYPE_LTE)
    (hc : ctr = ks.activeNumOfSearchKeys - 1) (hK : 1 < ks.activeNumOfSearchKeys) :
    handleKeyException e ctr ks = (some (.threw e), ks) := by
  have hne : ks.localLookupType ≠ INDEX_LOOKUP_TYPE_EQ := by
    rcases hl with h | h <;> rw [h] <;> decide
  have hgt : ¬ (ks.localLookupType = INDEX_LOOKUP_TYPE_GT ∨
      ks.localLookupType = INDEX_LOOKUP_TYPE_GTE) := by
    rcases hl with h | h <;> rw [h] <;> decide
  have h1 : (e.overflow || e.underflow) = true := by
    rcases hflags with h | h <;> simp [h]
  unfold handleKeyException
  rw [if_neg (by simp [h1]), if_pos ⟨hne, hc⟩, if_neg (by omega)]
  by_cases hov : e.overflow = true
  · rw [if_pos hov, if_neg hgt]
  · have hun : e.underflow = true := by
      rcases hflags with h | h
      · exact absurd h hov
      · exact h
    rw [if_neg hov, if_pos hun, if_pos hl]

/-- The `catch` block on an exception that is neither overflow nor underflow:
it is thrown again, the locals are untouched. -/
theorem handleKeyException_other (e : SQLException) (ctr : Nat) (ks : KeyState)
    (hov : e.overflow = false) (hun : e.underflow = false) :
    handleKeyException e ctr ks = (some (.threw e), ks) := by
  unfold handleKeyException
  simp [hov, hun]

/-- When key construction ends `p_execute`, nothing else is done for the outer
tuple and no later outer tuple is processed: no call on the index, no row. -/
theorem p_execute_key_stop (ex : NestLoopIndexExecutor σ) (o : TableTuple)
    (st : ExecState σ) (stop : Outcome) (ks : KeyState)
    (hb : buildSearchKey ex.keySetNValue o ex.searchKeyExpressions 0 (initialKeyState ex st)
      = (some stop, ks)) :
    processOuterTuple ex o st = (some stop, { st with index_values := ks.index_values }) ∧
    ∀ rest, p_execute ex (o :: rest) st = (stop, { st with index_values := ks.index_values }) := by
  have hp : processOuterTuple ex o st =
      (some stop, { st with index_values := ks.index_values }) := by
    unfold processOuterTuple
    rw [hb]
  exact ⟨hp, fun rest => by simp only [p_execute, hp]⟩

/-! ## The locals after key construction -/

/-- The `catch` block, when it does not end `p_execute`. -/
theorem handleKeyException_none (e : SQLException) (ctr : Nat) (ks ks1 : KeyState)
    (hk : ks.keyException = false)
    (h : handleKeyException e ctr ks = (none, ks1)) : KeyLocalsFrom ks ks1 := by
  unfold handleKeyException at h
  split_ifs at h with h1 h2 h3 h4 h5 h6 h7
  all_goals simp only [Prod.mk.injEq, reduceCtorEq, false_and, true_and] at h
  · subst h
    exact Or.inl ⟨rfl, rfl, rfl, rfl⟩
  · subst h
    refine Or.inr (Or.inr ⟨hk, ?_, by omega, rfl, rfl, rfl⟩)
    have hne := h2.1
    revert hne h7
    cases ks.localLookupType <;> simp
  · simp at h1
    simp at h4 h6
    rw [h4, h6] at h1
    simp at h1
  · subst h
    exact Or.inl ⟨rfl, rfl, rfl, rfl⟩

/-- The `catch` block, when it stops on the assertion. -/
theorem handleKeyException_assert (e : SQLException) (ctr : Nat) (ks ks1 : KeyState)
    (h : handleKeyException e ctr ks = (some .assertionFailed, ks1)) :
    ks.localLookupType ≠ INDEX_LOOKUP_TYPE_EQ ∧ ctr = ks.activeNumOfSearchKeys - 1 ∧
      ks.activeNumOfSearchKeys ≤ 1 := by
  unfold handleKeyException at h
  split_ifs at h with h1 h2 h3 <;> simp at h
  exact ⟨h2.1, h2.2, by omega⟩

/-- Key construction, when it does not end `p_execute`. -/
theorem buildSearchKey_none (f : Nat → NValue → Except SQLException NValue) (o : TableTuple) :
    ∀ (exprs : List (TableTuple → NValue)) (ctr : Nat) (ks ks1 : KeyState),
      ks.keyException = false →
      buildSearchKey f o exprs ctr ks = (none, ks1) → KeyLocalsFrom ks ks1 := by
  intro exprs
  induction exprs with
  | nil =>
    intro ctr ks ks1 hk h
    simp only [buildSearchKey, Prod.mk.injEq, true_and] at h
    subst h
    exact Or.inr (Or.inl ⟨hk, rfl, rfl, rfl⟩)
  | cons expr rest ih =>
    intro ctr ks ks1 hk h
    cases hv : f ctr (expr o) with
    | ok v =>
      rw [buildSearchKey_cons_ok f o expr rest ctr ks v hv] at h
      exact ih (ctr + 1) { ks with index_values := ks.index_values.set ctr v } ks1 hk h
    | error e =>
      rw [buildSearchKey_cons_error f o expr rest ctr ks e hv] at h
      exact handleKeyException_none e ctr ks ks1 hk h

/-- Key construction, when it stops on the assertion: the plan has one search
key and a lookup kind other than EQ. -/
theorem buildSearchKey_assert (f : Nat → NValue → Except SQLException NValue) (o : TableTuple) :
    ∀ (exprs : List (TableTuple → NValue)) (ctr : Nat) (ks ks1 : KeyState),
      ks.activeNumOfSearchKeys = ctr + exprs.length →
      buildSearchKey f o exprs ctr ks = (some .assertionFailed, ks1) →
      ks.localLookupType ≠ INDEX_LOOKUP_TYPE_EQ ∧ ks.activeNumOfSearchKeys = 1 := by
  intro exprs
  induction exprs with
  | nil => intro ctr ks ks1 _ h; simp [buildSearchKey] at h
  | cons expr rest ih =>
    intro ctr ks ks1 hlen h
    cases hv : f ctr (expr o) with
    | ok v =>
      rw [buildSearchKey_cons_ok f o expr rest ctr ks v hv] at h
      exact ih (ctr + 1) { ks with index_values := ks.index_values.set ctr v } ks1
        (by simp only [List.length_cons] at hlen; simp only; omega) h
    | error e =>
      rw [buildSearchKey_cons_error f o expr rest ctr ks e hv] at h
      obtain ⟨h1, h2, h3⟩ := handleKeyException_assert e ctr ks ks1 h
      simp only [List.length_cons] at hlen
      exact ⟨h1, by omega⟩

/-! ## Positioning -/

/-- After key construction, `activeNumOfSearchKeys` is positive exactly when the
plan has a search key. -/
theorem active_keys_pos_iff (ex : NestLoopIndexExecutor σ) (o : TableTuple) (st : ExecState σ)
    (ks : KeyState)
    (hb : buildSearchKey ex.keySetNValue o ex.searchKeyExpressions 0 (initialKeyState ex st)
      = (none, ks)) :
    0 < ks.activeNumOfSearchKeys ↔ 0 < ex.searchKeyExpressions.length := by
  have h := buildSearchKey_none ex.keySetNValue o ex.searchKeyExpressions 0
    (initialKeyState ex st) ks rfl hb
  have h0 : (initialKeyState ex st).activeNumOfSearchKeys = ex.searchKeyExpressions.length := rfl
  rcases h with ⟨-, h, -⟩ | ⟨-, h, -⟩ | ⟨-, -, h1, h2, -⟩
  · rw [h, h0]
  · rw [h, h0]
  · rw [h2, h0]
    rw [h0] at h1
    omega

/-- The calls of the inner loop come after those made before it. -/
theorem scanInner_trace (ex : NestLoopIndexExecutor σ) (ks : KeyState) (o : TableTuple)
    (st : ExecState σ) : ∃ rest, (scanInner ex ks o st).2.2.trace = st.trace ++ rest := by
  obtain ⟨-, -, calls, -, h, -⟩ :=
    scanLoop_frame ex ks o (ex.index.remaining st.cursor + 1) false st
  exact ⟨calls, h⟩

/-! ## The fetch of the next inner tuple -/

/-- A property of the calls of every evaluation of the loop condition holds of
all calls of the inner loop. -/
theorem scanLoop_calls (ex : NestLoopIndexExecutor σ) (ks : KeyState) (o : TableTuple)
    (P : IndexCall → Prop)
    (hP : ∀ st : ExecState σ, ∃ calls, (nextInnerTuple ex ks st).2.trace = st.trace ++ calls ∧
      ∀ c ∈ calls, P c) :
    ∀ (n : Nat) (m : Bool) (st : ExecState σ),
      ∃ calls, (scanLoop ex ks o n m st).2.2.trace = st.trace ++ calls ∧ ∀ c ∈ calls, P c := by
  intro n
  induction n with
  | zero => intro m st; exact ⟨[], by simp [scanLoop], by simp⟩
  | succ n ih =>
    intro m st
    obtain ⟨calls, h4, hc⟩ := hP st
    unfold scanLoop
    rcases hr : nextInnerTuple ex ks st with ⟨r, st1⟩
    rw [hr] at h4
    simp only at h4
    have hjoin : ∀ (st2 : ExecState σ), st2.trace = st1.trace →
        ∃ calls, (scanLoop ex ks o n true st2).2.2.trace = st.trace ++ calls ∧
          ∀ c ∈ calls, P c := by
      intro st2 e2
      obtain ⟨calls2, i3, i4⟩ := ih true st2
      refine ⟨calls ++ calls2, by rw [i3, e2, h4, List.append_assoc], ?_⟩
      intro c hmem
      rcases List.mem_append.mp hmem with h | h
      · exact hc c h
      · exact i4 c h
    cases r with
    | none => exact ⟨calls, h4, hc⟩
    | some t =>
      simp only
      split
      · exact ⟨calls, h4, hc⟩
      · split
        · cases he : emitJoinTuple ex o t st1 with
          | none => exact ⟨calls, h4, hc⟩
          | some st2 =>
            simp only
            exact hjoin st2 (emitJoinTuple_frame ex o t st1 st2 he).2.1
        · exact hjoin st1 rfl

/-- The calls of one evaluation of the loop condition, by lookup kind and number
of search keys of the plan. -/
theorem nextInnerTuple_calls (ex : NestLoopIndexExecutor σ) (ks : KeyState)
    (st : ExecState σ) :
    (ks.localLookupType ≠ INDEX_LOOKUP_TYPE_EQ →
      (nextInnerTuple ex ks st).2.trace =
        st.trace ++ [.nextValue (nextInnerTuple ex ks st).1]) ∧
    (ks.localLookupType = INDEX_LOOKUP_TYPE_EQ → 0 < ex.searchKeyExpressions.length →
      (nextInnerTuple ex ks st).2.trace =
        st.trace ++ [.nextValueAtKey (nextInnerTuple ex ks st).1]) ∧
    (ks.localLookupType = INDEX_LOOKUP_TYPE_EQ → ex.searchKeyExpressions.length = 0 →
      (nextInnerTuple ex ks st).2.trace =
          st.trace ++ [.nextValueAtKey (nextInnerTuple ex ks st).1] ∧
        (nextInnerTuple ex ks st).1 ≠ none ∨
      (nextInnerTuple ex ks st).2.trace =
          st.trace ++ [.nextValueAtKey none, .nextValue (nextInnerTuple ex ks st).1]) := by
  refine ⟨?_, ?_, ?_⟩
  · intro hne
    unfold nextInnerTuple
    rw [if_neg hne]
    rfl
  · intro hEQ hK
    unfold nextInnerTuple
    rw [if_pos hEQ]
    have h4 := (callNextValueAtKey_spec ex st).2.2.2.1
    rcases hr : callNextValueAtKey ex st with ⟨r, st1⟩
    rw [hr] at h4
    cases r with
    | some t => exact h4
    | none =>
      simp only [if_neg (Nat.pos_iff_ne_zero.mp hK)]
      exact h4
  · intro hEQ hK
    unfold nextInnerTuple
    rw [if_pos hEQ]
    have h4 := (callNextValueAtKey_spec ex st).2.2.2.1
    rcases hr : callNextValueAtKey ex st with ⟨r, st1⟩
    rw [hr] at h4
    simp only at h4
    cases r with
    | some t => exact Or.inl ⟨h4, by simp⟩
    | none =>
      simp only [if_pos hK]
      refine Or.inr ?_
      have g4 := (callNextValue_spec ex st1).2.2.2.1
      rw [g4, h4]
      simp

/-! ## How `p_execute` ends -/

/-- With an output expression for every inner column the inner loop ends
normally. -/
theorem scanLoop_ok (ex : NestLoopIndexExecutor σ) (ks : KeyState) (o : TableTuple)
    (hexprs : ex.num_of_inner_cols ≤ ex.m_outputExpressions.length) :
    ∀ (n : Nat) (m : Bool) (st : ExecState σ), (scanLoop ex ks o n m st).1 = none := by
  intro n
  induction n with
  | zero => intro m st; rfl
  | succ n ih =>
    intro m st
    unfold scanLoop
    rcases hr : nextInnerTuple ex ks st with ⟨r, st1⟩
    cases r with
    | none => rfl
    | some t =>
      simp only
      split
      · rfl
      · split
        · obtain ⟨st2, he⟩ := emitJoinTuple_isSome ex o t st1 hexprs
          simp only [he]
          exact ih true st2
        · exact ih true st1

/-- When all search-key values are assigned, key construction ends with the
locals it started from, the key buffer apart. -/
theorem buildSearchKey_all_ok (f : Nat → NValue → Except SQLException NValue) (o : TableTuple) :
    ∀ (exprs : List (TableTuple → NValue)) (ctr : Nat) (ks : KeyState),
      (∀ i expr, exprs[i]? = some expr → ∃ v, f (ctr + i) (expr o) = .ok v) →
      ∃ iv, buildSearchKey f o exprs ctr ks = (none, { ks with index_values := iv }) := by
  intro exprs
  induction exprs with
  | nil => intro ctr ks _; exact ⟨ks.index_values, rfl⟩
  | cons x rest ih =>
    intro ctr ks hok
    obtain ⟨v, hv⟩ := hok 0 x (by simp)
    simp only [Nat.add_zero] at hv
    obtain ⟨iv, hiv⟩ := ih (ctr + 1) { ks with index_values := ks.index_values.set ctr v }
      (fun i ex2 hget => by
        have := hok (i + 1) ex2 (by simpa using hget)
        simpa [Nat.add_assoc, Nat.add_comm 1 i] using this)
    exact ⟨iv, by rw [buildSearchKey_cons_ok f o x rest ctr ks v hv, hiv]⟩

/-- What can end `p_execute` in the body of the outer loop, and why: `return
false` under LT or LTE with a search key, with no call made on the index; an
exception of key assignment; the assertion, with one search key under a lookup
kind other than EQ; an output expression missing for an inner column. -/
theorem processOuterTuple_stop_cases (ex : NestLoopIndexExecutor σ) (o : TableTuple)
    (st : ExecState σ) (stop : Outcome) (h : (processOuterTuple ex o st).1 = some stop) :
    (stop = .returned false ∧
      (ex.m_lookupType = INDEX_LOOKUP_TYPE_LT ∨ ex.m_lookupType = INDEX_LOOKUP_TYPE_LTE) ∧
      0 < ex.searchKeyExpressions.length ∧
      (processOuterTuple ex o st).2.trace = st.trace ∧
      (processOuterTuple ex o st).2.cursor = st.cursor ∧
      (processOuterTuple ex o st).2.output_table = st.output_table) ∨
    (∃ e, stop = .threw e) ∨
    (stop = .assertionFailed ∧ ex.searchKeyExpressions.length = 1 ∧
      ex.m_lookupType ≠ INDEX_LOOKUP_TYPE_EQ) ∨
    (stop = .outOfBounds ∧ ex.m_outputExpressions.length < ex.num_of_inner_cols) := by
  unfold processOuterTuple at h ⊢
  rcases hb : buildSearchKey ex.keySetNValue o ex.searchKeyExpressions 0
    (initialKeyState ex st) with ⟨fl, ks⟩
  rw [hb] at h
  cases fl with
  | some stop1 =>
    simp only [Option.some.injEq] at h
    subst h
    have hstop := buildSearchKey_stop ex.keySetNValue o ex.searchKeyExpressions 0
      (initialKeyState ex st)
    rw [hb] at hstop
    simp only [reduceCtorEq, Option.some.injEq, false_or] at hstop
    rcases hstop with ⟨e, he⟩ | ha
    · exact Or.inr (Or.inl ⟨e, he⟩)
    · subst ha
      obtain ⟨a1, a2⟩ := buildSearchKey_assert ex.keySetNValue o ex.searchKeyExpressions 0
        (initialKeyState ex st) ks (by simp [initialKeyState]) hb
      exact Or.inr (Or.inr (Or.inl ⟨rfl, a2, a1⟩))
  | none =>
    simp only at h ⊢
    have hloc := buildSearchKey_none ex.keySetNValue o ex.searchKeyExpressions 0
      (initialKeyState ex st) ks rfl hb
    unfold positionAndScan at h ⊢
    by_cases hk : ks.keyException = true
    · simp only [hk, Bool.not_true, Bool.false_eq_true, if_false] at h
      split_ifs at h
    · simp only [hk, Bool.not_false, if_true] at h ⊢
      cases hp : positionIndex ex ks { st with index_values := ks.index_values } with
      | none =>
        rw [hp] at h
        simp only [Option.some.injEq] at h
        subst h
        refine Or.inl ⟨rfl, ?_, ?_, rfl, rfl, rfl⟩
        · unfold positionIndex at hp
          split_ifs at hp with hpos
          · have hlk : ks.localLookupType = INDEX_LOOKUP_TYPE_LT ∨
                ks.localLookupType = INDEX_LOOKUP_TYPE_LTE := by
              revert hp
              cases ks.localLookupType <;> simp
            rcases hloc with ⟨hke, -⟩ | ⟨-, -, hl, -⟩ | ⟨-, -, -, -, hl, -⟩
            · exact absurd hke hk
            · rw [hl] at hlk; exact hlk
            · rw [hl] at hlk; simp at hlk
        · unfold positionIndex at hp
          split_ifs at hp with hpos
          · exact hpos
      | some st1 =>
        rw [hp] at h
        simp only at h
        have hfr := (scanLoop_frame ex ks o (ex.index.remaining st1.cursor + 1) false st1).1
        by_cases hexprs : ex.num_of_inner_cols ≤ ex.m_outputExpressions.length
        · have hok := scanLoop_ok ex ks o hexprs (ex.index.remaining st1.cursor + 1) false st1
          unfold scanInner at h
          rcases hs : scanLoop ex ks o (ex.index.remaining st1.cursor + 1) false st1 with
            ⟨fl2, m, st2⟩
          rw [hs] at h hok
          simp only at hok
          subst hok
          simp only at h
          split_ifs at h
        · unfold scanInner at h
          rcases hs : scanLoop ex ks o (ex.index.remaining st1.cursor + 1) false st1 with
            ⟨fl2, m, st2⟩
          rw [hs] at h hfr
          simp only at hfr
          rcases hfr with hfr | hfr
          · subst hfr
            simp only at h
            split_ifs at h
          · subst hfr
            simp only [Option.some.injEq] at h
            subst h
            exact Or.inr (Or.inr (Or.inr ⟨rfl, by omega⟩))

/-- Under LT or LTE with a search key, an outer tuple whose key construction
succeeds makes `p_execute` return false, with no call made on the index. -/
theorem processOuterTuple_LT (ex : NestLoopIndexExecutor σ) (o : TableTuple)
    (st : ExecState σ) (ks : KeyState)
    (hl : ex.m_lookupType = INDEX_LOOKUP_TYPE_LT ∨ ex.m_lookupType = INDEX_LOOKUP_TYPE_LTE)
    (hK : 0 < ex.searchKeyExpressions.length)
    (hb : buildSearchKey ex.keySetNValue o ex.searchKeyExpressions 0 (initialKeyState ex st)
      = (none, ks))
    (hk : ks.keyException = false) :
    processOuterTuple ex o st =
      (some (.returned false), { st with index_values := ks.index_values }) := by
  have hloc := buildSearchKey_none ex.keySetNValue o ex.searchKeyExpressions 0
    (initialKeyState ex st) ks rfl hb
  have hlk : ks.localLookupType = INDEX_LOOKUP_TYPE_LT ∨
      ks.localLookupType = INDEX_LOOKUP_TYPE_LTE := by
    have h0 : (initialKeyState ex st).localLookupType = ex.m_lookupType := rfl
    rcases hloc with ⟨hke, -⟩ | ⟨-, -, h, -⟩ | ⟨-, h, -⟩
    · rw [hk] at hke; exact absurd hke (by decide)
    · rw [h, h0]; exact hl
    · rw [h0] at h
      rcases hl with a | a <;> rw [a] at h <;> simp at h
  have hp : positionIndex ex ks { st with index_values := ks.index_values } = none := by
    unfold positionIndex
    rw [if_pos hK]
    rcases hlk with a | a <;> rw [a]
  unfold processOuterTuple
  rw [hb]
  simp only [positionAndScan, hk, hp, Bool.not_false, if_true]

/-- Outer tuples on which key construction sets `keyException` are passed
over without a call on the index. -/
theorem p_execute_skip (ex : NestLoopIndexExecutor σ) :
    ∀ (pre : List TableTuple) (st : ExecState σ),
      (∀ o' ∈ pre, ∀ st' : ExecState σ, ∃ ks,
        buildSearchKey ex.keySetNValue o' ex.searchKeyExpressions 0 (initialKeyState ex st')
          = (none, ks) ∧ ks.keyException = true) →
      ∃ st1 : ExecState σ, st1.trace = st.trace ∧ st1.cursor = st.cursor ∧
        ∀ tail, p_execute ex (pre ++ tail) st = p_execute ex tail st1 := by
  intro pre
  induction pre with
  | nil => intro st _; exact ⟨st, rfl, rfl, fun tail => rfl⟩
  | cons o' pre ih =>
    intro st hskip
    obtain ⟨ks, hb, hk⟩ := hskip o' (by simp) st
    have hp := processOuterTuple_keyException ex o' st ks hb hk
    have hnone : (processOuterTuple ex o' st).1 = none := by
      rw [hp]; split_ifs <;> rfl
    have htr : (processOuterTuple ex o' st).2.trace = st.trace ∧
        (processOuterTuple ex o' st).2.cursor = st.cursor := by
      rw [hp]
      split_ifs
      · exact ⟨(leftOuterFallback_spec ex _).1, (leftOuterFallback_spec ex _).2.1⟩
      · exact ⟨rfl, rfl⟩
    obtain ⟨st1, h1, h2, h3⟩ := ih (processOuterTuple ex o' st).2
      (fun o2 ho2 => hskip o2 (by simp [ho2]))
    refine ⟨st1, h1.trans htr.1, h2.trans htr.2, fun tail => ?_⟩
    rw [List.cons_append, p_execute_cons_of_none ex o' (pre ++ tail) st hnone]
    exact h3 tail

/-- The ways `p_execute` ends, and why. -/
theorem p_execute_outcome (ex : NestLoopIndexExecutor σ) :
    ∀ (outer_table : List TableTuple) (st : ExecState σ),
      (p_execute ex outer_table st).1 = .returned true ∨
      ((p_execute ex outer_table st).1 = .returned false ∧
        (ex.m_lookupType = INDEX_LOOKUP_TYPE_LT ∨ ex.m_lookupType = INDEX_LOOKUP_TYPE_LTE) ∧
        0 < ex.searchKeyExpressions.length) ∨
      (∃ e, (p_execute ex outer_table st).1 = .threw e) ∨
      ((p_execute ex outer_table st).1 = .assertionFailed ∧
        ex.searchKeyExpressions.length = 1 ∧ ex.m_lookupType ≠ INDEX_LOOKUP_TYPE_EQ) ∨
      ((p_execute ex outer_table st).1 = .outOfBounds ∧
        ex.m_outputExpressions.length < ex.num_of_inner_cols) := by
  intro outer_table
  induction outer_table with
  | nil => intro st; exact Or.inl rfl
  | cons o rest ih =>
    intro st
    have hcases := processOuterTuple_stop_cases ex o st
    unfold p_execute
    rcases hp : processOuterTuple ex o st with ⟨fl, st1⟩
    rw [hp] at hcases
    cases fl with
    | none => exact ih st1
    | some stop =>
      simp only
      rcases hcases stop rfl with ⟨h1, h2, h3, -⟩ | ⟨e, h1⟩ | ⟨h1, h2, h3⟩ | ⟨h1, h2⟩
      · exact Or.inr (Or.inl ⟨h1, h2, h3⟩)
      · exact Or.inr (Or.inr (Or.inl ⟨e, h1⟩))
      · exact Or.inr (Or.inr (Or.inr (Or.inl ⟨h1, h2, h3⟩)))
      · exact Or.inr (Or.inr (Or.inr (Or.inr ⟨h1, h2⟩)))

/-! ## The order of the rows -/

/-- The rows the inner loop inserts are, in order, the rows emitted for a
subsequence of the inner tuples the iterator yielded, in yield order; while
`match` is unset no tuple has been yielded. -/
theorem scanLoop_rows (ex : NestLoopIndexExecutor σ) (ks : KeyState) (o : TableTuple) :
    ∀ (n : Nat) (m : Bool) (st : ExecState σ),
      ∃ calls rows ts, (scanLoop ex ks o n m st).2.2.trace = st.trace ++ calls ∧
        (scanLoop ex ks o n m st).2.2.output_table = st.output_table ++ rows ∧
        List.Sublist ts (yieldedTuples calls) ∧
        List.Forall₂ (EmittedFor ex o) ts rows ∧
        ((scanLoop ex ks o n m st).2.1 = false → yieldedTuples calls = []) := by
  intro n
  induction n with
  | zero =>
    intro m st
    exact ⟨[], [], [], by simp [scanLoop], by simp [scanLoop], by simp [yieldedTuples],
      List.Forall₂.nil, fun _ => rfl⟩
  | succ n ih =>
    intro m st
    have h1 := (nextInnerTuple_spec ex ks st).1
    obtain ⟨calls, h4, hy⟩ := nextInnerTuple_yielded ex ks st
    unfold scanLoop
    rcases hr : nextInnerTuple ex ks st with ⟨r, st1⟩
    rw [hr] at h1 h4 hy
    simp only at h1 h4 hy
    cases r with
    | none =>
      exact ⟨calls, [], [], h4, by simp [h1], by simp, List.Forall₂.nil,
        fun _ => by simpa using hy⟩
    | some t0 =>
      simp only [Option.toList_some] at hy
      simp only
      split
      · exact ⟨calls, [], [], h4, by simp [h1], by simp, List.Forall₂.nil,
          fun h => absurd h (by simp)⟩
      · split
        · cases he : emitJoinTuple ex o t0 st1 with
          | none =>
            exact ⟨calls, [], [], h4, by simp [h1], by simp, List.Forall₂.nil,
              fun h => absurd h (by simp)⟩
          | some st2 =>
            simp only
            obtain ⟨-, e2, -, e4⟩ := emitJoinTuple_frame ex o t0 st1 st2 he
            obtain ⟨calls2, rows2, ts2, i3, i4, i5, i6, i7⟩ := ih true st2
            refine ⟨calls ++ calls2, st2.join_tuple :: rows2, t0 :: ts2, ?_, ?_, ?_, ?_, ?_⟩
            · rw [i3, e2, h4, List.append_assoc]
            · rw [i4, e4, h1]; simp
            · rw [yieldedTuples_append, hy]
              exact List.Sublist.cons₂ t0 i5
            · exact List.Forall₂.cons ⟨st1, st2, he, rfl⟩ i6
            · intro h
              rw [yieldedTuples_append, hy]
              have := (scanLoop_frame ex ks o n true st2).2.2
              obtain ⟨c3, r3, -, -, -, k⟩ := this
              exact absurd (k h).1 (by simp)
        · obtain ⟨calls2, rows2, ts2, i3, i4, i5, i6, i7⟩ := ih true st1
          refine ⟨calls ++ calls2, rows2, ts2, ?_, ?_, ?_, i6, ?_⟩
          · rw [i3, h4, List.append_assoc]
          · rw [i4, h1]
          · rw [yieldedTuples_append, hy]
            exact List.Sublist.cons t0 i5
          · intro h
            have := (scanLoop_frame ex ks o n true st1).2.2
            obtain ⟨c3, r3, -, -, -, k⟩ := this
            exact absurd (k h).1 (by simp)

/-- The rows inserted for one outer tuple: in order, the rows emitted for a
subsequence of the inner tuples yielded for it, or, when none was yielded and the
join is LEFT, the one row of the fallback. -/
theorem processOuterTuple_rows (ex : NestLoopIndexExecutor σ) (o : TableTuple)
    (st : ExecState σ) :
    ∃ calls rows ts, (processOuterTuple ex o st).2.trace = st.trace ++ calls ∧
      (processOuterTuple ex o st).2.output_table = st.output_table ++ rows ∧
      List.Sublist ts (yieldedTuples calls) ∧
      (List.Forall₂ (EmittedFor ex o) ts rows ∨
        (yieldedTuples calls = [] ∧ ex.join_type = JOIN_TYPE_LEFT ∧ ∃ row, rows = [row])) := by
  have hfall : ∀ (st1 : ExecState σ) (calls : List IndexCall),
      st1.trace = st.trace ++ calls → st1.output_table = st.output_table →
      yieldedTuples calls = [] →
      ∃ calls rows ts,
        (if ex.join_type = JOIN_TYPE_LEFT then
          ((none : Option Outcome), leftOuterFallback ex st1) else (none, st1)).2.trace =
          st.trace ++ calls ∧
        (if ex.join_type = JOIN_TYPE_LEFT then
          ((none : Option Outcome), leftOuterFallback ex st1) else (none, st1)).2.output_table =
          st.output_table ++ rows ∧
        List.Sublist ts (yieldedTuples calls) ∧
        (List.Forall₂ (EmittedFor ex o) ts rows ∨
          (yieldedTuples calls = [] ∧ ex.join_type = JOIN_TYPE_LEFT ∧ ∃ row, rows = [row])) := by
    intro st1 calls htr hout hy
    by_cases hj : ex.join_type = JOIN_TYPE_LEFT
    · rw [if_pos hj]
      obtain ⟨f1, -, -, row, f4, -⟩ := leftOuterFallback_spec ex st1
      exact ⟨calls, [row], [], by rw [f1, htr], by rw [f4, hout], by simp,
        Or.inr ⟨hy, hj, row, rfl⟩⟩
    · rw [if_neg hj]
      exact ⟨calls, [], [], htr, by rw [hout]; simp, by simp, Or.inl List.Forall₂.nil⟩
  unfold processOuterTuple
  rcases hb : buildSearchKey ex.keySetNValue o ex.searchKeyExpressions 0
    (initialKeyState ex st) with ⟨fl, ks⟩
  cases fl with
  | some stop =>
    exact ⟨[], [], [], by simp, by simp, by simp, Or.inl List.Forall₂.nil⟩
  | none =>
    simp only
    unfold positionAndScan
    by_cases hk : ks.keyException = true
    · simp only [hk, Bool.not_true, Bool.false_eq_true, if_false, Bool.not_false, true_and]
      exact hfall { st with index_values := ks.index_values } [] (by simp) rfl rfl
    · simp only [hk, Bool.not_false, if_true]
      cases hp : positionIndex ex ks { st with index_values := ks.index_values } with
      | none => exact ⟨[], [], [], by simp, by simp, by simp, Or.inl List.Forall₂.nil⟩
      | some st1 =>
        simp only
        obtain ⟨p1, -, -, c, p4, p5⟩ := positionIndex_spec ex ks _ st1 hp
        have hc : yieldedTuples [c] = [] := by
          have : (yieldedTuples [c]).length = 0 := p5
          exact List.length_eq_zero.mp this
        obtain ⟨calls, rows, ts, s1, s2, s3, s4, s5⟩ :=
          scanLoop_rows ex ks o (ex.index.remaining st1.cursor + 1) false st1
        unfold scanInner
        rcases hs : scanLoop ex ks o (ex.index.remaining st1.cursor + 1) false st1 with
          ⟨fl2, m, st2⟩
        rw [hs] at s1 s2 s5
        simp only at s1 s2 s5
        have htr : st2.trace = st.trace ++ ([c] ++ calls) := by
          rw [s1, p4]; simp
        have hyl : yieldedTuples ([c] ++ calls) = yieldedTuples calls := by
          rw [yieldedTuples_append, hc]; rfl
        cases fl2 with
        | some stop =>
          exact ⟨[c] ++ calls, rows, ts, htr, by rw [s2, p1], by rw [hyl]; exact s3, Or.inl s4⟩
        | none =>
          simp only
          cases m with
          | true =>
            simp only [Bool.not_true, Bool.false_eq_true, false_and, if_false]
            exact ⟨[c] ++ calls, rows, ts, htr, by rw [s2, p1], by rw [hyl]; exact s3,
              Or.inl s4⟩
          | false =>
            simp only [Bool.not_false, true_and]
            have hy0 := s5 rfl
            have hts : ts = [] := by
              rw [hy0] at s3
              exact List.sublist_nil.mp s3
            have hrows : rows = [] := by
              rw [hts] at s4
              cases s4
              rfl
            exact hfall st2 ([c] ++ calls) htr (by rw [s2, hrows, p1]; simp)
              (by rw [hyl]; exact hy0)

/-- The same, by the rows and the calls of the outer tuple. -/
theorem rowsAddedFor_spec (ex : NestLoopIndexExecutor σ) (o : TableTuple) (st : ExecState σ) :
    (processOuterTuple ex o st).2.output_table = st.output_table ++ rowsAddedFor ex o st ∧
    (processOuterTuple ex o st).2.trace = st.trace ++ callsFor ex o st ∧
    ∃ ts, List.Sublist ts (yieldedTuples (callsFor ex o st)) ∧
      (List.Forall₂ (EmittedFor ex o) ts (rowsAddedFor ex o st) ∨
        (yieldedTuples (callsFor ex o st) = [] ∧ ex.join_type = JOIN_TYPE_LEFT ∧
          ∃ row, rowsAddedFor ex o st = [row])) := by
  obtain ⟨calls, rows, ts, h1, h2, h3, h4⟩ := processOuterTuple_rows ex o st
  have hr : rowsAddedFor ex o st = rows := by simp [rowsAddedFor, h2]
  have hc : callsFor ex o st = calls := by simp [callsFor, h1]
  rw [hr, hc]
  exact ⟨h2, h1, ts, h3, h4⟩

/-- The output table after `p_execute` is the output table before it followed by
the rows of the outer tuples, outer tuple by outer tuple in outer-iterator
order. -/
theorem p_execute_rowBlocks (ex : NestLoopIndexExecutor σ) :
    ∀ (outer_table : List TableTuple) (st : ExecState σ),
      (p_execute ex outer_table st).2.output_table =
        st.output_table ++ (rowBlocks ex outer_table st).flatten ∧
      (rowBlocks ex outer_table st).length = outer_table.length := by
  intro outer_table
  induction outer_table with
  | nil => intro st; simp [p_execute, rowBlocks]
  | cons o rest ih =>
    intro st
    have hrows := (rowsAddedFor_spec ex o st).1
    unfold p_execute rowBlocks
    rcases hp : processOuterTuple ex o st with ⟨fl, st1⟩
    rw [hp] at hrows
    simp only at hrows
    cases fl with
    | some stop =>
      simp only [List.flatten_cons, List.length_cons, List.length_map]
      refine ⟨?_, trivial⟩
      rw [hrows]
      have hnil : ∀ l : List TableTuple,
          (List.map (fun _ => ([] : List TableTuple)) l).flatten = [] := by
        intro l
        induction l with
        | nil => rfl
        | cons a r ihr => simp [ihr]
      rw [hnil rest]
      simp
    | none =>
      simp only [List.flatten_cons, List.length_cons]
      obtain ⟨i1, i2⟩ := ih st1
      exact ⟨by rw [i1, hrows, List.append_assoc], by rw [i2]⟩

theorem blockOffset_succ (blocks : List (List TableTuple)) (i : Nat) (hi : i < blocks.length) :
    blockOffset blocks (i + 1) = blockOffset blocks i + (blocks.getD i []).length := by
  unfold blockOffset
  rw [List.take_succ, List.flatten_append, List.length_append]
  simp [List.getD_eq_getElem?_getD, List.getElem?_eq_getElem hi]

theorem blockOffset_mono (blocks : List (List TableTuple)) (i k : Nat) (h : i ≤ k) :
    blockOffset blocks i ≤ blockOffset blocks k := by
  induction k with
  | zero =>
    have : i = 0 := by omega
    rw [this]
  | succ k ih =>
    by_cases hik : i = k + 1
    · rw [hik]
    · have h1 := ih (by omega)
      by_cases hk : k < blocks.length
      · rw [blockOffset_succ blocks k hk]; omega
      · have e1 : blockOffset blocks (k + 1) = blockOffset blocks k := by
          unfold blockOffset
          rw [List.take_of_length_le (by omega), List.take_of_length_le (by omega)]
        rw [e1]; exact h1

/-- Every position among the rows of the blocks is a position `j` in one block
`i`, and the row there is the `j`-th row of that block. -/
theorem flatten_position (blocks : List (List TableTuple)) :
    ∀ p, p < blocks.flatten.length →
      ∃ i j, i < blocks.length ∧ j < (blocks.getD i []).length ∧
        p = blockOffset blocks i + j ∧ blocks.flatten[p]? = (blocks.getD i [])[j]? := by
  induction blocks with
  | nil => intro p hp; simp at hp
  | cons b bs ih =>
    intro p hp
    by_cases hpb : p < b.length
    · refine ⟨0, p, by simp, by simpa using hpb, by simp [blockOffset], ?_⟩
      simp [List.getElem?_append_left hpb]
    · simp only [List.flatten_cons, List.length_append] at hp
      obtain ⟨i, j, h1, h2, h3, h4⟩ := ih (p - b.length) (by omega)
      refine ⟨i + 1, j, by simpa using h1, by simpa using h2, ?_, ?_⟩
      · simp only [blockOffset, List.take_succ_cons, List.flatten_cons, List.length_append]
        simp only [blockOffset] at h3
        omega
      · simp only [List.flatten_cons, List.getD_cons_succ]
        rw [List.getElem?_append_right (by omega)]
        exact h4

/-- Of two positions among the rows of the blocks, the earlier lies in an earlier
block, or in the same block at an earlier place. -/
theorem block_position_order (blocks : List (List TableTuple)) (i1 j1 i2 j2 : Nat)
    (hj2 : j2 < (blocks.getD i2 []).length) (h2 : i2 < blocks.length)
    (hlt : blockOffset blocks i1 + j1 < blockOffset blocks i2 + j2) :
    i1 < i2 ∨ (i1 = i2 ∧ j1 < j2) := by
  rcases Nat.lt_trichotomy i1 i2 with h | h | h
  · exact Or.inl h
  · subst h; exact Or.inr ⟨rfl, by omega⟩
  · exfalso
    have hm := blockOffset_mono blocks (i2 + 1) i1 h
    rw [blockOffset_succ blocks i2 h2] at hm
    omega

/-! ## The compacting pool: surviving payloads -/

theorem flatMap_coe_sum {α : Type} (f : α → List PoolSlot) (L : List α) :
    ((L.flatMap f : List PoolSlot) : Multiset PoolSlot) =
      (L.map (fun c => (f c : Multiset PoolSlot))).sum := by
  induction L with
  | nil => simp
  | cons a L ih =>
    simp only [List.flatMap_cons, List.map_cons, List.sum_cons]
    rw [← ih]
    rfl

/-- Two pools whose surviving payloads agree in every size class but `c`. -/
theorem survivors_update (p q : CompactingPool cfg) (c : Fin cfg.classCount)
    (h : ∀ c', c' ≠ c → survivorsOfClass q c' = survivorsOfClass p c') :
    ((survivors q : List PoolSlot) : Multiset PoolSlot) + (survivorsOfClass p c : Multiset PoolSlot)
      = (survivors p : Multiset PoolSlot) + (survivorsOfClass q c : Multiset PoolSlot) := by
  unfold survivors
  rw [flatMap_coe_sum, flatMap_coe_sum]
  have hc : c ∈ List.finRange cfg.classCount := List.mem_finRange c
  have hnd : (List.finRange cfg.classCount).Nodup := List.nodup_finRange _
  generalize List.finRange cfg.classCount = L at hc hnd
  induction L with
  | nil => simp at hc
  | cons a L ih =>
    simp only [List.map_cons, List.sum_cons]
    rw [List.nodup_cons] at hnd
    by_cases hac : a = c
    · subst hac
      have hL : List.map (fun c' => (survivorsOfClass q c' : Multiset PoolSlot)) L =
          List.map (fun c' => (survivorsOfClass p c' : Multiset PoolSlot)) L := by
        apply List.map_congr_left
        intro c' hc'
        have : c' ≠ a := fun e => hnd.1 (e ▸ hc')
        rw [h c' this]
      rw [hL]
      abel
    · have hc' : c ∈ L := by
        rcases List.mem_cons.mp hc with e | e
        · exact absurd e.symm hac
        · exact e
      have := ih hc' hnd.2
      rw [h a hac]
      calc (survivorsOfClass p a : Multiset PoolSlot) +
            (List.map (fun c' => (survivorsOfClass q c' : Multiset PoolSlot)) L).sum +
            (survivorsOfClass p c : Multiset PoolSlot)
          = (survivorsOfClass p a : Multiset PoolSlot) +
            ((List.map (fun c' => (survivorsOfClass q c' : Multiset PoolSlot)) L).sum +
            (survivorsOfClass p c : Multiset PoolSlot)) := by abel
        _ = _ := by rw [this]; abel

theorem survivingFrom_append (dead : Nat → Bool) :
    ∀ (A B : List PoolSlot) (k : Nat),
      survivingFrom dead k (A ++ B) =
        survivingFrom dead k A ++ survivingFrom dead (k + A.length) B := by
  intro A
  induction A with
  | nil => intro B k; simp [survivingFrom]
  | cons a A ih =>
    intro B k
    have e : k + 1 + A.length = k + (A.length + 1) := by omega
    have h1 : survivingFrom dead k (a :: A ++ B) =
        if dead k then survivingFrom dead (k + 1) (A ++ B)
        else a :: survivingFrom dead (k + 1) (A ++ B) := rfl
    have h2 : survivingFrom dead k (a :: A) =
        if dead k then survivingFrom dead (k + 1) A
        else a :: survivingFrom dead (k + 1) A := rfl
    rw [h1, h2, ih B (k + 1), e, List.length_cons]
    split <;> rfl

theorem survivingFrom_congr (dead dead' : Nat → Bool) :
    ∀ (l : List PoolSlot) (k : Nat),
      (∀ j, k ≤ j → j < k + l.length → dead j = dead' j) →
      survivingFrom dead k l = survivingFrom dead' k l := by
  intro l
  induction l with
  | nil => intro k _; rfl
  | cons a l ih =>
    intro k h
    simp only [survivingFrom]
    rw [h k (Nat.le_refl k) (by simp), ih (k + 1) (fun j h1 h2 => h j (by omega) (by
      simp only [List.length_cons]; omega))]

theorem survivingFrom_alive (dead : Nat → Bool) :
    ∀ (l : List PoolSlot) (k : Nat),
      (∀ j, k ≤ j → j < k + l.length → dead j = false) → survivingFrom dead k l = l := by
  intro l
  induction l with
  | nil => intro k _; rfl
  | cons a l ih =>
    intro k h
    simp only [survivingFrom]
    rw [h k (Nat.le_refl k) (by simp), ih (k + 1) (fun j h1 h2 => h j (by omega) (by
      simp only [List.length_cons]; omega))]
    simp

theorem mem_survivingFrom (dead : Nat → Bool) (s : PoolSlot) :
    ∀ (l : List PoolSlot) (k : Nat),
      s ∈ survivingFrom dead k l ↔ ∃ i, l[i]? = some s ∧ dead (k + i) = false := by
  intro l
  induction l with
  | nil => intro k; simp [survivingFrom]
  | cons a l ih =>
    intro k
    simp only [survivingFrom]
    constructor
    · intro h
      by_cases hd : dead k = true
      · rw [if_pos hd] at h
        obtain ⟨i, h1, h2⟩ := (ih (k + 1)).mp h
        exact ⟨i + 1, by simpa using h1, by
          have : k + (i + 1) = k + 1 + i := by omega
          rw [this]; exact h2⟩
      · rw [if_neg hd] at h
        rcases List.mem_cons.mp h with e | e
        · exact ⟨0, by simp [e], by simpa using hd⟩
        · obtain ⟨i, h1, h2⟩ := (ih (k + 1)).mp e
          exact ⟨i + 1, by simpa using h1, by
            have : k + (i + 1) = k + 1 + i := by omega
            rw [this]; exact h2⟩
    · rintro ⟨i, h1, h2⟩
      cases i with
      | zero =>
        simp only [List.getElem?_cons_zero, Option.some.injEq] at h1
        simp only [Nat.add_zero] at h2
        rw [if_neg (by simp [h2])]
        exact List.mem_cons.mpr (Or.inl h1.symm)
      | succ i =>
        simp only [List.getElem?_cons_succ] at h1
        have h3 : s ∈ survivingFrom dead (k + 1) l :=
          (ih (k + 1)).mpr ⟨i, h1, by
            have : k + 1 + i = k + (i + 1) := by omega
            rw [this]; exact h2⟩
        split
        · exact h3
        · exact List.mem_cons.mpr (Or.inr h3)

/-- A surviving payload of the pool is a live slot that is not in the deferred
free set. -/
theorem mem_survivors (p : CompactingPool cfg) (s : PoolSlot) :
    s ∈ survivors p ↔
      ∃ c i, (p.slots c)[i]? = some s ∧ (c, i) ∉ p.deferredFrees := by
  unfold survivors survivorsOfClass
  simp only [List.mem_flatMap, List.mem_finRange, true_and, mem_survivingFrom, Nat.zero_add,
    decide_eq_false_iff_not]

theorem list_split (l : List PoolSlot) (i : Nat) (h : i < l.length) :
    ∃ A x B, l = A ++ x :: B ∧ A.length = i := by
  refine ⟨l.take i, l[i], l.drop (i + 1), ?_, by simp; omega⟩
  rw [← List.drop_eq_getElem_cons h, List.take_append_drop]

theorem list_split_of_getElem (l : List PoolSlot) (i : Nat) (x : PoolSlot)
    (h : l[i]? = some x) : ∃ A B, l = A ++ x :: B ∧ A.length = i := by
  have hi : i < l.length := by
    by_contra hc
    rw [List.getElem?_eq_none (by omega)] at h
    exact absurd h (by simp)
  obtain ⟨A, y, B, hl, hA⟩ := list_split l i hi
  refine ⟨A, B, ?_, hA⟩
  have hy : y = x := by
    rw [hl, ← hA, List.getElem?_append_right (Nat.le_refl _), Nat.sub_self,
      List.getElem?_cons_zero] at h
    exact Option.some.inj h
  rw [hl, hy]

theorem freeImmediate_last (p : CompactingPool cfg) (c : Fin cfg.classCount)
    (A : List PoolSlot) (x : PoolSlot) (hl : p.slots c = A ++ [x])
    (hc : cfg.sizeClassOf x.payload.m_size = some c) :
    freeImmediate p (c, A.length) =
      some { p with slots := Function.update p.slots c A } := by
  unfold freeImmediate
  have h1 : (A ++ [x])[A.length]? = some x := by
    rw [List.getElem?_append_right (Nat.le_refl _), Nat.sub_self, List.getElem?_cons_zero]
  have h2 : (A ++ [x]).getLast? = some x := List.getLast?_concat _
  have h3 : A.length = (A ++ [x]).length - 1 := by simp
  simp only [hl, h1, h2, hc, if_true, ← h3, List.dropLast_concat]

theorem freeImmediate_inner (p : CompactingPool cfg) (c : Fin cfg.classCount)
    (A B : List PoolSlot) (x t : PoolSlot) (hl : p.slots c = A ++ x :: (B ++ [t]))
    (hc : cfg.sizeClassOf x.payload.m_size = some c) :
    freeImmediate p (c, A.length) =
      some { p with
        slots := Function.update p.slots c (A ++ t :: B)
        referrerContents := Function.update p.referrerContents t.referrer (some (c, A.length)) } := by
  unfold freeImmediate
  have h1 : (A ++ x :: (B ++ [t]))[A.length]? = some x := by
    rw [List.getElem?_append_right (Nat.le_refl _), Nat.sub_self, List.getElem?_cons_zero]
  have h2 : (A ++ x :: (B ++ [t])).getLast? = some t := by
    have : A ++ x :: (B ++ [t]) = (A ++ x :: B) ++ [t] := by simp
    rw [this, List.getLast?_concat]
  have h3 : ¬ (A.length = (A ++ x :: (B ++ [t])).length - 1) := by
    simp only [List.length_append, List.length_cons, List.length_singleton]
    omega
  have h4 : ((A ++ x :: (B ++ [t])).set A.length t).dropLast = A ++ t :: B := by
    have e : (A ++ x :: (B ++ [t])).set A.length t = (A ++ t :: B) ++ [t] := by
      rw [List.set_append_right _ _ (Nat.le_refl _), Nat.sub_self]
      simp
    rw [e, List.dropLast_concat]
  simp only [hl, h1, h2, hc, if_true, h3, if_false, h4]

/-- Membership in the deferred free set after the removal of `a`. -/
theorem mem_filter_ne (T : List (PayloadAddress cfg)) (a b : PayloadAddress cfg) :
    b ∈ T.filter (fun b => b ≠ a) ↔ b ∈ T ∧ b ≠ a := by
  simp [List.mem_filter]

/-- The surviving payloads of a class other than the one freed in are untouched. -/
theorem survivorsOfClass_other (p q : CompactingPool cfg) (a : PayloadAddress cfg)
    (c' : Fin cfg.classCount) (hc : c' ≠ a.1) (hs : q.slots c' = p.slots c')
    (hT : q.deferredFrees = p.deferredFrees.filter (fun b => b ≠ a)) :
    survivorsOfClass q c' = survivorsOfClass p c' := by
  unfold survivorsOfClass
  rw [hs, hT]
  apply survivingFrom_congr
  intro j _ _
  have : ((c', j) ∈ p.deferredFrees.filter (fun b => b ≠ a)) ↔ (c', j) ∈ p.deferredFrees := by
    rw [mem_filter_ne]
    exact ⟨fun h => h.1, fun h => ⟨h, fun e => hc (by rw [← e])⟩⟩
  exact decide_eq_decide.mpr this

/-- Two surviving payloads with one referrer are at one address. -/
theorem PoolInv.same_referrer {p : CompactingPool cfg} (hinv : PoolInv p)
    (c1 c2 : Fin cfg.classCount) (i1 i2 : Nat) (s1 s2 : PoolSlot)
    (h1 : (p.slots c1)[i1]? = some s1) (a1 : (c1, i1) ∉ p.deferredFrees)
    (h2 : (p.slots c2)[i2]? = some s2) (a2 : (c2, i2) ∉ p.deferredFrees)
    (hr : s1.referrer = s2.referrer) : c1 = c2 ∧ i1 = i2 := by
  have e1 := hinv.points c1 i1 s1 h1 a1
  have e2 := hinv.points c2 i2 s2 h2 a2
  rw [hr, e2] at e1
  simp only [Option.some.injEq, Prod.mk.injEq] at e1
  exact ⟨e1.1.symm, e1.2.symm⟩

/-- The free of the tail slot of a class, with the tombstone of its address
taken out of the deferred free set. -/
theorem free_step_last (p : CompactingPool cfg) (hinv : PoolInv p) (c : Fin cfg.classCount)
    (A : List PoolSlot) (x : PoolSlot) (hl : p.slots c = A ++ [x]) :
    PoolInv { p with
      slots := Function.update p.slots c A
      deferredFrees := p.deferredFrees.filter (fun b => b ≠ (c, A.length)) } ∧
    ((survivors { p with
      slots := Function.update p.slots c A
      deferredFrees := p.deferredFrees.filter (fun b => b ≠ (c, A.length)) } : List PoolSlot) :
        Multiset PoolSlot) + (if (c, A.length) ∈ p.deferredFrees then 0 else {x}) =
      (survivors p : Multiset PoolSlot) := by
  constructor
  · refine ⟨?_, ?_, ?_, ?_, ?_⟩
    · intro c2 i2 s hs hnot
      simp only at hs hnot ⊢
      rw [mem_filter_ne] at hnot
      by_cases hc : c2 = c
      · subst hc
        rw [Function.update_same] at hs
        have hi2 : i2 < A.length := by
          by_contra hcon
          rw [List.getElem?_eq_none (by omega)] at hs
          exact absurd hs (by simp)
        have hs' : (p.slots c2)[i2]? = some s := by
          rw [hl, List.getElem?_append_left hi2]; exact hs
        refine hinv.points c2 i2 s hs' (fun hm => hnot ⟨hm, fun e => ?_⟩)
        have := congrArg Prod.snd e
        simp only at this
        omega
      · rw [Function.update_noteq hc] at hs
        exact hinv.points c2 i2 s hs (fun hm => hnot ⟨hm, fun e => hc (congrArg Prod.fst e)⟩)
    · intro c2 i2 s hs
      simp only at hs
      by_cases hc : c2 = c
      · subst hc
        rw [Function.update_same] at hs
        have hi2 : i2 < A.length := by
          by_contra hcon
          rw [List.getElem?_eq_none (by omega)] at hs
          exact absurd hs (by simp)
        exact hinv.classOf c2 i2 s (by rw [hl, List.getElem?_append_left hi2]; exact hs)
      · rw [Function.update_noteq hc] at hs
        exact hinv.classOf c2 i2 s hs
    · intro b hb
      simp only at hb ⊢
      rw [mem_filter_ne] at hb
      have hv := hinv.freesValid b hb.1
      by_cases hc : b.1 = c
      · rw [hc, Function.update_same]
        rw [hc, hl] at hv
        simp only [List.length_append, List.length_singleton] at hv
        have hne : b.2 ≠ A.length := fun e => hb.2 (Prod.ext hc e)
        omega
      · rw [Function.update_noteq hc]
        exact hv
    · exact List.Pairwise.filter _ hinv.freesSorted
    · exact List.Nodup.filter _ hinv.freesNodup
  · have hupd := survivors_update p { p with
        slots := Function.update p.slots c A
        deferredFrees := p.deferredFrees.filter (fun b => b ≠ (c, A.length)) } c
      (fun c' hc' => survivorsOfClass_other p _ (c, A.length) c' hc'
        (by simp only; rw [Function.update_noteq hc']) rfl)
    have hq : survivorsOfClass { p with
        slots := Function.update p.slots c A
        deferredFrees := p.deferredFrees.filter (fun b => b ≠ (c, A.length)) } c =
        survivingFrom (fun j => decide ((c, j) ∈ p.deferredFrees)) 0 A := by
      unfold survivorsOfClass
      simp only [Function.update_same]
      apply survivingFrom_congr
      intro j _ hj
      apply decide_eq_decide.mpr
      rw [mem_filter_ne]
      refine ⟨fun h => h.1, fun h => ⟨h, fun e => ?_⟩⟩
      have := congrArg Prod.snd e
      simp only at this
      omega
    have hp : survivorsOfClass p c =
        survivingFrom (fun j => decide ((c, j) ∈ p.deferredFrees)) 0 A ++
          (if (c, A.length) ∈ p.deferredFrees then [] else [x]) := by
      unfold survivorsOfClass
      rw [hl, survivingFrom_append]
      simp only [Nat.zero_add, survivingFrom]
      by_cases hm : (c, A.length) ∈ p.deferredFrees <;> simp [hm]
    rw [hq, hp] at hupd
    by_cases hm : (c, A.length) ∈ p.deferredFrees
    · simp only [hm, if_true, List.append_nil, add_zero] at hupd ⊢
      exact add_right_cancel hupd
    · simp only [hm, if_false] at hupd ⊢
      have h2 : ((survivingFrom (fun j => decide ((c, j) ∈ p.deferredFrees)) 0 A ++ [x] :
          List PoolSlot) : Multiset PoolSlot) =
          (survivingFrom (fun j => decide ((c, j) ∈ p.deferredFrees)) 0 A : Multiset PoolSlot) +
            ({x} : Multiset PoolSlot) := by
        rw [← Multiset.coe_add]
        rfl
      rw [h2, ← add_assoc] at hupd
      have h3 := hupd
      rw [add_right_comm] at h3
      exact add_right_cancel h3

/-- Where a slot of a compacted class list was before the compaction. -/
theorem compacted_getElem (A B : List PoolSlot) (x t s : PoolSlot) (i : Nat)
    (h : (A ++ t :: B)[i]? = some s) :
    (i < A.length ∧ (A ++ x :: (B ++ [t]))[i]? = some s) ∨ (i = A.length ∧ s = t) ∨
      (A.length < i ∧ i < A.length + 1 + B.length ∧ (A ++ x :: (B ++ [t]))[i]? = some s) := by
  rcases lt_trichotomy i A.length with hlt | heq | hgt
  · left
    rw [List.getElem?_append_left hlt] at h
    exact ⟨hlt, by rw [List.getElem?_append_left hlt]; exact h⟩
  · right; left
    subst heq
    rw [List.getElem?_append_right (le_refl _)] at h
    simp only [Nat.sub_self, List.getElem?_cons_zero, Option.some.injEq] at h
    exact ⟨rfl, h.symm⟩
  · right; right
    rw [List.getElem?_append_right (le_of_lt hgt)] at h
    obtain ⟨k, hk⟩ : ∃ k, i - A.length = k + 1 := ⟨i - A.length - 1, by omega⟩
    rw [hk, List.getElem?_cons_succ] at h
    have hkB : k < B.length := by
      by_contra hcon
      rw [List.getElem?_eq_none (by omega)] at h
      exact absurd h (by simp)
    refine ⟨hgt, by omega, ?_⟩
    rw [List.getElem?_append_right (le_of_lt hgt), hk, List.getElem?_cons_succ,
      List.getElem?_append_left hkB]
    exact h

/-- The tail slot of the list before compaction. -/
theorem tail_getElem (A B : List PoolSlot) (x t : PoolSlot) :
    (A ++ x :: (B ++ [t]))[A.length + 1 + B.length]? = some t := by
  rw [List.getElem?_append_right (by omega)]
  have : A.length + 1 + B.length - A.length = B.length + 1 := by omega
  rw [this, List.getElem?_cons_succ, List.getElem?_append_right (le_refl _)]
  simp

/-- The free of a slot that is not the tail of its class: the tail payload
moves into the hole, its referrer is redirected there, and the tombstone of
the freed address leaves the deferred free set. -/
theorem free_step_inner (p : CompactingPool cfg) (hinv : PoolInv p) (c : Fin cfg.classCount)
    (A B : List PoolSlot) (x t : PoolSlot) (hl : p.slots c = A ++ x :: (B ++ [t]))
    (hmax : ∀ j, (c, j) ∈ p.deferredFrees → j ≤ A.length) :
    PoolInv { p with
      slots := Function.update p.slots c (A ++ t :: B)
      referrerContents := Function.update p.referrerContents t.referrer (some (c, A.length))
      deferredFrees := p.deferredFrees.filter (fun b => b ≠ (c, A.length)) } ∧
    ((survivors { p with
      slots := Function.update p.slots c (A ++ t :: B)
      referrerContents := Function.update p.referrerContents t.referrer (some (c, A.length))
      deferredFrees := p.deferredFrees.filter (fun b => b ≠ (c, A.length)) } : List PoolSlot) :
        Multiset PoolSlot) + (if (c, A.length) ∈ p.deferredFrees then 0 else {x}) =
      (survivors p : Multiset PoolSlot) := by
  have htail : (p.slots c)[A.length + 1 + B.length]? = some t := by
    rw [hl]; exact tail_getElem A B x t
  have htalive : (c, A.length + 1 + B.length) ∉ p.deferredFrees := fun hm => by
    have := hmax _ hm
    omega
  constructor
  · refine ⟨?_, ?_, ?_, ?_, ?_⟩
    · intro c2 i2 s hs hnot
      simp only at hs hnot ⊢
      rw [mem_filter_ne] at hnot
      by_cases hc : c2 = c
      · subst hc
        rw [Function.update_same] at hs
        rcases compacted_getElem A B x t s i2 hs with ⟨hlt, hs'⟩ | ⟨heq, hst⟩ | ⟨hgt, hlt, hs'⟩
        · rw [← hl] at hs'
          have halive : (c2, i2) ∉ p.deferredFrees := fun hm => hnot ⟨hm, fun e => by
            have := congrArg Prod.snd e
            simp only at this
            omega⟩
          have hne : s.referrer ≠ t.referrer := fun e => by
            have := (hinv.same_referrer c2 c2 i2 _ s t hs' halive htail htalive e).2
            omega
          rw [Function.update_noteq hne]
          exact hinv.points c2 i2 s hs' halive
        · subst heq; subst hst
          rw [Function.update_same]
        · rw [← hl] at hs'
          have halive : (c2, i2) ∉ p.deferredFrees := fun hm => by
            have := hmax _ hm
            omega
          have hne : s.referrer ≠ t.referrer := fun e => by
            have := (hinv.same_referrer c2 c2 i2 _ s t hs' halive htail htalive e).2
            omega
          rw [Function.update_noteq hne]
          exact hinv.points c2 i2 s hs' halive
      · rw [Function.update_noteq hc] at hs
        have halive : (c2, i2) ∉ p.deferredFrees :=
          fun hm => hnot ⟨hm, fun e => hc (congrArg Prod.fst e)⟩
        have hne : s.referrer ≠ t.referrer := fun e =>
          hc (hinv.same_referrer c2 c i2 _ s t hs halive htail htalive e).1
        rw [Function.update_noteq hne]
        exact hinv.points c2 i2 s hs halive
    · intro c2 i2 s hs
      simp only at hs
      by_cases hc : c2 = c
      · subst hc
        rw [Function.update_same] at hs
        rcases compacted_getElem A B x t s i2 hs with ⟨_, hs'⟩ | ⟨_, hst⟩ | ⟨_, _, hs'⟩
        · rw [← hl] at hs'
          exact hinv.classOf c2 i2 s hs'
        · subst hst
          exact hinv.classOf c2 _ s htail
        · rw [← hl] at hs'
          exact hinv.classOf c2 i2 s hs'
      · rw [Function.update_noteq hc] at hs
        exact hinv.classOf c2 i2 s hs
    · intro b hb
      simp only at hb ⊢
      rw [mem_filter_ne] at hb
      have hv := hinv.freesValid b hb.1
      by_cases hc : b.1 = c
      · rw [hc, Function.update_same]
        have hle := hmax b.2 (by rw [← hc]; exact hb.1)
        have hne : b.2 ≠ A.length := fun e => hb.2 (Prod.ext hc e)
        simp only [List.length_append, List.length_cons]
        omega
      · rw [Function.update_noteq hc]
        exact hv
    · exact List.Pairwise.filter _ hinv.freesSorted
    · exact List.Nodup.filter _ hinv.freesNodup
  · have hupd := survivors_update p { p with
        slots := Function.update p.slots c (A ++ t :: B)
        referrerContents := Function.update p.referrerContents t.referrer (some (c, A.length))
        deferredFrees := p.deferredFrees.filter (fun b => b ≠ (c, A.length)) } c
      (fun c' hc' => survivorsOfClass_other p _ (c, A.length) c' hc'
        (by simp only; rw [Function.update_noteq hc']) rfl)
    have hq : survivorsOfClass { p with
        slots := Function.update p.slots c (A ++ t :: B)
        referrerContents := Function.update p.referrerContents t.referrer (some (c, A.length))
        deferredFrees := p.deferredFrees.filter (fun b => b ≠ (c, A.length)) } c =
        survivingFrom (fun j => decide ((c, j) ∈ p.deferredFrees)) 0 A ++ t :: B := by
      unfold survivorsOfClass
      simp only [Function.update_same]
      rw [survivingFrom_append]
      congr 1
      · apply survivingFrom_congr
        intro j _ hj
        apply decide_eq_decide.mpr
        rw [mem_filter_ne]
        refine ⟨fun h => h.1, fun h => ⟨h, fun e => ?_⟩⟩
        have := congrArg Prod.snd e
        simp only at this
        omega
      · apply survivingFrom_alive
        intro j hj1 _
        apply decide_eq_false
        rw [mem_filter_ne]
        rintro ⟨hm, hne⟩
        have hle := hmax j hm
        have : j = A.length := by omega
        exact hne (by rw [this])
    have hp : survivorsOfClass p c =
        survivingFrom (fun j => decide ((c, j) ∈ p.deferredFrees)) 0 A ++
          ((if (c, A.length) ∈ p.deferredFrees then [] else [x]) ++ (B ++ [t])) := by
      unfold survivorsOfClass
      rw [hl, survivingFrom_append]
      congr 1
      have hB : survivingFrom (fun j => decide ((c, j) ∈ p.deferredFrees)) (0 + A.length + 1)
          (B ++ [t]) = B ++ [t] := by
        apply survivingFrom_alive
        intro j hj1 _
        apply decide_eq_false
        intro hm
        have hle := hmax j hm
        omega
      by_cases hm : (c, A.length) ∈ p.deferredFrees
      · simp only [survivingFrom, Nat.zero_add, hm, decide_True, if_true, List.nil_append]
        simpa using hB
      · simp only [survivingFrom, Nat.zero_add, hm, decide_False, if_false]
        simpa using hB
    rw [hq, hp] at hupd
    have hperm : ((t :: B : List PoolSlot) : Multiset PoolSlot) = ((B ++ [t] : List PoolSlot) :
        Multiset PoolSlot) := by
      apply Multiset.coe_eq_coe.mpr
      exact (List.perm_append_singleton t B).symm
    simp only [← Multiset.coe_add] at hupd hperm
    rw [hperm] at hupd
    by_cases hm : (c, A.length) ∈ p.deferredFrees
    · simp only [hm, if_true, Multiset.coe_nil, zero_add, add_zero] at hupd ⊢
      exact add_right_cancel hupd
    · simp only [hm, if_false] at hupd ⊢
      have h3 : ((survivors { p with
          slots := Function.update p.slots c (A ++ t :: B)
          referrerContents := Function.update p.referrerContents t.referrer (some (c, A.length))
          deferredFrees := p.deferredFrees.filter (fun b => b ≠ (c, A.length)) } :
            List PoolSlot) : Multiset PoolSlot) + {x} +
          ((survivingFrom (fun j => decide ((c, j) ∈ p.deferredFrees)) 0 A : Multiset PoolSlot) +
            ((B : Multiset PoolSlot) + (([t] : List PoolSlot) : Multiset PoolSlot))) =
          (survivors p : Multiset PoolSlot) +
          ((survivingFrom (fun j => decide ((c, j) ∈ p.deferredFrees)) 0 A : Multiset PoolSlot) +
            ((B : Multiset PoolSlot) + (([t] : List PoolSlot) : Multiset PoolSlot))) := by
        rw [← hupd]
        have hx : (([x] : List PoolSlot) : Multiset PoolSlot) = {x} := rfl
        rw [hx]
        abel
      exact add_right_cancel h3

/-- The free, as in immediate mode, of a live slot above which nothing of its
class is tombstoned, followed by the removal of its own tombstone: the
invariant is kept, and the slot leaves the surviving payloads unless it was
tombstoned. -/
theorem free_step (p : CompactingPool cfg) (hinv : PoolInv p) (c : Fin cfg.classCount)
    (i : Nat) (x : PoolSlot) (hx : (p.slots c)[i]? = some x)
    (hmax : ∀ j, (c, j) ∈ p.deferredFrees → j ≤ i) :
    ∃ p1, freeImmediate p (c, i) = some p1 ∧
      p1.deferredRelease = p.deferredRelease ∧ p1.deferredFrees = p.deferredFrees ∧
      PoolInv { p1 with deferredFrees := p1.deferredFrees.filter (fun b => b ≠ (c, i)) } ∧
      ((survivors { p1 with deferredFrees := p1.deferredFrees.filter (fun b => b ≠ (c, i)) } :
        List PoolSlot) : Multiset PoolSlot) + (if (c, i) ∈ p.deferredFrees then 0 else {x}) =
        (survivors p : Multiset PoolSlot) := by
  obtain ⟨A, B, hl, hA⟩ := list_split_of_getElem (p.slots c) i x hx
  subst hA
  have hc := hinv.classOf c A.length x hx
  rcases List.eq_nil_or_concat B with hB | ⟨B1, t, hB⟩
  · subst hB
    have h := free_step_last p hinv c A x hl
    exact ⟨_, freeImmediate_last p c A x hl hc, rfl, rfl, h.1, h.2⟩
  · rw [List.concat_eq_append] at hB
    subst hB
    have h := free_step_inner p hinv c A B1 x t hl hmax
    exact ⟨_, freeImmediate_inner p c A B1 x t hl hc, rfl, rfl, h.1, h.2⟩

/-- The invariant does not mention the release mode. -/
theorem PoolInv.setMode {p : CompactingPool cfg} (hinv : PoolInv p) (m : Bool) :
    PoolInv { p with deferredRelease := m } :=
  ⟨hinv.points, hinv.classOf, hinv.freesValid, hinv.freesSorted, hinv.freesNodup⟩

/-- The empty pool satisfies the invariant. -/
theorem emptyPool_inv (cfg : PoolConfig) : PoolInv (emptyPool cfg) := by
  refine ⟨?_, ?_, ?_, ?_, ?_⟩
  · intro c i s hs; simp [emptyPool] at hs
  · intro c i s hs; simp [emptyPool] at hs
  · intro a ha; simp [emptyPool] at ha
  · simp [emptyPool]
  · simp [emptyPool]

/-- The empty pool has no surviving payload. -/
theorem emptyPool_survivors (cfg : PoolConfig) (m : Bool) :
    survivors { emptyPool cfg with deferredRelease := m } = [] := by
  unfold survivors survivorsOfClass
  simp [emptyPool, survivingFrom]

/-- The surviving payloads of a class with its slots and the deferred free set
unchanged. -/
theorem survivorsOfClass_same (p q : CompactingPool cfg) (c' : Fin cfg.classCount)
    (hs : q.slots c' = p.slots c') (hT : q.deferredFrees = p.deferredFrees) :
    survivorsOfClass q c' = survivorsOfClass p c' := by
  unfold survivorsOfClass
  rw [hs, hT]

/-- An allocation that registers a caller slot of no surviving payload keeps the
invariant and adds its payload to the surviving ones. -/
theorem allocate_step (p : CompactingPool cfg) (hinv : PoolInv p) (r : Nat) (sz : Int)
    (data : List Nat) (hsz : (cfg.sizeClassOf sz).isSome = true)
    (hr : ∀ s ∈ survivors p, s.referrer ≠ r) :
    ∃ p1, allocateRelocatable p r sz data = some p1 ∧
      p1.deferredRelease = p.deferredRelease ∧ p1.deferredFrees = p.deferredFrees ∧
      PoolInv p1 ∧
      (survivors p1 : Multiset PoolSlot) =
        (survivors p : Multiset PoolSlot) + {{ payload := ⟨sz, data⟩, referrer := r }} := by
  obtain ⟨c, hc⟩ := Option.isSome_iff_exists.mp hsz
  refine ⟨{ p with
      slots := Function.update p.slots c
        (p.slots c ++ [{ payload := ⟨sz, data⟩, referrer := r }])
      referrerContents := Function.update p.referrerContents r
        (some (c, (p.slots c).length)) }, by unfold allocateRelocatable; rw [hc], rfl, rfl, ?_, ?_⟩
  · refine ⟨?_, ?_, ?_, hinv.freesSorted, hinv.freesNodup⟩
    · intro c2 i2 s hs hnot
      simp only at hs hnot ⊢
      by_cases hcc : c2 = c
      · subst hcc
        rw [Function.update_same] at hs
        rcases lt_or_ge i2 (p.slots c2).length with hlt | hge
        · rw [List.getElem?_append_left hlt] at hs
          have hne : s.referrer ≠ r := hr s ((mem_survivors p s).mpr ⟨c2, i2, hs, hnot⟩)
          rw [Function.update_noteq hne]
          exact hinv.points c2 i2 s hs hnot
        · rw [List.getElem?_append_right hge] at hs
          have h0 : i2 - (p.slots c2).length = 0 := by
            by_contra hcon
            obtain ⟨k, hk⟩ : ∃ k, i2 - (p.slots c2).length = k + 1 :=
              ⟨i2 - (p.slots c2).length - 1, by omega⟩
            rw [hk] at hs
            simp at hs
          rw [h0] at hs
          simp only [List.getElem?_cons_zero, Option.some.injEq] at hs
          subst hs
          simp only [Function.update_same]
          have : i2 = (p.slots c2).length := by omega
          rw [this]
      · rw [Function.update_noteq hcc] at hs
        have hne : s.referrer ≠ r := hr s ((mem_survivors p s).mpr ⟨c2, i2, hs, hnot⟩)
        rw [Function.update_noteq hne]
        exact hinv.points c2 i2 s hs hnot
    · intro c2 i2 s hs
      simp only at hs
      by_cases hcc : c2 = c
      · subst hcc
        rw [Function.update_same] at hs
        rcases lt_or_ge i2 (p.slots c2).length with hlt | hge
        · rw [List.getElem?_append_left hlt] at hs
          exact hinv.classOf c2 i2 s hs
        · rw [List.getElem?_append_right hge] at hs
          have h0 : i2 - (p.slots c2).length = 0 := by
            by_contra hcon
            obtain ⟨k, hk⟩ : ∃ k, i2 - (p.slots c2).length = k + 1 :=
              ⟨i2 - (p.slots c2).length - 1, by omega⟩
            rw [hk] at hs
            simp at hs
          rw [h0] at hs
          simp only [List.getElem?_cons_zero, Option.some.injEq] at hs
          subst hs
          exact hc
      · rw [Function.update_noteq hcc] at hs
        exact hinv.classOf c2 i2 s hs
    · intro b hb
      simp only at hb ⊢
      have hv := hinv.freesValid b hb
      by_cases hcc : b.1 = c
      · rw [hcc, Function.update_same, List.length_append]
        rw [hcc] at hv
        omega
      · rw [Function.update_noteq hcc]
        exact hv
  · have hupd := survivors_update p { p with
        slots := Function.update p.slots c
          (p.slots c ++ [{ payload := ⟨sz, data⟩, referrer := r }])
        referrerContents := Function.update p.referrerContents r
          (some (c, (p.slots c).length)) } c
      (fun c' hc' => survivorsOfClass_same p _ c' (by simp only; rw [Function.update_noteq hc'])
        rfl)
    have hq : survivorsOfClass { p with
        slots := Function.update p.slots c
          (p.slots c ++ [{ payload := ⟨sz, data⟩, referrer := r }])
        referrerContents := Function.update p.referrerContents r
          (some (c, (p.slots c).length)) } c =
        survivorsOfClass p c ++ [{ payload := ⟨sz, data⟩, referrer := r }] := by
      unfold survivorsOfClass
      simp only [Function.update_same]
      rw [survivingFrom_append]
      congr 1
      apply survivingFrom_alive
      intro j hj1 hj2
      apply decide_eq_false
      intro hm
      have := hinv.freesValid _ hm
      simp only [List.length_singleton] at hj2
      simp only at this
      omega
    rw [hq, ← Multiset.coe_add, ← add_assoc] at hupd
    have h3 := hupd
    rw [add_comm] at h3
    have h4 : (survivorsOfClass p c : Multiset PoolSlot) + (survivors { p with
        slots := Function.update p.slots c
          (p.slots c ++ [{ payload := ⟨sz, data⟩, referrer := r }])
        referrerContents := Function.update p.referrerContents r
          (some (c, (p.slots c).length)) } : Multiset PoolSlot) =
        (survivorsOfClass p c : Multiset PoolSlot) + ((survivors p : Multiset PoolSlot) +
          {{ payload := ⟨sz, data⟩, referrer := r }}) := by
      rw [h3]
      have hx : (([{ payload := ⟨sz, data⟩, referrer := r }] : List PoolSlot) :
          Multiset PoolSlot) = {{ payload := ⟨sz, data⟩, referrer := r }} := rfl
      rw [hx]
      abel
    exact add_left_cancel h4

/-- The order of the deferred free set, spelled out on addresses. -/
theorem addressLE_iff (a b : PayloadAddress cfg) :
    addressLE a b ↔ a.1.val < b.1.val ∨ (a.1.val = b.1.val ∧ a.2 ≤ b.2) := by
  unfold addressLE SizePtrPairComparator PayloadAddress.toSizePtrPair
  simp only
  split_ifs <;> omega

theorem addressLE_total : IsTotal (PayloadAddress cfg) addressLE :=
  ⟨fun a b => by rw [addressLE_iff, addressLE_iff]; omega⟩

theorem addressLE_trans : IsTrans (PayloadAddress cfg) addressLE :=
  ⟨fun a b c => by rw [addressLE_iff, addressLE_iff, addressLE_iff]; omega⟩

/-- Within one size class the order of the deferred free set is that of the
addresses. -/
theorem addressLE_same_class (c : Fin cfg.classCount) (i j : Nat)
    (h : addressLE ((c, j) : PayloadAddress cfg) (c, i)) : j ≤ i := by
  rw [addressLE_iff] at h
  simp only at h
  omega

/-- A payload that is tombstoned leaves the surviving payloads. -/
theorem survivors_tombstone (p q : CompactingPool cfg) (c : Fin cfg.classCount) (i : Nat)
    (s : PoolSlot) (hs : (p.slots c)[i]? = some s) (halive : (c, i) ∉ p.deferredFrees)
    (hslots : q.slots = p.slots)
    (hT : ∀ b, b ∈ q.deferredFrees ↔ b = (c, i) ∨ b ∈ p.deferredFrees) :
    (survivors q : Multiset PoolSlot) + {s} = (survivors p : Multiset PoolSlot) := by
  have hupd := survivors_update p q c (fun c' hc' => by
    unfold survivorsOfClass
    rw [hslots]
    apply survivingFrom_congr
    intro j _ _
    apply decide_eq_decide.mpr
    rw [hT]
    exact ⟨fun h => h.resolve_left (fun e => hc' (congrArg Prod.fst e)), Or.inr⟩)
  obtain ⟨A, B, hl, hA⟩ := list_split_of_getElem (p.slots c) i s hs
  subst hA
  have hp : survivorsOfClass p c =
      survivingFrom (fun j => decide ((c, j) ∈ p.deferredFrees)) 0 A ++
        s :: survivingFrom (fun j => decide ((c, j) ∈ p.deferredFrees)) (A.length + 1) B := by
    unfold survivorsOfClass
    rw [hl, survivingFrom_append]
    simp only [survivingFrom, Nat.zero_add, halive, decide_False, Bool.false_eq_true, if_false]
  have hq : survivorsOfClass q c =
      survivingFrom (fun j => decide ((c, j) ∈ p.deferredFrees)) 0 A ++
        survivingFrom (fun j => decide ((c, j) ∈ p.deferredFrees)) (A.length + 1) B := by
    unfold survivorsOfClass
    rw [hslots, hl, survivingFrom_append]
    have hmem : (c, A.length) ∈ q.deferredFrees := (hT _).mpr (Or.inl rfl)
    simp only [survivingFrom, Nat.zero_add, hmem, decide_True, if_true]
    congr 1
    · apply survivingFrom_congr
      intro j _ hj
      apply decide_eq_decide.mpr
      rw [hT]
      refine ⟨fun h => h.resolve_left (fun e => ?_), Or.inr⟩
      have := congrArg Prod.snd e
      simp only at this
      omega
    · apply survivingFrom_congr
      intro j hj _
      apply decide_eq_decide.mpr
      rw [hT]
      refine ⟨fun h => h.resolve_left (fun e => ?_), Or.inr⟩
      have := congrArg Prod.snd e
      simp only at this
      omega
  rw [hp, hq] at hupd
  have hperm : ((survivingFrom (fun j => decide ((c, j) ∈ p.deferredFrees)) 0 A ++
        s :: survivingFrom (fun j => decide ((c, j) ∈ p.deferredFrees)) (A.length + 1) B :
        List PoolSlot) : Multiset PoolSlot) =
      {s} + ((survivingFrom (fun j => decide ((c, j) ∈ p.deferredFrees)) 0 A ++
        survivingFrom (fun j => decide ((c, j) ∈ p.deferredFrees)) (A.length + 1) B :
        List PoolSlot) : Multiset PoolSlot) := by
    have : ({s} : Multiset PoolSlot) = (([s] : List PoolSlot) : Multiset PoolSlot) := rfl
    rw [this, Multiset.coe_add]
    apply Multiset.coe_eq_coe.mpr
    exact List.perm_middle
  rw [hperm, ← add_assoc] at hupd
  exact add_right_cancel hupd

/-- Membership in the deferred free set after an insertion. -/
theorem mem_deferredInsert (a b : PayloadAddress cfg) (T : List (PayloadAddress cfg)) :
    b ∈ deferredInsert a T ↔ b = a ∨ b ∈ T := by
  unfold deferredInsert
  split_ifs with h
  · exact ⟨Or.inr, fun hb => hb.elim (fun e => e ▸ h) id⟩
  · rw [List.mem_orderedInsert]

/-- A free in deferred mode of a surviving payload keeps the invariant and
takes the payload out of the surviving ones; nothing moves. -/
theorem freeDeferred_step (p : CompactingPool cfg) (hinv : PoolInv p)
    (c : Fin cfg.classCount) (i : Nat) (s : PoolSlot) (hs : (p.slots c)[i]? = some s)
    (halive : (c, i) ∉ p.deferredFrees) :
    ∃ p1, freeDeferred p (c, i) = some p1 ∧ p1.deferredRelease = p.deferredRelease ∧
      PoolInv p1 ∧
      (survivors p1 : Multiset PoolSlot) + {s} = (survivors p : Multiset PoolSlot) := by
  have hc := hinv.classOf c i s hs
  refine ⟨{ p with deferredFrees := deferredInsert (c, i) p.deferredFrees }, ?_, rfl, ?_, ?_⟩
  · unfold freeDeferred
    simp only [hs, hc, if_true]
  · refine ⟨?_, hinv.classOf, ?_, ?_, ?_⟩
    · intro c2 i2 s2 hs2 hnot
      simp only at hs2 hnot ⊢
      rw [mem_deferredInsert] at hnot
      exact hinv.points c2 i2 s2 hs2 (fun hm => hnot (Or.inr hm))
    · intro b hb
      simp only at hb ⊢
      rw [mem_deferredInsert] at hb
      rcases hb with rfl | hb
      · simp only
        by_contra hcon
        rw [List.getElem?_eq_none (by omega)] at hs
        exact absurd hs (by simp)
      · exact hinv.freesValid b hb
    · simp only [deferredInsert, halive, if_false]
      haveI : IsTotal (PayloadAddress cfg) addressLE := addressLE_total
      haveI : IsTrans (PayloadAddress cfg) addressLE := addressLE_trans
      exact List.Sorted.orderedInsert _ _ hinv.freesSorted
    · simp only [deferredInsert, halive, if_false]
      exact (List.perm_orderedInsert _ _ _).nodup_iff.mpr (List.nodup_cons.mpr ⟨halive, hinv.freesNodup⟩)
  · exact survivors_tombstone p _ c i s hs halive rfl (fun b => mem_deferredInsert _ _ _)

/-- The drain of the deferred free set, from the highest pair to the lowest:
every free succeeds, the set ends empty, the invariant holds, and the surviving
payloads are those from before the drain. -/
theorem drainFrees_spec :
    ∀ (L : List (PayloadAddress cfg)) (p : CompactingPool cfg), PoolInv p →
      p.deferredFrees.reverse = L →
      ∃ q, drainFrees p L = some q ∧ PoolInv q ∧ q.deferredFrees = [] ∧
        q.deferredRelease = p.deferredRelease ∧
        (survivors q : Multiset PoolSlot) = (survivors p : Multiset PoolSlot) := by
  intro L
  induction L with
  | nil =>
    intro p hinv hL
    refine ⟨p, rfl, hinv, ?_, rfl, rfl⟩
    simpa using hL
  | cons a rest ih =>
    intro p hinv hL
    have hT : p.deferredFrees = rest.reverse ++ [a] := by
      have := congrArg List.reverse hL
      simpa using this
    have hmem : a ∈ p.deferredFrees := by rw [hT]; simp
    have hvalid := hinv.freesValid a hmem
    obtain ⟨x, hx⟩ : ∃ x, (p.slots a.1)[a.2]? = some x :=
      ⟨(p.slots a.1)[a.2], List.getElem?_eq_getElem hvalid⟩
    have hsorted := hinv.freesSorted
    rw [hT] at hsorted
    have hmax : ∀ j, (a.1, j) ∈ p.deferredFrees → j ≤ a.2 := by
      intro j hj
      rw [hT, List.mem_append] at hj
      rcases hj with hj | hj
      · have := (List.pairwise_append.mp hsorted).2.2 _ hj a (by simp)
        exact addressLE_same_class a.1 a.2 j this
      · simp only [List.mem_singleton] at hj
        have := congrArg Prod.snd hj
        simp only at this
        omega
    obtain ⟨p1, hfree, hmode, hfrees, hinv1, hsurv⟩ := free_step p hinv a.1 a.2 x hx hmax
    have hnd := hinv.freesNodup
    rw [hT] at hnd
    have hnot : a ∉ rest.reverse := fun h =>
      (List.nodup_append.mp hnd).2.2 h (by simp) 
    have hfilter : p1.deferredFrees.filter (fun b => b ≠ a) = rest.reverse := by
      rw [hfrees, hT, List.filter_append]
      have h1 : rest.reverse.filter (fun b => b ≠ a) = rest.reverse := by
        apply List.filter_eq_self.mpr
        intro b hb
        simp only [ne_eq, decide_not, Bool.not_eq_eq_eq_not, Bool.not_true, decide_eq_false_iff_not]
        exact fun e => hnot (e ▸ hb)
      rw [h1]
      simp
    obtain ⟨q, hq, hqinv, hqT, hqmode, hqsurv⟩ :=
      ih { p1 with deferredFrees := p1.deferredFrees.filter (fun b => b ≠ a) } hinv1
        (by simp only; rw [hfilter, List.reverse_reverse])
    refine ⟨q, ?_, hqinv, hqT, hqmode.trans hmode, ?_⟩
    · unfold drainFrees
      have : freeImmediate p a = some p1 := hfree
      rw [this]
      exact hq
    · rw [hqsurv]
      have hm : (a.1, a.2) ∈ p.deferredFrees := hmem
      rw [if_pos hm, add_zero] at hsurv
      exact hsurv

/-- Among allocations with distinct caller slots, the filter by the slot of one
of them removes exactly that one. -/
theorem filter_referrer_coe :
    ∀ (A : List PoolSlot) (s : PoolSlot), (A.map PoolSlot.referrer).Nodup → s ∈ A →
      ((A.filter (fun t => t.referrer ≠ s.referrer) : List PoolSlot) : Multiset PoolSlot) + {s} =
        (A : Multiset PoolSlot) := by
  intro A
  induction A with
  | nil => intro s _ hs; simp at hs
  | cons a A ih =>
    intro s hnd hs
    rw [List.map_cons, List.nodup_cons] at hnd
    rcases List.mem_cons.mp hs with rfl | hs'
    · have hall : A.filter (fun t => t.referrer ≠ s.referrer) = A := by
        apply List.filter_eq_self.mpr
        intro t ht
        simp only [ne_eq, decide_not, Bool.not_eq_eq_eq_not, Bool.not_true,
          decide_eq_false_iff_not]
        exact fun e => hnd.1 (e ▸ List.mem_map_of_mem _ ht)
      have hf : (s :: A).filter (fun t => t.referrer ≠ s.referrer) = A := by
        rw [List.filter_cons_of_neg (by simp), hall]
      rw [hf, ← Multiset.cons_coe, add_comm]
      rfl
    · have hne : a.referrer ≠ s.referrer := fun e => hnd.1 (e ▸ List.mem_map_of_mem _ hs')
      have hf : (a :: A).filter (fun t => t.referrer ≠ s.referrer) =
          a :: A.filter (fun t => t.referrer ≠ s.referrer) := by
        rw [List.filter_cons_of_pos (by simpa using hne)]
      rw [hf, ← Multiset.cons_coe, ← Multiset.cons_coe, Multiset.cons_add, ih s hnd.2 hs']

/-- A structure update that changes nothing. -/
theorem filter_frees_nil (p : CompactingPool cfg) (a : PayloadAddress cfg)
    (h : p.deferredFrees = []) :
    { p with deferredFrees := p.deferredFrees.filter (fun b => b ≠ a) } = p := by
  cases p
  simp only at h
  subst h
  rfl

/-- A sequence of operations within the contract, on a pool that satisfies the
invariant and holds the allocations `A`: every operation succeeds, the invariant
is kept, the release mode is unchanged, and the surviving payloads are the
allocations not freed. -/
theorem runOps_spec :
    ∀ (S : List PoolOp) (p : CompactingPool cfg) (A : List PoolSlot), PoolInv p →
      (p.deferredRelease = false → p.deferredFrees = []) →
      (survivors p : Multiset PoolSlot) = (A : Multiset PoolSlot) →
      (A.map PoolSlot.referrer).Nodup → respectsContract cfg A S = true →
      ∃ q, runOps p S = some q ∧ PoolInv q ∧ q.deferredRelease = p.deferredRelease ∧
        (q.deferredRelease = false → q.deferredFrees = []) ∧
        (survivors q : Multiset PoolSlot) = (liveAllocations A S : Multiset PoolSlot) := by
  intro S
  induction S with
  | nil =>
    intro p A hinv hmode hsurv _ _
    exact ⟨p, rfl, hinv, rfl, hmode, hsurv⟩
  | cons op rest ih =>
    intro p A hinv hmode hsurv hnd hcon
    have hmemA : ∀ s, s ∈ survivors p ↔ s ∈ A := fun s => by
      have := congrArg (fun M : Multiset PoolSlot => s ∈ M) hsurv
      simpa using this
    cases op with
    | allocate r sz data =>
      simp only [respectsContract, Bool.and_eq_true, Bool.not_eq_true', List.elem_eq_mem,
        decide_eq_false_iff_not] at hcon
      obtain ⟨⟨hsz, hr⟩, hrest⟩ := hcon
      have hr' : ∀ s ∈ survivors p, s.referrer ≠ r := fun s hs e =>
        hr (e ▸ List.mem_map_of_mem _ ((hmemA s).mp hs))
      obtain ⟨p1, halloc, hm1, hT1, hinv1, hsurv1⟩ := allocate_step p hinv r sz data hsz hr'
      have hnd1 : ((A ++ [({ payload := ⟨sz, data⟩, referrer := r } : PoolSlot)]).map
          PoolSlot.referrer).Nodup := by
        rw [List.map_append, List.map_singleton]
        exact List.Nodup.append hnd (List.nodup_singleton _)
          (by simpa [List.Disjoint] using hr)
      obtain ⟨q, hq, hqinv, hqm, hqT, hqs⟩ := ih p1
        (A ++ [{ payload := ⟨sz, data⟩, referrer := r }]) hinv1
        (fun h => by rw [hT1]; exact hmode (hm1 ▸ h))
        (by rw [hsurv1, hsurv, ← Multiset.coe_add]; rfl) hnd1 hrest
      refine ⟨q, ?_, hqinv, hqm.trans hm1, hqT, hqs⟩
      simp only [runOps, applyOp, halloc]
      exact hq
    | free r =>
      simp only [respectsContract, Bool.and_eq_true, List.elem_eq_mem,
        decide_eq_true_eq] at hcon
      obtain ⟨hr, hrest⟩ := hcon
      obtain ⟨s, hsA, rfl⟩ := List.mem_map.mp hr
      obtain ⟨c, i, hslot, halive⟩ := (mem_survivors p s).mp ((hmemA s).mpr hsA)
      have hpoint := hinv.points c i s hslot halive
      have hnd1 : ((A.filter (fun t => t.referrer ≠ s.referrer)).map PoolSlot.referrer).Nodup :=
        List.Nodup.sublist (List.Sublist.map _ (List.filter_sublist _)) hnd
      have hfilter := filter_referrer_coe A s hnd hsA
      cases hmd : p.deferredRelease with
      | true =>
        obtain ⟨p1, hfree, hm1, hinv1, hsurv1⟩ := freeDeferred_step p hinv c i s hslot halive
        obtain ⟨q, hq, hqinv, hqm, hqT, hqs⟩ := ih p1
          (A.filter (fun t => t.referrer ≠ s.referrer)) hinv1
          (fun h => by rw [hm1, hmd] at h; exact absurd h (by simp))
          (by
            rw [hsurv, ← hfilter] at hsurv1
            exact add_right_cancel hsurv1) hnd1 hrest
        refine ⟨q, ?_, hqinv, by rw [hqm, hm1, hmd], hqT, hqs⟩
        simp only [runOps, applyOp, hpoint, freeRelocatable, hmd, if_true, hfree]
        exact hq
      | false =>
        have hT := hmode hmd
        obtain ⟨p1, hfree, hm1, hT1, hinv1, hsurv1⟩ := free_step p hinv c i s hslot
          (fun j hj => by rw [hT] at hj; simp at hj)
        rw [filter_frees_nil p1 (c, i) (hT1.trans hT)] at hinv1 hsurv1
        rw [if_neg halive] at hsurv1
        obtain ⟨q, hq, hqinv, hqm, hqT, hqs⟩ := ih p1
          (A.filter (fun t => t.referrer ≠ s.referrer)) hinv1
          (fun _ => hT1.trans hT)
          (by
            rw [hsurv, ← hfilter] at hsurv1
            exact add_right_cancel hsurv1) hnd1 hrest
        refine ⟨q, ?_, hqinv, by rw [hqm, hm1, hmd], hqT, hqs⟩
        simp only [runOps, applyOp, hpoint, freeRelocatable, hmd, Bool.false_eq_true, if_false,
          hfree]
        exact hq

/-- The operations run inside the scope of a guard on a fresh pool, up to the
destruction of the guard: everything succeeds, the pool is back in immediate
mode with an empty deferred free set, the invariant holds, and the surviving
payloads are the allocations not freed. -/
theorem runGuarded_spec (cfg : PoolConfig) (S : List PoolOp)
    (h : respectsContract cfg [] S = true) :
    ∃ q, runGuarded (emptyPool cfg) S = some q ∧ PoolInv q ∧ q.deferredRelease = false ∧
      q.deferredFrees = [] ∧
      (survivors q : Multiset PoolSlot) = (liveAllocations [] S : Multiset PoolSlot) := by
  obtain ⟨p1, hrun, hinv1, _, _, hs1⟩ := runOps_spec S
    { emptyPool cfg with deferredRelease := true } [] ((emptyPool_inv cfg).setMode true)
    (fun h => absurd h (by simp)) (by rw [emptyPool_survivors]) (by simp) h
  obtain ⟨q, hq, hqinv, hqT, hqm, hqs⟩ := drainFrees_spec p1.deferredFrees.reverse
    { p1 with deferredRelease := false } (hinv1.setMode false) rfl
  refine ⟨q, ?_, hqinv, hqm, hqT, hqs.trans hs1⟩
  have he : guardEnter (emptyPool cfg) = (true, { emptyPool cfg with deferredRelease := true }) :=
    rfl
  unfold runGuarded
  rw [he]
  simp only [hrun, guardExit, if_true]
  exact hq

/-- An allocation that is live after a sequence of operations was live before it
or was made by it, with the size that is in its prefix. -/
theorem liveAllocations_mem :
    ∀ (S : List PoolOp) (live : List PoolSlot) (s : PoolSlot), s ∈ liveAllocations live S →
      s ∈ live ∨ PoolOp.allocate s.referrer s.payload.m_size s.payload.m_data ∈ S := by
  intro S
  induction S with
  | nil => intro live s h; exact Or.inl h
  | cons op rest ih =>
    intro live s h
    cases op with
    | allocate r sz data =>
      rcases ih _ s h with h1 | h1
      · rcases List.mem_append.mp h1 with h2 | h2
        · exact Or.inl h2
        · simp only [List.mem_singleton] at h2
          subst h2
          exact Or.inr (List.mem_cons_self _ _)
      · exact Or.inr (List.mem_cons_of_mem _ h1)
    | free r =>
      rcases ih _ s h with h1 | h1
      · exact Or.inl (List.mem_of_mem_filter h1)
      · exact Or.inr (List.mem_cons_of_mem _ h1)

/-- A pool that satisfies the invariant and whose surviving payloads are the
live allocations of `S` is relocation correct. -/
theorem relocationCorrect_of_inv (S : List PoolOp) (p : CompactingPool cfg) (hinv : PoolInv p)
    (hs : (survivors p : Multiset PoolSlot) = (liveAllocations [] S : Multiset PoolSlot)) :
    RelocationCorrect S p := by
  refine ⟨hinv.points, ?_, hs⟩
  intro s hmem
  have h1 : s ∈ liveAllocations [] S := by
    have := congrArg (fun M : Multiset PoolSlot => s ∈ M) hs
    simp only [Multiset.mem_coe, eq_iff_iff] at this
    exact this.mp hmem
  rcases liveAllocations_mem S [] s h1 with h2 | h2
  · simp at h2
  · exact h2

/-! ## Plans accepted by `p_init` -/

/-- A plan that `p_init` accepts has no NULL search-key slot and an index of the
target name, and the members are assigned from them. -/
theorem p_init_accepted (node : NestLoopIndexPlanNode σ)
    (m0 : List (TableTuple → NValue)) (storage : Nat → NValue)
    (h : (p_init node m0 storage).1 = true) :
    hasNullSearchKey node.inlineIndexScan.searchKeyExpressions = false ∧
    ∃ index keySchema,
      node.inlineIndexScan.targetTable.index node.inlineIndexScan.targetIndexName =
        some (index, keySchema) ∧
      (p_init node m0 storage).2 =
        { join_type := node.joinType
          m_lookupType := node.inlineIndexScan.lookupType
          m_sortDirection := node.inlineIndexScan.sortDirection
          m_outputExpressions := m0 ++ node.inlineIndexScan.outputSchema
          index := some (index, keySchema)
          index_values :=
            some (TableTuple.setAllNulls
              ((List.range keySchema.columnCount).map storage)) } := by
  unfold p_init at h ⊢
  cases hk : hasNullSearchKey node.inlineIndexScan.searchKeyExpressions with
  | true => simp [hk] at h
  | false =>
    cases hi : node.inlineIndexScan.targetTable.index node.inlineIndexScan.targetIndexName with
    | none => simp [hk, hi] at h
    | some p =>
      obtain ⟨index, keySchema⟩ := p
      exact ⟨rfl, index, keySchema, rfl, by simp [hk, hi]⟩

/-- Without a NULL slot every search-key expression is kept. -/
theorem reduceOption_length_of_no_null :
    ∀ (l : List (Option (TableTuple → NValue))), hasNullSearchKey l = false →
      l.reduceOption.length = l.length := by
  intro l
  induction l with
  | nil => intro _; rfl
  | cons a l ih =>
    intro h
    cases a with
    | none => simp [hasNullSearchKey] at h
    | some e =>
      simp only [hasNullSearchKey] at h
      simp [List.reduceOption_cons_of_some, ih h]

/-- The executor of a plan that `p_init` accepts. -/
theorem executorAfterInit_accepted (node : NestLoopIndexPlanNode σ)
    (m0 : List (TableTuple → NValue)) (storage : Nat → NValue)
    (h : (p_init node m0 storage).1 = true) :
    ∃ ex, executorAfterInit node (p_init node m0 storage).2 = some ex ∧
      ex.m_outputExpressions = m0 ++ node.inlineIndexScan.outputSchema ∧
      ex.num_of_inner_cols = node.inlineIndexScan.targetTable.columnCount ∧
      ex.num_of_outer_cols = node.inputTableColumnCount ∧
      ex.searchKeyExpressions.length = node.inlineIndexScan.searchKeyExpressions.length ∧
      ex.m_lookupType = node.inlineIndexScan.lookupType ∧
      ex.m_sortDirection = node.inlineIndexScan.sortDirection ∧
      ex.join_type = node.joinType ∧
      ex.end_expression = node.inlineIndexScan.endExpression ∧
      ex.post_expression = node.inlineIndexScan.predicate := by
  obtain ⟨hk, index, keySchema, -, hm⟩ := p_init_accepted node m0 storage h
  rw [hm]
  exact ⟨_, rfl, rfl, rfl, rfl, reduceOption_length_of_no_null _ hk, rfl, rfl, rfl, rfl, rfl⟩

/-! ## The local `match` -/

/-- Once `match` is set it stays set. -/
theorem scanLoop_matched_true (ex : NestLoopIndexExecutor σ) (ks : KeyState) (o : TableTuple) :
    ∀ (n : Nat) (st : ExecState σ), (scanLoop ex ks o n true st).2.1 = true := by
  intro n
  induction n with
  | zero => intro st; rfl
  | succ n ih =>
    intro st
    unfold scanLoop
    rcases hr : nextInnerTuple ex ks st with ⟨r, st1⟩
    cases r with
    | none => rfl
    | some t =>
      simp only
      split
      · rfl
      · split
        · cases he : emitJoinTuple ex o t st1 with
          | none => rfl
          | some st2 => exact ih st2
        · exact ih st1

/-- The inner loop by its first fetch: on the null tuple the loop ends with
`match` as it was; on an inner tuple `match` is set, whatever the end and post
expressions say of the tuple, and the iterator has yielded a tuple. -/
theorem scanLoop_first_fetch (ex : NestLoopIndexExecutor σ) (ks : KeyState) (o : TableTuple)
    (n : Nat) (m : Bool) (st : ExecState σ) :
    ((nextInnerTuple ex ks st).1 = none →
      scanLoop ex ks o (n + 1) m st = (none, m, (nextInnerTuple ex ks st).2)) ∧
    (∀ t, (nextInnerTuple ex ks st).1 = some t →
      (scanLoop ex ks o (n + 1) m st).2.1 = true ∧
      ∃ calls, (scanLoop ex ks o (n + 1) m st).2.2.trace = st.trace ++ calls ∧
        0 < yieldCount calls) := by
  obtain ⟨c0, hc0, -, hy0⟩ := (nextInnerTuple_spec ex ks st).2.2.2.1
  constructor
  · intro h
    unfold scanLoop
    rcases hr : nextInnerTuple ex ks st with ⟨r, st1⟩
    rw [hr] at h
    simp only at h
    subst h
    rfl
  · intro t h
    rw [h] at hy0
    simp only [Option.isSome_some, if_true] at hy0
    have hrec : ∀ (st' : ExecState σ), st'.trace = (nextInnerTuple ex ks st).2.trace →
        (scanLoop ex ks o n true st').2.1 = true ∧
        ∃ calls, (scanLoop ex ks o n true st').2.2.trace = st.trace ++ calls ∧
          0 < yieldCount calls := by
      intro st' htr
      refine ⟨scanLoop_matched_true ex ks o n st', ?_⟩
      obtain ⟨c1, r1, h1, -⟩ := (scanLoop_frame ex ks o n true st').2.2
      refine ⟨c0 ++ c1, by rw [h1, htr, hc0, List.append_assoc], ?_⟩
      rw [yieldCount_append]
      omega
    unfold scanLoop
    rcases hr : nextInnerTuple ex ks st with ⟨r, st1⟩
    rw [hr] at h hc0 hrec
    simp only at h hc0 hrec
    subst h
    simp only
    split
    · exact ⟨rfl, c0, hc0, by omega⟩
    · split
      · cases he : emitJoinTuple ex o t st1 with
        | none => exact ⟨rfl, c0, hc0, by omega⟩
        | some st2 =>
          exact hrec st2 (emitJoinTuple_frame ex o t st1 st2 he).2.1
      · exact hrec st1 rfl

/-- The row the left-outer fallback inserts. -/
theorem leftOuterFallback_row (ex : NestLoopIndexExecutor σ) (st : ExecState σ) :
    (leftOuterFallback ex st).output_table = st.output_table ++
      [nullInnerColumns ex.num_of_outer_cols ex.num_of_inner_cols st.join_tuple] ∧
    (leftOuterFallback ex st).trace = st.trace := by
  simp [leftOuterFallback, insertTupleNonVirtual]

/-- One outer tuple, by the local `match` at the fallback test: the calls and the
rows of the outer tuple, the fallback row last; the test is reached exactly when
the loop body ends nothing; `match` is unset there exactly after a key error or
a first fetch of the null tuple, and then the iterator has yielded nothing;
`match` is set only when the iterator has yielded a tuple. -/
theorem processOuterTuple_fallback (ex : NestLoopIndexExecutor σ) (o : TableTuple)
    (st : ExecState σ) :
    ∃ calls rows ts jt,
      (processOuterTuple ex o st).2.trace = st.trace ++ calls ∧
      (processOuterTuple ex o st).2.output_table = st.output_table ++ (rows ++
        (if fallbackTaken ex o st = true then
          [nullInnerColumns ex.num_of_outer_cols ex.num_of_inner_cols jt] else [])) ∧
      List.Sublist ts (yieldedTuples calls) ∧ List.Forall₂ (EmittedFor ex o) ts rows ∧
      ((processOuterTuple ex o st).1 = none ↔ (matchAtFallback ex o st).isSome = true) ∧
      (matchAtFallback ex o st = some false ↔
        keyErrorFor ex o st = true ∨ firstFetchFor ex o st = some none) ∧
      (matchAtFallback ex o st = some false → yieldCount calls = 0) ∧
      (matchAtFallback ex o st = some true → 0 < yieldCount calls) := by
  rcases hb : buildSearchKey ex.keySetNValue o ex.searchKeyExpressions 0
    (initialKeyState ex st) with ⟨fl, ks⟩
  cases fl with
  | some stop =>
    have hP : processOuterTuple ex o st =
        (some stop, { st with index_values := ks.index_values }) := by
      simp [processOuterTuple, hb]
    have hm : matchAtFallback ex o st = none := by simp [matchAtFallback, hb]
    have hf : fallbackTaken ex o st = false := by simp [fallbackTaken, hm]
    have hk : keyErrorFor ex o st = false := by simp [keyErrorFor, hb]
    have hff : firstFetchFor ex o st = none := by simp [firstFetchFor, hb]
    refine ⟨[], [], [], [], ?_, ?_, by simp, List.Forall₂.nil, ?_, ?_, ?_, ?_⟩
    · simp [hP]
    · simp [hP, hf]
    · simp [hP, hm]
    · simp [hm, hk, hff]
    · simp [hm]
    · simp [hm]
  | none =>
    by_cases hk : ks.keyException = true
    · have hP := processOuterTuple_keyException ex o st ks hb hk
      have hm : matchAtFallback ex o st = some false := by
        simp [matchAtFallback, hb, positionAndScan, hk]
      have hke : keyErrorFor ex o st = true := by simp [keyErrorFor, hb, hk]
      by_cases hj : ex.join_type = JOIN_TYPE_LEFT
      · have hf : fallbackTaken ex o st = true := by simp [fallbackTaken, hm, hj]
        rw [if_pos hj] at hP
        refine ⟨[], [], [], st.join_tuple, ?_, ?_, by simp, List.Forall₂.nil, ?_, ?_, ?_, ?_⟩
        · rw [hP]; simp [(leftOuterFallback_row ex _).2]
        · rw [hP]; simp [(leftOuterFallback_row ex _).1, hf]
        · simp [hP, hm]
        · simp [hm, hke]
        · intro _; rfl
        · simp [hm]
      · have hf : fallbackTaken ex o st = false := by simp [fallbackTaken, hm, hj]
        rw [if_neg hj] at hP
        refine ⟨[], [], [], [], ?_, ?_, by simp, List.Forall₂.nil, ?_, ?_, ?_, ?_⟩
        · simp [hP]
        · simp [hP, hf]
        · simp [hP, hm]
        · simp [hm, hke]
        · intro _; rfl
        · simp [hm]
    · have hk' : ks.keyException = false := by simpa using hk
      have hke : keyErrorFor ex o st = false := by simp [keyErrorFor, hb, hk']
      cases hp : positionIndex ex ks { st with index_values := ks.index_values } with
      | none =>
        have hP : processOuterTuple ex o st =
            (some (.returned false), { st with index_values := ks.index_values }) := by
          simp [processOuterTuple, hb, positionAndScan, hk', hp]
        have hm : matchAtFallback ex o st = none := by
          simp [matchAtFallback, hb, positionAndScan, hk', hp]
        have hf : fallbackTaken ex o st = false := by simp [fallbackTaken, hm]
        have hff : firstFetchFor ex o st = none := by simp [firstFetchFor, hb, hk', hp]
        refine ⟨[], [], [], [], ?_, ?_, by simp, List.Forall₂.nil, ?_, ?_, ?_, ?_⟩
        · simp [hP]
        · simp [hP, hf]
        · simp [hP, hm]
        · simp [hm, hke, hff]
        · simp [hm]
        · simp [hm]
      | some st1 =>
        have hff : firstFetchFor ex o st = some (nextInnerTuple ex ks st1).1 := by
          simp [firstFetchFor, hb, hk', hp]
        obtain ⟨p1, -, -, c, p4, p5⟩ := positionIndex_spec ex ks _ st1 hp
        have hc : yieldedTuples [c] = [] := List.length_eq_zero.mp p5
        obtain ⟨calls, rows, ts, s1, s2, s3, s4, s5⟩ :=
          scanLoop_rows ex ks o (ex.index.remaining st1.cursor + 1) false st1
        have hfirst := scanLoop_first_fetch ex ks o (ex.index.remaining st1.cursor) false st1
        rcases hs : scanLoop ex ks o (ex.index.remaining st1.cursor + 1) false st1 with
          ⟨fl2, m, st2⟩
        rw [hs] at s1 s2 s5 hfirst
        simp only at s1 s2 s5 hfirst
        have htr : st2.trace = st.trace ++ ([c] ++ calls) := by
          rw [s1, p4]; simp
        have hyl : yieldedTuples ([c] ++ calls) = yieldedTuples calls := by
          rw [yieldedTuples_append, hc]; rfl
        have hycount : yieldCount ([c] ++ calls) = yieldCount calls := by
          unfold yieldCount
          rw [hyl]
        have hout : st2.output_table = st.output_table ++ rows := by rw [s2, p1]
        have hmtrue : m = true → 0 < yieldCount calls := by
          intro hmt
          cases hn : (nextInnerTuple ex ks st1).1 with
          | none =>
            have := hfirst.1 hn
            simp only [Prod.mk.injEq] at this
            rw [hmt] at this
            exact absurd this.2.1 (by simp)
          | some t =>
            obtain ⟨-, calls2, e1, e2⟩ := hfirst.2 t hn
            rw [s1] at e1
            have := List.append_cancel_left e1
            rw [this]
            exact e2
        have hmfalse : m = false ↔ (nextInnerTuple ex ks st1).1 = none := by
          constructor
          · intro hmf
            cases hn : (nextInnerTuple ex ks st1).1 with
            | none => rfl
            | some t =>
              have := (hfirst.2 t hn).1
              rw [hmf] at this
              exact absurd this (by simp)
          · intro hn
            have := hfirst.1 hn
            simp only [Prod.mk.injEq] at this
            exact this.2.1
        cases fl2 with
        | some stop =>
          have hP : processOuterTuple ex o st = (some stop, st2) := by
            simp [processOuterTuple, hb, positionAndScan, hk', hp, scanInner, hs]
          have hm : matchAtFallback ex o st = none := by
            simp [matchAtFallback, hb, positionAndScan, hk', hp, scanInner, hs]
          have hf : fallbackTaken ex o st = false := by simp [fallbackTaken, hm]
          have hnn : (nextInnerTuple ex ks st1).1 ≠ none := by
            intro hn
            have := hfirst.1 hn
            simp only [Prod.mk.injEq] at this
            exact absurd this.1 (by simp)
          refine ⟨[c] ++ calls, rows, ts, [], ?_, ?_, by rw [hyl]; exact s3, s4, ?_, ?_, ?_, ?_⟩
          · rw [hP]; exact htr
          · rw [hP]; simp [hout, hf]
          · simp [hP, hm]
          · simp [hm, hke, hff, hnn]
          · simp [hm]
          · simp [hm]
        | none =>
          have hm : matchAtFallback ex o st = some m := by
            simp [matchAtFallback, hb, positionAndScan, hk', hp, scanInner, hs]
          cases m with
          | true =>
            have hP : processOuterTuple ex o st = (none, st2) := by
              simp [processOuterTuple, hb, positionAndScan, hk', hp, scanInner, hs]
            have hf : fallbackTaken ex o st = false := by simp [fallbackTaken, hm]
            have hnn : (nextInnerTuple ex ks st1).1 ≠ none := fun hn =>
              absurd (hmfalse.mpr hn) (by simp)
            refine ⟨[c] ++ calls, rows, ts, [], ?_, ?_, by rw [hyl]; exact s3, s4, ?_, ?_,
              ?_, ?_⟩
            · rw [hP]; exact htr
            · rw [hP]; simp [hout, hf]
            · simp [hP, hm]
            · simp [hm, hke, hff, hnn]
            · simp [hm]
            · intro _
              rw [hycount]
              exact hmtrue rfl
          | false =>
            have hy0 := s5 rfl
            have hts : ts = [] := by
              rw [hy0] at s3
              exact List.sublist_nil.mp s3
            have hrows : rows = [] := by
              rw [hts] at s4
              cases s4
              rfl
            have hn := hmfalse.mp rfl
            by_cases hj : ex.join_type = JOIN_TYPE_LEFT
            · have hP : processOuterTuple ex o st = (none, leftOuterFallback ex st2) := by
                simp [processOuterTuple, hb, positionAndScan, hk', hp, scanInner, hs, hj]
              have hf : fallbackTaken ex o st = true := by simp [fallbackTaken, hm, hj]
              refine ⟨[c] ++ calls, [], [], st2.join_tuple, ?_, ?_, by simp, List.Forall₂.nil,
                ?_, ?_, ?_, ?_⟩
              · rw [hP, (leftOuterFallback_row ex st2).2]; exact htr
              · rw [hP, (leftOuterFallback_row ex st2).1, hout, hrows]; simp [hf]
              · simp [hP, hm]
              · simp [hm, hke, hff, hn]
              · intro _
                rw [hycount]
                simp [yieldCount, hy0]
              · simp [hm]
            · have hP : processOuterTuple ex o st = (none, st2) := by
                simp [processOuterTuple, hb, positionAndScan, hk', hp, scanInner, hs, hj]
              have hf : fallbackTaken ex o st = false := by simp [fallbackTaken, hm, hj]
              refine ⟨[c] ++ calls, [], [], [], ?_, ?_, by simp, List.Forall₂.nil,
                ?_, ?_, ?_, ?_⟩
              · rw [hP]; exact htr
              · rw [hP, hout, hrows]; simp [hf]
              · simp [hP, hm]
              · simp [hm, hke, hff, hn]
              · intro _
                rw [hycount]
                simp [yieldCount, hy0]
              · simp [hm]

/-! ## Three-valued predicates -/

theorem NValue.isFalse_iff (v : NValue) : v.isFalse = true ↔ v = .boolean false := by
  cases v with
  | boolean b => cases b <;> simp [NValue.isFalse]
  | _ => simp [NValue.isFalse]

theorem NValue.isTrue_iff (v : NValue) : v.isTrue = true ↔ v = .boolean true := by
  cases v with
  | boolean b => cases b <;> simp [NValue.isTrue]
  | _ => simp [NValue.isTrue]

/-- The test of the end expression holds exactly when the expression is present
and its value is the boolean false. -/
theorem endExpressionIsFalse_iff (ex : NestLoopIndexExecutor σ) (o t : TableTuple) :
    endExpressionIsFalse ex o t = true ↔
      ∃ e, ex.end_expression = some e ∧ e o t = .boolean false := by
  unfold endExpressionIsFalse
  cases h : ex.end_expression with
  | none => simp
  | some e => simp [NValue.isFalse_iff]

/-- The test of the post expression holds exactly when the expression is absent
or its value is the boolean true. -/
theorem postExpressionPasses_iff (ex : NestLoopIndexExecutor σ) (o t : TableTuple) :
    postExpressionPasses ex o t = true ↔
      ex.post_expression = none ∨ ∃ p, ex.post_expression = some p ∧ p o t = .boolean true := by
  unfold postExpressionPasses
  cases h : ex.post_expression with
  | none => simp
  | some p => simp [NValue.isTrue_iff]

/-- A loop condition that fails ends on a fetch of the null tuple. -/
theorem nextInnerTuple_none_last (ex : NestLoopIndexExecutor σ) (ks : KeyState)
    (st : ExecState σ) (h : (nextInnerTuple ex ks st).1 = none) :
    ∃ pre c, (nextInnerTuple ex ks st).2.trace = st.trace ++ (pre ++ [c]) ∧
      c.fetchedNull = true ∧ yieldedTuples (pre ++ [c]) = [] := by
  unfold nextInnerTuple at h ⊢
  by_cases hl : ks.localLookupType = INDEX_LOOKUP_TYPE_EQ
  · simp only [hl, if_true] at h ⊢
    rcases h1 : ex.index.nextValueAtKey st.cursor with ⟨r1, c1⟩
    simp only [callNextValueAtKey, h1] at h ⊢
    cases r1 with
    | some t => simp at h
    | none =>
      simp only at h ⊢
      by_cases hz : ex.searchKeyExpressions.length = 0
      · simp only [hz, if_true] at h ⊢
        rcases h2 : ex.index.nextValue c1 with ⟨r2, c2⟩
        simp only [callNextValue, h2] at h ⊢
        subst h
        exact ⟨[.nextValueAtKey none], .nextValue none, by simp, rfl, rfl⟩
      · simp only [hz, if_false] at h ⊢
        exact ⟨[], .nextValueAtKey none, by simp, rfl, rfl⟩
  · simp only [hl, if_false] at h ⊢
    rcases h2 : ex.index.nextValue st.cursor with ⟨r2, c2⟩
    simp only [callNextValue, h2] at h ⊢
    subst h
    exact ⟨[], .nextValue none, by simp, rfl, rfl⟩

/-- The inner loop, by the inner tuples the iterator yields to it.  Either no
yielded tuple makes the end expression false: then the loop ends on a fetch of
the null tuple, and the rows are those emitted for the yielded tuples that pass
the post expression.  Or the last yielded tuple is the first that makes the end
expression false: then the rows are those emitted for the tuples before it that
pass the post expression. -/
theorem scanLoop_three_valued (ex : NestLoopIndexExecutor σ) (ks : KeyState) (o : TableTuple)
    (hexprs : ex.num_of_inner_cols ≤ ex.m_outputExpressions.length) :
    ∀ (n : Nat) (m : Bool) (st : ExecState σ), ex.index.remaining st.cursor < n →
      ∃ calls rows, (scanLoop ex ks o n m st).2.2.trace = st.trace ++ calls ∧
        (scanLoop ex ks o n m st).2.2.output_table = st.output_table ++ rows ∧
        (((∃ pre c, calls = pre ++ [c] ∧ c.fetchedNull = true) ∧
            (∀ t ∈ yieldedTuples calls, endExpressionIsFalse ex o t = false) ∧
            List.Forall₂ (EmittedFor ex o)
              ((yieldedTuples calls).filter (postExpressionPasses ex o)) rows) ∨
          (∃ ts t, yieldedTuples calls = ts ++ [t] ∧
            (∀ u ∈ ts, endExpressionIsFalse ex o u = false) ∧
            endExpressionIsFalse ex o t = true ∧
            List.Forall₂ (EmittedFor ex o) (ts.filter (postExpressionPasses ex o)) rows)) := by
  intro n
  induction n with
  | zero => intro m st h; omega
  | succ n ih =>
    intro m st hfuel
    have hsp := nextInnerTuple_spec ex ks st
    obtain ⟨h1, -, -, -, hrem⟩ := hsp
    obtain ⟨calls0, h4, hy⟩ := nextInnerTuple_yielded ex ks st
    have hnone := nextInnerTuple_none_last ex ks st
    unfold scanLoop
    rcases hr : nextInnerTuple ex ks st with ⟨r, st1⟩
    rw [hr] at h1 h4 hy hrem hnone
    simp only at h1 h4 hy hrem hnone
    cases r with
    | none =>
      obtain ⟨pre, c, e1, e2, e3⟩ := hnone rfl
      refine ⟨pre ++ [c], [], e1, by simp [h1], Or.inl ⟨⟨pre, c, rfl, e2⟩, ?_, ?_⟩⟩
      · rw [e3]; simp
      · rw [e3]; exact List.Forall₂.nil
    | some t0 =>
      simp only [Option.toList_some] at hy
      simp only [Option.isSome_some, if_true] at hrem
      have step : ∀ (st' : ExecState σ) (row0 : List TableTuple) (keep : List TableTuple),
          st'.trace = st1.trace → st'.cursor = st1.cursor →
          st'.output_table = st1.output_table ++ row0 →
          endExpressionIsFalse ex o t0 = false →
          [t0].filter (postExpressionPasses ex o) = keep →
          List.Forall₂ (EmittedFor ex o) keep row0 →
          ∃ calls rows, (scanLoop ex ks o n true st').2.2.trace = st.trace ++ calls ∧
            (scanLoop ex ks o n true st').2.2.output_table = st.output_table ++ rows ∧
            (((∃ pre c, calls = pre ++ [c] ∧ c.fetchedNull = true) ∧
                (∀ t ∈ yieldedTuples calls, endExpressionIsFalse ex o t = false) ∧
                List.Forall₂ (EmittedFor ex o)
                  ((yieldedTuples calls).filter (postExpressionPasses ex o)) rows) ∨
              (∃ ts t, yieldedTuples calls = ts ++ [t] ∧
                (∀ u ∈ ts, endExpressionIsFalse ex o u = false) ∧
                endExpressionIsFalse ex o t = true ∧
                List.Forall₂ (EmittedFor ex o)
                  (ts.filter (postExpressionPasses ex o)) rows)) := by
        intro st' row0 keep htr hcur hout hend hkeep hrow
        obtain ⟨calls2, rows2, i1, i2, i3⟩ := ih true st' (by rw [hcur]; omega)
        refine ⟨calls0 ++ calls2, row0 ++ rows2, ?_, ?_, ?_⟩
        · rw [i1, htr, h4, List.append_assoc]
        · rw [i2, hout, h1, List.append_assoc]
        · rcases i3 with ⟨⟨pre, c, j1, j2⟩, j3, j4⟩ | ⟨ts, t, j1, j2, j3, j4⟩
          · refine Or.inl ⟨⟨calls0 ++ pre, c, by rw [j1, List.append_assoc], j2⟩, ?_, ?_⟩
            · intro t ht
              rw [yieldedTuples_append, hy] at ht
              rcases List.mem_append.mp ht with ht | ht
              · simp only [List.mem_singleton] at ht
                rw [ht]; exact hend
              · exact j3 t ht
            · rw [yieldedTuples_append, hy, List.filter_append, hkeep]
              exact List.rel_append hrow j4
          · refine Or.inr ⟨t0 :: ts, t, by rw [yieldedTuples_append, hy, j1]; rfl, ?_, j3, ?_⟩
            · intro u hu
              rcases List.mem_cons.mp hu with hu | hu
              · rw [hu]; exact hend
              · exact j2 u hu
            · have : (t0 :: ts).filter (postExpressionPasses ex o) =
                  [t0].filter (postExpressionPasses ex o) ++
                    ts.filter (postExpressionPasses ex o) := by
                rw [← List.filter_append]; rfl
              rw [this, hkeep]
              exact List.rel_append hrow j4
      simp only
      by_cases hend : endExpressionIsFalse ex o t0 = true
      · rw [if_pos hend]
        refine ⟨calls0, [], h4, by simp [h1], Or.inr ⟨[], t0, by rw [hy]; rfl, ?_, hend, ?_⟩⟩
        · intro u hu; simp at hu
        · exact List.Forall₂.nil
      · rw [if_neg hend]
        have hend' : endExpressionIsFalse ex o t0 = false := by simpa using hend
        by_cases hpost : postExpressionPasses ex o t0 = true
        · rw [if_pos hpost]
          obtain ⟨st2, he⟩ := emitJoinTuple_isSome ex o t0 st1 hexprs
          rw [he]
          simp only
          obtain ⟨e1, e2, -, e4⟩ := emitJoinTuple_frame ex o t0 st1 st2 he
          exact step st2 [st2.join_tuple] [t0] e2 e1 e4 hend'
            (by simp [List.filter, hpost])
            (List.Forall₂.cons ⟨st1, st2, he, rfl⟩ List.Forall₂.nil)
        · rw [if_neg hpost]
          have hpost' : postExpressionPasses ex o t0 = false := by simpa using hpost
          exact step st1 [] [] rfl rfl (by simp) hend'
            (by simp [List.filter, hpost']) List.Forall₂.nil

/-! ## The bookkeeping of `Catalog::execute` -/

theorem Catalog.executeAll_append :
    ∀ (a b : List CatalogCommand) (c : Catalog),
      c.executeAll (a ++ b) = (c.executeAll a).bind (fun c1 => c1.executeAll b) := by
  intro a
  induction a with
  | nil => intro b c; rfl
  | cons cmd a ih =>
    intro b c
    simp only [List.cons_append, Catalog.executeAll]
    cases h : c.executeOne cmd with
    | none => rfl
    | some c1 => exact ih b c1

/-- A path that is not the root is in the catalog when an item has it. -/
theorem Catalog.contains_child (c : Catalog) (ref : CatalogPath) (x : String × String) :
    c.contains (ref ++ [x]) = true ↔ ∃ it ∈ c.items, it.path = ref ++ [x] := by
  unfold Catalog.contains
  have hne : (ref ++ [x] == []) = false := by
    cases ref <;> rfl
  rw [hne, Bool.false_or, List.any_eq_true]
  constructor
  · rintro ⟨it, hit, he⟩
    exact ⟨it, hit, by simpa using he⟩
  · rintro ⟨it, hit, he⟩
    exact ⟨it, hit, by simpa using he⟩

/-- One delta keeps the marks in step with the `add` commands applied: an item
is marked exactly when a command applied so far has added its path. -/
theorem Catalog.executeOne_marks (c c1 : Catalog) (cmd : CatalogCommand)
    (done : List CatalogCommand) (h : c.executeOne cmd = some c1)
    (hinv : ∀ it ∈ c.items, it.wasAdded = true ↔ ∃ d ∈ done, d.addedPath = some it.path) :
    ∀ it ∈ c1.items, it.wasAdded = true ↔ ∃ d ∈ done ++ [cmd], d.addedPath = some it.path := by
  cases cmd with
  | add ref collection name =>
    simp only [Catalog.executeOne] at h
    split_ifs at h with hc
    simp only [Option.some.injEq] at h
    subst h
    simp only [Bool.and_eq_true, Bool.not_eq_true'] at hc
    have habs : ∀ it ∈ c.items, it.path ≠ ref ++ [(collection, name)] := by
      intro it hit he
      have := (Catalog.contains_child c ref (collection, name)).mpr ⟨it, hit, he⟩
      rw [hc.2] at this
      exact absurd this (by simp)
    intro it hit
    simp only [List.mem_append, List.mem_singleton] at hit
    rcases hit with hit | hit
    · rw [hinv it hit]
      constructor
      · rintro ⟨d, hd, he⟩
        exact ⟨d, List.mem_append_left _ hd, he⟩
      · rintro ⟨d, hd, he⟩
        rcases List.mem_append.mp hd with hd | hd
        · exact ⟨d, hd, he⟩
        · simp only [List.mem_singleton] at hd
          subst hd
          simp only [CatalogCommand.addedPath, Option.some.injEq] at he
          exact absurd he.symm (habs it hit)
    · subst hit
      simp only [true_iff]
      exact ⟨_, List.mem_append_right _ (List.mem_singleton_self _), rfl⟩
  | set ref field value =>
    simp only [Catalog.executeOne] at h
    split_ifs at h with hc
    simp only [Option.some.injEq] at h
    subst h
    intro it hit
    simp only [List.mem_map] at hit
    obtain ⟨it0, hit0, he⟩ := hit
    have hp : it.path = it0.path ∧ it.wasAdded = it0.wasAdded := by
      split_ifs at he with hq <;> subst he <;> exact ⟨rfl, rfl⟩
    rw [hp.1, hp.2, hinv it0 hit0]
    constructor
    · rintro ⟨d, hd, he⟩
      exact ⟨d, List.mem_append_left _ hd, he⟩
    · rintro ⟨d, hd, he⟩
      rcases List.mem_append.mp hd with hd | hd
      · exact ⟨d, hd, he⟩
      · simp only [List.mem_singleton] at hd
        subst hd
        simp [CatalogCommand.addedPath] at he
  | delete ref collection name =>
    simp only [Catalog.executeOne] at h
    split_ifs at h with hc
    simp only [Option.some.injEq] at h
    subst h
    intro it hit
    simp only at hit
    have hit0 := List.mem_of_mem_filter hit
    rw [hinv it hit0]
    constructor
    · rintro ⟨d, hd, he⟩
      exact ⟨d, List.mem_append_left _ hd, he⟩
    · rintro ⟨d, hd, he⟩
      rcases List.mem_append.mp hd with hd | hd
      · exact ⟨d, hd, he⟩
      · simp only [List.mem_singleton] at hd
        subst hd
        simp [CatalogCommand.addedPath] at he

/-- The marks after the deltas of a batch. -/
theorem Catalog.executeAll_marks :
    ∀ (batch : List CatalogCommand) (c c1 : Catalog) (done : List CatalogCommand),
      c.executeAll batch = some c1 →
      (∀ it ∈ c.items, it.wasAdded = true ↔ ∃ d ∈ done, d.addedPath = some it.path) →
      ∀ it ∈ c1.items, it.wasAdded = true ↔ ∃ d ∈ done ++ batch, d.addedPath = some it.path := by
  intro batch
  induction batch with
  | nil =>
    intro c c1 done h hinv
    simp only [Catalog.executeAll, Option.some.injEq] at h
    subst h
    simpa using hinv
  | cons cmd rest ih =>
    intro c c1 done h hinv
    simp only [Catalog.executeAll] at h
    cases h1 : c.executeOne cmd with
    | none => rw [h1] at h; simp at h
    | some c2 =>
      rw [h1] at h
      have := ih c2 c1 (done ++ [cmd]) h (Catalog.executeOne_marks c c2 cmd done h1 hinv)
      simpa using this

/-- The deleted paths after the deltas of a batch: those before, then the paths
of the `delete` commands, in order. -/
theorem Catalog.executeAll_deletions :
    ∀ (batch : List CatalogCommand) (c c1 : Catalog), c.executeAll batch = some c1 →
      c1.deletions = c.deletions ++ batch.filterMap CatalogCommand.deletedPath := by
  intro batch
  induction batch with
  | nil =>
    intro c c1 h
    simp only [Catalog.executeAll, Option.some.injEq] at h
    subst h
    simp
  | cons cmd rest ih =>
    intro c c1 h
    simp only [Catalog.executeAll] at h
    cases h1 : c.executeOne cmd with
    | none => rw [h1] at h; simp at h
    | some c2 =>
      rw [h1] at h
      rw [ih c2 c1 h]
      cases cmd with
      | add ref collection name =>
        simp only [Catalog.executeOne] at h1
        split_ifs at h1
        simp only [Option.some.injEq] at h1
        subst h1
        simp [CatalogCommand.deletedPath]
      | set ref field value =>
        simp only [Catalog.executeOne] at h1
        split_ifs at h1
        simp only [Option.some.injEq] at h1
        subst h1
        simp [CatalogCommand.deletedPath]
      | delete ref collection name =>
        simp only [Catalog.executeOne] at h1
        split_ifs at h1
        simp only [Option.some.injEq] at h1
        subst h1
        simp [CatalogCommand.deletedPath]

/-- A delta that does not add the path leaves it without an item. -/
theorem Catalog.executeOne_absent (c c1 : Catalog) (cmd : CatalogCommand) (p : CatalogPath)
    (h : c.executeOne cmd = some c1) (hadd : cmd.addedPath ≠ some p)
    (habs : ∀ it ∈ c.items, it.path ≠ p) : ∀ it ∈ c1.items, it.path ≠ p := by
  cases cmd with
  | add ref collection name =>
    simp only [Catalog.executeOne] at h
    split_ifs at h
    simp only [Option.some.injEq] at h
    subst h
    intro it hit
    simp only [List.mem_append, List.mem_singleton] at hit
    rcases hit with hit | hit
    · exact habs it hit
    · subst hit
      intro he
      exact hadd (by simp only [CatalogCommand.addedPath]; rw [← he])
  | set ref field value =>
    simp only [Catalog.executeOne] at h
    split_ifs at h
    simp only [Option.some.injEq] at h
    subst h
    intro it hit
    simp only [List.mem_map] at hit
    obtain ⟨it0, hit0, he⟩ := hit
    have hp : it.path = it0.path := by
      split_ifs at he with hq <;> subst he <;> rfl
    rw [hp]
    exact habs it0 hit0
  | delete ref collection name =>
    simp only [Catalog.executeOne] at h
    split_ifs at h
    simp only [Option.some.injEq] at h
    subst h
    intro it hit
    exact habs it (List.mem_of_mem_filter hit)

/-- Deltas that do not add the path leave it without an item. -/
theorem Catalog.executeAll_absent :
    ∀ (batch : List CatalogCommand) (c c1 : Catalog) (p : CatalogPath),
      c.executeAll batch = some c1 → (∀ cmd ∈ batch, cmd.addedPath ≠ some p) →
      (∀ it ∈ c.items, it.path ≠ p) → ∀ it ∈ c1.items, it.path ≠ p := by
  intro batch
  induction batch with
  | nil =>
    intro c c1 p h _ habs
    simp only [Catalog.executeAll, Option.some.injEq] at h
    subst h
    exact habs
  | cons cmd rest ih =>
    intro c c1 p h hadd habs
    simp only [Catalog.executeAll] at h
    cases h1 : c.executeOne cmd with
    | none => rw [h1] at h; simp at h
    | some c2 =>
      rw [h1] at h
      exact ih c2 c1 p h (fun d hd => hadd d (List.mem_cons_of_mem _ hd))
        (Catalog.executeOne_absent c c2 cmd p h1 (hadd cmd (List.mem_cons_self _ _)) habs)

/-- A `delete` leaves no item at the deleted path. -/
theorem Catalog.executeOne_deleted (c c1 : Catalog) (cmd : CatalogCommand) (p : CatalogPath)
    (h : c.executeOne cmd = some c1) (hdel : cmd.deletedPath = some p) :
    ∀ it ∈ c1.items, it.path ≠ p := by
  cases cmd with
  | add ref collection name => simp [CatalogCommand.deletedPath] at hdel
  | set ref field value => simp [CatalogCommand.deletedPath] at hdel
  | delete ref collection name =>
    simp only [CatalogCommand.deletedPath, Option.some.injEq] at hdel
    simp only [Catalog.executeOne] at h
    split_ifs at h
    simp only [Option.some.injEq] at h
    subst h
    intro it hit he
    have := (List.mem_filter.mp hit).2
    rw [he, ← hdel] at this
    have hp : (ref ++ [(collection, name)]).isPrefixOf (ref ++ [(collection, name)]) = true :=
      List.isPrefixOf_iff_prefix.mpr (List.prefix_refl _)
    rw [hp] at this
    simp at this

/-! ## The inner scan drains the positioned iterator -/

/-- The tuples `nextValue` still yields on a sorted index are those of the scan
of the cursor. -/
theorem drainIterator_sorted_nextValue (entries : List (TableTuple × TableTuple)) :
    ∀ (scan atKey : List TableTuple) (n : Nat), scan.length < n →
      drainIterator (sortedIndex entries).nextValue n { scan := scan, atKey := atKey } = scan := by
  intro scan
  induction scan with
  | nil =>
    intro atKey n h
    cases n with
    | zero => omega
    | succ n => simp [drainIterator, sortedIndex]
  | cons t rest ih =>
    intro atKey n h
    cases n with
    | zero => omega
    | succ n =>
      simp only [List.length_cons] at h
      have := ih atKey n (by omega)
      simp only [drainIterator, sortedIndex, List.head?_cons, List.tail_cons] at this ⊢
      rw [this]

/-- The tuples `nextValueAtKey` still yields on a sorted index are those at the
key. -/
theorem drainIterator_sorted_nextValueAtKey (entries : List (TableTuple × TableTuple)) :
    ∀ (atKey scan : List TableTuple) (n : Nat), atKey.length < n →
      drainIterator (sortedIndex entries).nextValueAtKey n { scan := scan, atKey := atKey } =
        atKey := by
  intro atKey
  induction atKey with
  | nil =>
    intro scan n h
    cases n with
    | zero => omega
    | succ n => simp [drainIterator, sortedIndex]
  | cons t rest ih =>
    intro scan n h
    cases n with
    | zero => omega
    | succ n =>
      simp only [List.length_cons] at h
      have := ih scan n (by omega)
      simp only [drainIterator, sortedIndex, List.head?_cons, List.tail_cons] at this ⊢
      rw [this]

/-- On a sorted index and a plan with search keys, the inner tuples that match
the key of an outer tuple are the tuples of the entries whose key is equal to
the search key under EQ, greater under GT, and not below it under GTE. -/
theorem matchingTuples_sortedIndex (ex : NestLoopIndexExecutor ListCursor)
    (entries : List (TableTuple × TableTuple)) (hidx : ex.index = sortedIndex entries)
    (o : TableTuple) (st : ExecState ListCursor) (ks : KeyState)
    (hb : buildSearchKey ex.keySetNValue o ex.searchKeyExpressions 0 (initialKeyState ex st)
      = (none, ks))
    (hk : ks.keyException = false) (hK : 0 < ex.searchKeyExpressions.length) :
    matchingTuples ex o st = matchingEntries entries ks.localLookupType ks.index_values := by
  have hz : ex.searchKeyExpressions.length ≠ 0 := by omega
  unfold matchingTuples matchingEntries positionedCursor iteratorFetch
  rw [hb, hidx]
  simp only [hk, Bool.false_eq_true, if_false, hK, gt_iff_lt, if_true, hz]
  cases ks.localLookupType with
  | INDEX_LOOKUP_TYPE_EQ =>
    exact drainIterator_sorted_nextValueAtKey entries _ _ _ (by simp [sortedIndex]; omega)
  | INDEX_LOOKUP_TYPE_GT =>
    exact drainIterator_sorted_nextValue entries _ _ _ (by simp [sortedIndex])
  | INDEX_LOOKUP_TYPE_GTE =>
    exact drainIterator_sorted_nextValue entries _ _ _ (by simp [sortedIndex])
  | INDEX_LOOKUP_TYPE_LT => rfl
  | INDEX_LOOKUP_TYPE_LTE => rfl

/-! ## The two builds of key construction -/

/-- Where the `catch` block does not stop on the assertion, the two builds do
the same. -/
theorem handleKeyExceptionNDEBUG_eq (e : SQLException) (ctr : Nat) (ks : KeyState)
    (h : (handleKeyException e ctr ks).1 ≠ some .assertionFailed) :
    handleKeyExceptionNDEBUG e ctr ks = handleKeyException e ctr ks := by
  unfold handleKeyException at h ⊢
  unfold handleKeyExceptionNDEBUG
  by_cases h1 : (!(e.overflow || e.underflow)) = true
  · rw [if_pos h1, if_pos h1]
  · rw [if_neg h1] at h
    rw [if_neg h1, if_neg h1]
    by_cases h2 : ks.localLookupType ≠ INDEX_LOOKUP_TYPE_EQ ∧ ctr = ks.activeNumOfSearchKeys - 1
    · rw [if_pos h2] at h
      rw [if_pos h2, if_pos h2]
      by_cases h3 : ¬ (ks.activeNumOfSearchKeys > 1)
      · rw [if_pos h3] at h
        exact absurd rfl h
      · rw [if_neg h3]
    · rw [if_neg h2, if_neg h2]

/-- Where key construction does not stop on the assertion, the two builds do
the same. -/
theorem buildSearchKeyNDEBUG_eq (f : Nat → NValue → Except SQLException NValue)
    (o : TableTuple) :
    ∀ (exprs : List (TableTuple → NValue)) (ctr : Nat) (ks : KeyState),
      (buildSearchKey f o exprs ctr ks).1 ≠ some .assertionFailed →
      buildSearchKeyNDEBUG f o exprs ctr ks = buildSearchKey f o exprs ctr ks := by
  intro exprs
  induction exprs with
  | nil => intro ctr ks _; rfl
  | cons expr rest ih =>
    intro ctr ks h
    cases hv : f ctr (expr o) with
    | ok v =>
      rw [buildSearchKey_cons_ok f o expr rest ctr ks v hv] at h ⊢
      simp only [buildSearchKeyNDEBUG, hv]
      exact ih _ _ h
    | error e =>
      rw [buildSearchKey_cons_error f o expr rest ctr ks e hv] at h ⊢
      simp only [buildSearchKeyNDEBUG, hv]
      exact handleKeyExceptionNDEBUG_eq e ctr ks h

/-- Where the loop body does not stop on the assertion, the two builds do the
same for the outer tuple. -/
theorem processOuterTupleNDEBUG_eq (ex : NestLoopIndexExecutor σ) (o : TableTuple)
    (st : ExecState σ)
    (h : (buildSearchKey ex.keySetNValue o ex.searchKeyExpressions 0
      (initialKeyState ex st)).1 ≠ some .assertionFailed) :
    processOuterTupleNDEBUG ex o st = processOuterTuple ex o st := by
  unfold processOuterTupleNDEBUG processOuterTuple
  rw [buildSearchKeyNDEBUG_eq ex.keySetNValue o _ _ _ h]

/-- The `catch` block without the assertion, when it does not end `p_execute`:
the number of active keys is kept, or the last key is dropped under GT. -/
theorem handleKeyExceptionNDEBUG_none (e : SQLException) (ctr : Nat) (ks ks1 : KeyState)
    (h : handleKeyExceptionNDEBUG e ctr ks = (none, ks1)) :
    ks1.activeNumOfSearchKeys = ks.activeNumOfSearchKeys ∨
      (ks1.activeNumOfSearchKeys = ks.activeNumOfSearchKeys - 1 ∧
        ks1.localLookupType = INDEX_LOOKUP_TYPE_GT) := by
  unfold handleKeyExceptionNDEBUG at h
  split_ifs at h with h1 h2 h3 h4 h5 h6
  all_goals simp only [Prod.mk.injEq, reduceCtorEq, false_and, true_and] at h
  · subst h; exact Or.inl rfl
  · subst h; exact Or.inr ⟨rfl, rfl⟩
  · simp at h1
    simp at h3 h5
    rw [h3, h5] at h1
    simp at h1
  · subst h; exact Or.inl rfl

/-- Key construction without the assertion, when it does not end `p_execute`:
the number of active keys is the plan's, or one less under GT. -/
theorem buildSearchKeyNDEBUG_none (f : Nat → NValue → Except SQLException NValue)
    (o : TableTuple) :
    ∀ (exprs : List (TableTuple → NValue)) (ctr : Nat) (ks ks1 : KeyState),
      buildSearchKeyNDEBUG f o exprs ctr ks = (none, ks1) →
      ks1.activeNumOfSearchKeys = ks.activeNumOfSearchKeys ∨
        (ks1.activeNumOfSearchKeys = ks.activeNumOfSearchKeys - 1 ∧
          ks1.localLookupType = INDEX_LOOKUP_TYPE_GT) := by
  intro exprs
  induction exprs with
  | nil =>
    intro ctr ks ks1 h
    simp only [buildSearchKeyNDEBUG, Prod.mk.injEq, true_and] at h
    subst h
    exact Or.inl rfl
  | cons expr rest ih =>
    intro ctr ks ks1 h
    cases hv : f ctr (expr o) with
    | ok v =>
      simp only [buildSearchKeyNDEBUG, hv] at h
      exact ih (ctr + 1) { ks with index_values := ks.index_values.set ctr v } ks1 h
    | error e =>
      simp only [buildSearchKeyNDEBUG, hv] at h
      exact handleKeyExceptionNDEBUG_none e ctr ks ks1 h

/-- Without the assertion: when key construction succeeds and the iterator is
primed, the calls made on the index for the outer tuple are those of priming
and of the inner loop. -/
theorem processOuterTupleNDEBUG_scanned (ex : NestLoopIndexExecutor σ) (o : TableTuple)
    (st st1 : ExecState σ) (ks : KeyState)
    (hb : buildSearchKeyNDEBUG ex.keySetNValue o ex.searchKeyExpressions 0
      (initialKeyState ex st) = (none, ks))
    (hk : ks.keyException = false)
    (hp : positionIndex ex ks { st with index_values := ks.index_values } = some st1) :
    (processOuterTupleNDEBUG ex o st).2.trace = (scanInner ex ks o st1).2.2.trace := by
  unfold processOuterTupleNDEBUG
  rw [hb]
  simp only [positionAndScan, hk, hp, Bool.not_false, if_true]
  rcases hs : scanInner ex ks o st1 with ⟨fl, m, st2⟩
  cases fl with
  | some stop => rfl
  | none =>
    simp only
    split_ifs
    · exact (leftOuterFallback_spec ex st2).1
    · rfl

/-- The if-ladder tests the number of search keys of the plan, not the number
of active keys of the outer tuple. -/
theorem positionIndex_by_plan_keys (ex : NestLoopIndexExecutor σ) (ks : KeyState)
    (st : ExecState σ) :
    positionIndex ex ks st =
      positionBySpec ex { ks with activeNumOfSearchKeys := ex.searchKeyExpressions.length }
        st := by
  unfold positionIndex positionBySpec
  rfl

/-! ## The claims -/

/-- C2 (layout of a joined row).  The emission of a joined row for the outer
tuple `o` and the inner tuple `t` inserts a row that holds the columns of `o`
in positions `[0, num_of_outer_cols)` and, for each inner column `c`, the value
of output expression `c` on `t` in position `num_of_outer_cols + c`; in the
inner loop of `p_execute`, an inner tuple `t` that is fetched and passes the
end and post tests gets exactly this row inserted, and the loop goes on. -/
theorem joined_row_layout (ex : NestLoopIndexExecutor σ) (o t : TableTuple) (st : ExecState σ)
    (hbuf : ex.num_of_outer_cols + ex.num_of_inner_cols ≤ st.join_tuple.length)
    (hexprs : ex.num_of_inner_cols ≤ ex.m_outputExpressions.length) :
    ∃ row, emitJoinTuple ex o t st =
        some { st with join_tuple := row, output_table := st.output_table ++ [row] } ∧
      row.length = st.join_tuple.length ∧
      (∀ i, i < ex.num_of_outer_cols → row[i]? = some (o.getNValue i)) ∧
      (∀ c (hc : c < ex.num_of_inner_cols), row[ex.num_of_outer_cols + c]? =
        some ((ex.m_outputExpressions.get ⟨c, Nat.lt_of_lt_of_le hc hexprs⟩) t)) ∧
      (∀ (ks : KeyState) (n : Nat) (m : Bool) (st0 : ExecState σ),
        nextInnerTuple ex ks st0 = (some t, st) →
        endExpressionIsFalse ex o t = false → postExpressionPasses ex o t = true →
        scanLoop ex ks o (n + 1) m st0 = scanLoop ex ks o n true
          { st with join_tuple := row, output_table := st.output_table ++ [row] }) := by
  obtain ⟨hcl, hcv⟩ := copyOuterColumns_spec o ex.num_of_outer_cols st.join_tuple
  obtain ⟨row, hrow, hl, hout, hin⟩ := projectInnerColumns_spec ex.m_outputExpressions
    ex.num_of_outer_cols t ex.num_of_inner_cols
    (copyOuterColumns ex.num_of_outer_cols o st.join_tuple) hexprs
  have hget : ∀ i, i < row.length → row[i]? = some (row.getNValue i) := by
    intro i hi
    simp [TableTuple.getNValue, List.getD_eq_getElem?_getD, List.getElem?_eq_getElem hi]
  have hemit : emitJoinTuple ex o t st =
      some { st with join_tuple := row, output_table := st.output_table ++ [row] } := by
    simp only [emitJoinTuple, hrow, insertTupleNonVirtual]
  refine ⟨row, hemit, by rw [hl, hcl], ?_, ?_, ?_⟩
  · intro i hi
    rw [hget i (by rw [hl, hcl]; omega), hout i (by rw [hcl]; omega) (by omega),
      hcv i (by omega), if_pos hi]
  · intro c hc
    rw [hget _ (by rw [hl, hcl]; omega), hin c hc (by rw [hcl]; omega)]
  · intro ks n m st0 hfetch hE hP
    rw [scanLoop, hfetch]
    simp only [hE, hP, hemit, if_true, Bool.false_eq_true, if_false]

/-- The joined row for the outer tuple (2,'b') and the inner tuple (2) of S1 is
(2,'b',2), whatever the row buffer held. -/
theorem joined_row_layout_witness :
    (s1Executor JOIN_TYPE_INNER).num_of_outer_cols + (s1Executor JOIN_TYPE_INNER).num_of_inner_cols
      ≤ ([.integer 9, .integer 9, .integer 9] : TableTuple).length ∧
    (s1Executor JOIN_TYPE_INNER).num_of_inner_cols ≤
      (s1Executor JOIN_TYPE_INNER).m_outputExpressions.length ∧
    emitJoinTuple (s1Executor JOIN_TYPE_INNER) [.integer 2, .varchar "b"] [.integer 2]
        { freshState 1 3 with join_tuple := [.integer 9, .integer 9, .integer 9] } =
      some { freshState 1 3 with
        join_tuple := [.integer 2, .varchar "b", .integer 2]
        output_table := [[.integer 2, .varchar "b", .integer 2]] } ∧
    ∃ row, emitJoinTuple (s1Executor JOIN_TYPE_INNER) [.integer 2, .varchar "b"] [.integer 2]
        { freshState 1 3 with join_tuple := [.integer 9, .integer 9, .integer 9] } =
        some { freshState 1 3 with join_tuple := row, output_table := [] ++ [row] } ∧
      row.length = 3 ∧
      (∀ i, i < 2 → row[i]? = some (TableTuple.getNValue [.integer 2, .varchar "b"] i)) ∧
      (∀ c (hc : c < 1), row[2 + c]? = some
        (((s1Executor JOIN_TYPE_INNER).m_outputExpressions.get ⟨c, hc⟩) [.integer 2])) :=
  have h := joined_row_layout (s1Executor JOIN_TYPE_INNER) [.integer 2, .varchar "b"]
    [.integer 2] { freshState 1 3 with join_tuple := [.integer 9, .integer 9, .integer 9] }
    (by decide) (by decide)
  ⟨by decide, by decide, rfl,
    h.elim (fun row hrow => ⟨row, hrow.1, hrow.2.1, hrow.2.2.1, hrow.2.2.2.1⟩)⟩

/-- C3 (left-outer fallback row), evaluated on scenario S2: the row inserted
for the outer tuple (4,'c'), which found no match, is (2,'b',NULL): it carries
the outer columns of the row emitted last, not those of (4,'c'). -/
theorem left_outer_row_keeps_stale_outer_columns :
    p_execute (s1Executor JOIN_TYPE_LEFT) s1Outer (freshState 1 3) =
      (.returned true,
        { index_values := [.integer 4]
          cursor := { scan := [], atKey := [] }
          join_tuple := [.integer 2, .varchar "b", .null]
          output_table := [[.integer 1, .varchar "a", .integer 1],
            [.integer 2, .varchar "b", .integer 2], [.integer 2, .varchar "b", .null]]
          trace := [.moveToKey [.integer 1], .nextValueAtKey (some [.integer 1]),
            .nextValueAtKey none, .moveToKey [.integer 2],
            .nextValueAtKey (some [.integer 2]), .nextValueAtKey none,
            .moveToKey [.integer 4], .nextValueAtKey none] }) := by
  rfl

/-- C4 (left-outer completeness), evaluated where it fails: under a LEFT join,
the outer tuple (1,'a') contributes no row when its one inner tuple is rejected
by the post expression, and none when the end expression is false at its first
inner tuple. -/
theorem left_join_outer_tuple_without_row :
    (p_execute rejectingLeftExecutor [[.integer 1, .varchar "a"]] (freshState 1 3)).1 =
      .returned true ∧
    (p_execute rejectingLeftExecutor [[.integer 1, .varchar "a"]]
      (freshState 1 3)).2.output_table = [] ∧
    (p_execute endingLeftExecutor [[.integer 1, .varchar "a"]] (freshState 1 3)).1 =
      .returned true ∧
    (p_execute endingLeftExecutor [[.integer 1, .varchar "a"]]
      (freshState 1 3)).2.output_table = [] := by
  decide

/-- C5 (end-expression monotonicity).  When the inner loop fetches the inner
tuple `t` and the end expression is false on it, the loop ends in the state
the fetch left: `match` is set, the output table is as before the fetch (no row
for `t`) and no later inner tuple is fetched, whatever the post expression.
Over a whole inner loop, a tuple on which the end expression is false is the
last one yielded, and the rows inserted are at most the tuples yielded on which
it is not false. -/
theorem end_expression_false_ends_scan (ex : NestLoopIndexExecutor σ) (ks : KeyState)
    (o t : TableTuple) (n : Nat) (m : Bool) (st st1 : ExecState σ)
    (e : TableTuple → TableTuple → NValue)
    (hfetch : nextInnerTuple ex ks st = (some t, st1))
    (hend : ex.end_expression = some e) (hfalse : (e o t).isFalse = true) :
    scanLoop ex ks o (n + 1) m st = (none, true, st1) ∧
    st1.output_table = st.output_table ∧
    ∀ (k : Nat) (m0 : Bool) (st0 : ExecState σ),
      ∃ calls rows, (scanLoop ex ks o k m0 st0).2.2.trace = st0.trace ++ calls ∧
        (scanLoop ex ks o k m0 st0).2.2.output_table = st0.output_table ++ rows ∧
        (∀ ts t' ts', yieldedTuples calls = ts ++ t' :: ts' →
          endExpressionIsFalse ex o t' = true → ts' = []) ∧
        rows.length ≤
          ((yieldedTuples calls).filter (fun t' => !endExpressionIsFalse ex o t')).length := by
  have h := (nextInnerTuple_spec ex ks st).1
  rw [hfetch] at h
  refine ⟨?_, h, scanLoop_end_false_last ex ks o⟩
  unfold scanLoop
  rw [hfetch]
  simp only [endExpressionIsFalse, hend, hfalse, if_true]

/-- In scenario S6 with end expression `inner.key > 10`, the fetch of key 5 ends
the inner loop with no row. -/
theorem end_expression_false_ends_scan_witness :
    nextInnerTuple (s6Executor innerKeyGreaterThan10) s6KeyState s6Positioned =
      (some [.integer 5],
        { s6Positioned with
          cursor := { scan := [[.integer 8], [.integer 11], [.integer 12]], atKey := [] }
          trace := [.moveToKeyOrGreater [.integer 5], .nextValue (some [.integer 5])] }) ∧
    (s6Executor innerKeyGreaterThan10).end_expression = some innerKeyGreaterThan10 ∧
    (innerKeyGreaterThan10 [.integer 5] [.integer 5]).isFalse = true ∧
    scanLoop (s6Executor innerKeyGreaterThan10) s6KeyState [.integer 5] (4 + 1) false
        s6Positioned =
      (none, true,
        { s6Positioned with
          cursor := { scan := [[.integer 8], [.integer 11], [.integer 12]], atKey := [] }
          trace := [.moveToKeyOrGreater [.integer 5], .nextValue (some [.integer 5])] }) :=
  ⟨rfl, rfl, rfl,
    (end_expression_false_ends_scan (s6Executor innerKeyGreaterThan10) s6KeyState
      [.integer 5] [.integer 5] 4 false s6Positioned _ innerKeyGreaterThan10 rfl rfl rfl).1⟩

/-- C6, as stated, fails: in scenario S6 with end expression `inner.key > 10`
the outer tuple whose scan enumerates 5, 8, 11, 12 does not get two rows. -/
theorem s6_end_expression_counterexample :
    ¬ ((p_execute (s6Executor innerKeyGreaterThan10) [[.integer 5]]
      (freshState 1 2)).2.output_table.length = 2) := by
  decide

/-- C6, amended.  In scenario S6 with end expression `inner.key > 10`, the scan
stops at the first key 5, where the end expression is false, and no row is
emitted; with end expression `inner.key <= 10` exactly the rows for keys 5 and
8 are emitted and the scan stops at key 11. -/
theorem s6_end_expression_amended :
    (p_execute (s6Executor innerKeyGreaterThan10) [[.integer 5]] (freshState 1 2)).1 =
      .returned true ∧
    (p_execute (s6Executor innerKeyGreaterThan10) [[.integer 5]]
      (freshState 1 2)).2.output_table = [] ∧
    (p_execute (s6Executor innerKeyGreaterThan10) [[.integer 5]] (freshState 1 2)).2.trace =
      [.moveToKeyOrGreater [.integer 5], .nextValue (some [.integer 5])] ∧
    (p_execute (s6Executor innerKeyAtMost10) [[.integer 5]] (freshState 1 2)).1 =
      .returned true ∧
    (p_execute (s6Executor innerKeyAtMost10) [[.integer 5]]
      (freshState 1 2)).2.output_table = [[.integer 5, .integer 5], [.integer 5, .integer 8]] ∧
    (p_execute (s6Executor innerKeyAtMost10) [[.integer 5]] (freshState 1 2)).2.trace =
      [.moveToKeyOrGreater [.integer 5], .nextValue (some [.integer 5]),
        .nextValue (some [.integer 8]), .nextValue (some [.integer 11])] := by
  decide

/-- C7 (overflow recovery).  For a plan with K > 1 search keys and lookup kind GT
or GTE, when the assignment of the last key column signals overflow for an
outer tuple, `keyException` is set, no call is made on the index for that tuple
(it is neither positioned nor scanned), the tuple contributes no row under an
INNER join and exactly one row, NULL in every inner position, under a LEFT
join, and `p_execute` goes on with the next outer tuple. -/
theorem overflow_last_key_skips_scan (ex : NestLoopIndexExecutor σ) (o : TableTuple)
    (st : ExecState σ) (e : SQLException)
    (hK : 1 < ex.searchKeyExpressions.length)
    (hl : ex.m_lookupType = INDEX_LOOKUP_TYPE_GT ∨ ex.m_lookupType = INDEX_LOOKUP_TYPE_GTE)
    (hok : ∀ i expr, i < ex.searchKeyExpressions.length - 1 →
      ex.searchKeyExpressions[i]? = some expr → ∃ v, ex.keySetNValue i (expr o) = .ok v)
    (herr : ∃ expr, ex.searchKeyExpressions[ex.searchKeyExpressions.length - 1]? = some expr ∧
      ex.keySetNValue (ex.searchKeyExpressions.length - 1) (expr o) = .error e)
    (hov : e.overflow = true)
    (hbuf : ex.num_of_outer_cols + ex.num_of_inner_cols ≤ st.join_tuple.length) :
    (∃ ks, buildSearchKey ex.keySetNValue o ex.searchKeyExpressions 0 (initialKeyState ex st)
        = (none, ks) ∧ ks.keyException = true) ∧
    (processOuterTuple ex o st).1 = none ∧
    (processOuterTuple ex o st).2.trace = st.trace ∧
    (processOuterTuple ex o st).2.cursor = st.cursor ∧
    (ex.join_type = JOIN_TYPE_INNER →
      (processOuterTuple ex o st).2.output_table = st.output_table) ∧
    (ex.join_type = JOIN_TYPE_LEFT →
      ∃ row, (processOuterTuple ex o st).2.output_table = st.output_table ++ [row] ∧
        row.length = st.join_tuple.length ∧
        ∀ i, ex.num_of_outer_cols ≤ i → i < ex.num_of_outer_cols + ex.num_of_inner_cols →
          row[i]? = some NValue.null) ∧
    ∀ rest, p_execute ex (o :: rest) st = p_execute ex rest (processOuterTuple ex o st).2 := by
  obtain ⟨iv, hb⟩ := buildSearchKey_first_error ex o st e _ hok herr
  rw [handleKeyException_overflow_last e (ex.searchKeyExpressions.length - 1)
    { initialKeyState ex st with index_values := iv } hov hl rfl hK] at hb
  obtain ⟨h1, h2, h3, h4, h5⟩ := processOuterTuple_skipped ex o st _ hb rfl hbuf
  exact ⟨⟨_, hb, rfl⟩, h1, h2, h3, h4, h5, fun rest => p_execute_cons_of_none ex o rest st h1⟩

/-- The plan of scenario S3 under a LEFT join: GT, two TINYINT key columns,
outer tuple (5, 200). -/
theorem overflow_last_key_skips_scan_witness :
    (1 < (s3Executor JOIN_TYPE_LEFT INDEX_LOOKUP_TYPE_GT).searchKeyExpressions.length) ∧
    tinyintSetNValue 1 (.integer 200) = .error { overflow := true, underflow := false } ∧
    (∃ ks, buildSearchKey tinyintSetNValue [.integer 5, .integer 200]
        (s3Executor JOIN_TYPE_LEFT INDEX_LOOKUP_TYPE_GT).searchKeyExpressions 0
        (initialKeyState (s3Executor JOIN_TYPE_LEFT INDEX_LOOKUP_TYPE_GT) (freshState 2 4))
        = (none, ks) ∧ ks.keyException = true) ∧
    (processOuterTuple (s3Executor JOIN_TYPE_LEFT INDEX_LOOKUP_TYPE_GT)
      [.integer 5, .integer 200] (freshState 2 4)).2.trace = [] ∧
    (processOuterTuple (s3Executor JOIN_TYPE_LEFT INDEX_LOOKUP_TYPE_GT)
      [.integer 5, .integer 200] (freshState 2 4)).2.output_table =
        [[.null, .null, .null, .null]] :=
  have h := overflow_last_key_skips_scan (s3Executor JOIN_TYPE_LEFT INDEX_LOOKUP_TYPE_GT)
    [.integer 5, .integer 200] (freshState 2 4) { overflow := true, underflow := false }
    (by decide) (Or.inl rfl)
    (fun i expr hi hx => by
      have h0 : i = 0 := by
        have : i < 1 := hi
        omega
      subst h0
      simp [s3Executor] at hx
      subst hx
      exact ⟨.integer 5, rfl⟩)
    ⟨fun t => t.getNValue 1, rfl, rfl⟩ rfl (by decide)
  ⟨by decide, rfl, h.1, h.2.2.1, by decide⟩

/-- C8, as stated, fails: in scenario S3 (GT, key columns (TINYINT, TINYINT),
outer tuple (5, 200)) it is not so that `activeNumOfSearchKeys` becomes 1, the
local sort direction becomes ASC and the inner rows whose first key column is
greater than 5, here (6,0) and (7,1), are returned. -/
theorem s3_overflow_counterexample :
    ¬ ((buildSearchKey tinyintSetNValue [.integer 5, .integer 200]
          (s3Executor JOIN_TYPE_INNER INDEX_LOOKUP_TYPE_GT).searchKeyExpressions 0
          (initialKeyState (s3Executor JOIN_TYPE_INNER INDEX_LOOKUP_TYPE_GT)
            (freshState 2 4))).2.activeNumOfSearchKeys = 1 ∧
        (buildSearchKey tinyintSetNValue [.integer 5, .integer 200]
          (s3Executor JOIN_TYPE_INNER INDEX_LOOKUP_TYPE_GT).searchKeyExpressions 0
          (initialKeyState (s3Executor JOIN_TYPE_INNER INDEX_LOOKUP_TYPE_GT)
            (freshState 2 4))).2.localSortDirection = SORT_DIRECTION_TYPE_ASC ∧
        (p_execute (s3Executor JOIN_TYPE_INNER INDEX_LOOKUP_TYPE_GT)
          [[.integer 5, .integer 200]] (freshState 2 4)).2.output_table =
          [[.integer 5, .integer 200, .integer 6, .integer 0],
            [.integer 5, .integer 200, .integer 7, .integer 1]]) := by
  decide

/-- C8, amended.  In scenario S3 the overflow of the second key value under GT
sets `keyException`: `activeNumOfSearchKeys` stays 2, the lookup kind stays GT
and the sort direction stays INVALID, no call is made on the index, and the
outer tuple (5, 200) gets no row under an INNER join and one null-padded row
under a LEFT join. -/
theorem s3_overflow_amended :
    buildSearchKey tinyintSetNValue [.integer 5, .integer 200]
        (s3Executor JOIN_TYPE_INNER INDEX_LOOKUP_TYPE_GT).searchKeyExpressions 0
        (initialKeyState (s3Executor JOIN_TYPE_INNER INDEX_LOOKUP_TYPE_GT) (freshState 2 4)) =
      (none, { activeNumOfSearchKeys := 2
               localLookupType := INDEX_LOOKUP_TYPE_GT
               localSortDirection := SORT_DIRECTION_TYPE_INVALID
               keyException := true
               index_values := [.integer 5, .null] }) ∧
    (p_execute (s3Executor JOIN_TYPE_INNER INDEX_LOOKUP_TYPE_GT)
      [[.integer 5, .integer 200]] (freshState 2 4)).1 = .returned true ∧
    (p_execute (s3Executor JOIN_TYPE_INNER INDEX_LOOKUP_TYPE_GT)
      [[.integer 5, .integer 200]] (freshState 2 4)).2.trace = [] ∧
    (p_execute (s3Executor JOIN_TYPE_INNER INDEX_LOOKUP_TYPE_GT)
      [[.integer 5, .integer 200]] (freshState 2 4)).2.output_table = [] ∧
    (p_execute (s3Executor JOIN_TYPE_LEFT INDEX_LOOKUP_TYPE_GT)
      [[.integer 5, .integer 200]] (freshState 2 4)).2.trace = [] ∧
    (p_execute (s3Executor JOIN_TYPE_LEFT INDEX_LOOKUP_TYPE_GT)
      [[.integer 5, .integer 200]] (freshState 2 4)).2.output_table =
      [[.null, .null, .null, .null]] := by
  decide

/-- C9 (underflow on the last key).  For a plan with K > 1 search keys and
lookup kind GT or GTE, when the assignment of the last key column signals
underflow and not overflow for an outer tuple, key construction ends with
`keyException` false, local lookup kind GT, `activeNumOfSearchKeys` K - 1 and
the local sort direction ASC if it was INVALID and unchanged otherwise; the
index is then positioned with `moveToGreaterThanKey` on the key buffer and
scanned with `nextValue`. -/
theorem underflow_last_key_degrades_scan (ex : NestLoopIndexExecutor σ) (o : TableTuple)
    (st : ExecState σ) (e : SQLException)
    (hK : 1 < ex.searchKeyExpressions.length)
    (hl : ex.m_lookupType = INDEX_LOOKUP_TYPE_GT ∨ ex.m_lookupType = INDEX_LOOKUP_TYPE_GTE)
    (hok : ∀ i expr, i < ex.searchKeyExpressions.length - 1 →
      ex.searchKeyExpressions[i]? = some expr → ∃ v, ex.keySetNValue i (expr o) = .ok v)
    (herr : ∃ expr, ex.searchKeyExpressions[ex.searchKeyExpressions.length - 1]? = some expr ∧
      ex.keySetNValue (ex.searchKeyExpressions.length - 1) (expr o) = .error e)
    (hov : e.overflow = false) (hun : e.underflow = true) :
    ∃ ks, buildSearchKey ex.keySetNValue o ex.searchKeyExpressions 0 (initialKeyState ex st)
        = (none, ks) ∧
      ks.keyException = false ∧
      ks.localLookupType = INDEX_LOOKUP_TYPE_GT ∧
      ks.activeNumOfSearchKeys = ex.searchKeyExpressions.length - 1 ∧
      ks.localSortDirection =
        (if ex.m_sortDirection = SORT_DIRECTION_TYPE_INVALID then SORT_DIRECTION_TYPE_ASC
         else ex.m_sortDirection) ∧
      ∃ r rest, (processOuterTuple ex o st).2.trace =
        st.trace ++ .moveToGreaterThanKey ks.index_values :: .nextValue r :: rest := by
  obtain ⟨iv, hb⟩ := buildSearchKey_first_error ex o st e _ hok herr
  rw [handleKeyException_underflow_last e (ex.searchKeyExpressions.length - 1)
    { initialKeyState ex st with index_values := iv } hov hun hl rfl hK] at hb
  refine ⟨_, hb, rfl, rfl, rfl, rfl, ?_⟩
  have hpos : 0 < ex.searchKeyExpressions.length := by omega
  have hp : positionIndex ex
      (dropLastKey { initialKeyState ex st with
        index_values := iv, localLookupType := INDEX_LOOKUP_TYPE_GT })
      { st with index_values := iv } =
      some { st with
        index_values := iv
        cursor := ex.index.moveToGreaterThanKey iv st.cursor
        trace := st.trace ++ [.moveToGreaterThanKey iv] } := by
    simp [positionIndex, hpos, dropLastKey]
  rw [processOuterTuple_scanned ex o st _ _ hb rfl hp]
  obtain ⟨r, rest, h⟩ := scanInner_first_fetch ex
    (dropLastKey { initialKeyState ex st with
      index_values := iv, localLookupType := INDEX_LOOKUP_TYPE_GT }) o
    { st with
      index_values := iv
      cursor := ex.index.moveToGreaterThanKey iv st.cursor
      trace := st.trace ++ [.moveToGreaterThanKey iv] } (by simp [dropLastKey])
  exact ⟨r, rest, by rw [h]; simp [dropLastKey]⟩

/-- The plan of scenario S3 with GTE and the outer tuple (5, -200), whose second
key value underflows TINYINT: the scan is degraded to GT on the first key. -/
theorem underflow_last_key_degrades_scan_witness :
    (1 < (s3Executor JOIN_TYPE_INNER INDEX_LOOKUP_TYPE_GTE).searchKeyExpressions.length) ∧
    tinyintSetNValue 1 (.integer (-200)) = .error { overflow := false, underflow := true } ∧
    (∃ ks, buildSearchKey tinyintSetNValue [.integer 5, .integer (-200)]
        (s3Executor JOIN_TYPE_INNER INDEX_LOOKUP_TYPE_GTE).searchKeyExpressions 0
        (initialKeyState (s3Executor JOIN_TYPE_INNER INDEX_LOOKUP_TYPE_GTE) (freshState 2 4))
        = (none, ks) ∧
      ks.keyException = false ∧
      ks.localLookupType = INDEX_LOOKUP_TYPE_GT ∧
      ks.activeNumOfSearchKeys = 2 - 1 ∧
      ks.localSortDirection = SORT_DIRECTION_TYPE_ASC ∧
      ∃ r rest, (processOuterTuple (s3Executor JOIN_TYPE_INNER INDEX_LOOKUP_TYPE_GTE)
          [.integer 5, .integer (-200)] (freshState 2 4)).2.trace =
        [] ++ .moveToGreaterThanKey ks.index_values :: .nextValue r :: rest) ∧
    (processOuterTuple (s3Executor JOIN_TYPE_INNER INDEX_LOOKUP_TYPE_GTE)
      [.integer 5, .integer (-200)] (freshState 2 4)).2.trace =
      [.moveToGreaterThanKey [.integer 5, .null],
        .nextValue (some [.integer 5, .integer 7]), .nextValue (some [.integer 6, .integer 0]),
        .nextValue (some [.integer 7, .integer 1]), .nextValue none] :=
  ⟨by decide, rfl,
    underflow_last_key_degrades_scan (s3Executor JOIN_TYPE_INNER INDEX_LOOKUP_TYPE_GTE)
      [.integer 5, .integer (-200)] (freshState 2 4) { overflow := false, underflow := true }
      (by decide) (Or.inr rfl)
      (fun i expr hi hx => by
        have h0 : i = 0 := by
          have : i < 1 := hi
          omega
        subst h0
        simp [s3Executor] at hx
        subst hx
        exact ⟨.integer 5, rfl⟩)
      ⟨fun t => t.getNValue 1, rfl, rfl⟩ rfl rfl,
    by decide⟩

/-- C10 (key error on a non-final column or under EQ).  When the assignment of
key column `c` signals overflow or underflow and `c` is not the last key column
or the lookup kind is EQ, `keyException` is set and the outer tuple is skipped:
no call is made on the index (it is neither positioned nor scanned), an INNER
join inserts no row, a LEFT join inserts exactly one row, NULL in every inner
position, and `p_execute` goes on with the next outer tuple. -/
theorem key_error_skips_outer_tuple (ex : NestLoopIndexExecutor σ) (o : TableTuple)
    (st : ExecState σ) (e : SQLException) (c : Nat)
    (hok : ∀ i expr, i < c →
      ex.searchKeyExpressions[i]? = some expr → ∃ v, ex.keySetNValue i (expr o) = .ok v)
    (herr : ∃ expr, ex.searchKeyExpressions[c]? = some expr ∧
      ex.keySetNValue c (expr o) = .error e)
    (hflags : e.overflow = true ∨ e.underflow = true)
    (hc : c ≠ ex.searchKeyExpressions.length - 1 ∨ ex.m_lookupType = INDEX_LOOKUP_TYPE_EQ)
    (hbuf : ex.num_of_outer_cols + ex.num_of_inner_cols ≤ st.join_tuple.length) :
    (∃ ks, buildSearchKey ex.keySetNValue o ex.searchKeyExpressions 0 (initialKeyState ex st)
        = (none, ks) ∧ ks.keyException = true) ∧
    (processOuterTuple ex o st).1 = none ∧
    (processOuterTuple ex o st).2.trace = st.trace ∧
    (processOuterTuple ex o st).2.cursor = st.cursor ∧
    (ex.join_type = JOIN_TYPE_INNER →
      (processOuterTuple ex o st).2.output_table = st.output_table) ∧
    (ex.join_type = JOIN_TYPE_LEFT →
      ∃ row, (processOuterTuple ex o st).2.output_table = st.output_table ++ [row] ∧
        row.length = st.join_tuple.length ∧
        ∀ i, ex.num_of_outer_cols ≤ i → i < ex.num_of_outer_cols + ex.num_of_inner_cols →
          row[i]? = some NValue.null) ∧
    ∀ rest, p_execute ex (o :: rest) st = p_execute ex rest (processOuterTuple ex o st).2 := by
  obtain ⟨iv, hb⟩ := buildSearchKey_first_error ex o st e c hok herr
  rw [handleKeyException_not_last_or_EQ e c
    { initialKeyState ex st with index_values := iv } hflags hc] at hb
  obtain ⟨h1, h2, h3, h4, h5⟩ := processOuterTuple_skipped ex o st _ hb rfl hbuf
  exact ⟨⟨_, hb, rfl⟩, h1, h2, h3, h4, h5, fun rest => p_execute_cons_of_none ex o rest st h1⟩

/-- The plan of scenario S3 under GT and a LEFT join with the outer tuple
(200, 5): the first, non-final key value overflows TINYINT. -/
theorem key_error_skips_outer_tuple_witness :
    tinyintSetNValue 0 (.integer 200) = .error { overflow := true, underflow := false } ∧
    (0 ≠ (s3Executor JOIN_TYPE_LEFT INDEX_LOOKUP_TYPE_GT).searchKeyExpressions.length - 1) ∧
    (processOuterTuple (s3Executor JOIN_TYPE_LEFT INDEX_LOOKUP_TYPE_GT)
      [.integer 200, .integer 5] (freshState 2 4)).1 = none ∧
    (processOuterTuple (s3Executor JOIN_TYPE_LEFT INDEX_LOOKUP_TYPE_GT)
      [.integer 200, .integer 5] (freshState 2 4)).2.trace = [] ∧
    (processOuterTuple (s3Executor JOIN_TYPE_LEFT INDEX_LOOKUP_TYPE_GT)
      [.integer 200, .integer 5] (freshState 2 4)).2.output_table =
        [[.null, .null, .null, .null]] :=
  have h := key_error_skips_outer_tuple (s3Executor JOIN_TYPE_LEFT INDEX_LOOKUP_TYPE_GT)
    [.integer 200, .integer 5] (freshState 2 4) { overflow := true, underflow := false } 0
    (fun i _ hi _ => absurd hi (by omega))
    ⟨fun t => t.getNValue 0, rfl, rfl⟩ (Or.inl rfl) (Or.inl (by decide)) (by decide)
  ⟨rfl, by decide, h.2.1, h.2.2.1, by decide⟩

/-- C11 (LT/LTE with an out-of-range last key).  For a plan with K > 1 search
keys and lookup kind LT or LTE, an overflow or an underflow signalled by the
assignment of the last key column leaves `p_execute` as the exception that was
caught: the locals are not degraded and `keyException` is not set, no call is
made on the index, no row is inserted, and no later outer tuple is processed. -/
theorem out_of_range_last_key_LT_rethrown (ex : NestLoopIndexExecutor σ) (o : TableTuple)
    (st : ExecState σ) (e : SQLException)
    (hK : 1 < ex.searchKeyExpressions.length)
    (hl : ex.m_lookupType = INDEX_LOOKUP_TYPE_LT ∨ ex.m_lookupType = INDEX_LOOKUP_TYPE_LTE)
    (hok : ∀ i expr, i < ex.searchKeyExpressions.length - 1 →
      ex.searchKeyExpressions[i]? = some expr → ∃ v, ex.keySetNValue i (expr o) = .ok v)
    (herr : ∃ expr, ex.searchKeyExpressions[ex.searchKeyExpressions.length - 1]? = some expr ∧
      ex.keySetNValue (ex.searchKeyExpressions.length - 1) (expr o) = .error e)
    (hflags : e.overflow = true ∨ e.underflow = true) :
    ∃ ks, buildSearchKey ex.keySetNValue o ex.searchKeyExpressions 0 (initialKeyState ex st)
        = (some (.threw e), ks) ∧
      ks.keyException = false ∧
      ks.activeNumOfSearchKeys = ex.searchKeyExpressions.length ∧
      ks.localLookupType = ex.m_lookupType ∧
      ks.localSortDirection = ex.m_sortDirection ∧
      ∀ rest, (p_execute ex (o :: rest) st).1 = .threw e ∧
        (p_execute ex (o :: rest) st).2.trace = st.trace ∧
        (p_execute ex (o :: rest) st).2.cursor = st.cursor ∧
        (p_execute ex (o :: rest) st).2.output_table = st.output_table := by
  obtain ⟨iv, hb⟩ := buildSearchKey_first_error ex o st e _ hok herr
  rw [handleKeyException_LT_last e (ex.searchKeyExpressions.length - 1)
    { initialKeyState ex st with index_values := iv } hflags hl rfl hK] at hb
  refine ⟨_, hb, rfl, rfl, rfl, rfl, fun rest => ?_⟩
  rw [(p_execute_key_stop ex o st _ _ hb).2 rest]
  exact ⟨rfl, rfl, rfl, rfl⟩

/-- The plan of scenario S3 with LT: the outer tuple (5, 200) ends `p_execute`
with the overflow, and the outer tuple (5, 1) after it is not processed. -/
theorem out_of_range_last_key_LT_rethrown_witness :
    (1 < (s3Executor JOIN_TYPE_LEFT INDEX_LOOKUP_TYPE_LT).searchKeyExpressions.length) ∧
    tinyintSetNValue 1 (.integer 200) = .error { overflow := true, underflow := false } ∧
    (p_execute (s3Executor JOIN_TYPE_LEFT INDEX_LOOKUP_TYPE_LT)
      [[.integer 5, .integer 200], [.integer 5, .integer 1]] (freshState 2 4)).1 =
      .threw { overflow := true, underflow := false } ∧
    (p_execute (s3Executor JOIN_TYPE_LEFT INDEX_LOOKUP_TYPE_LT)
      [[.integer 5, .integer 200], [.integer 5, .integer 1]] (freshState 2 4)).2.trace = [] ∧
    (p_execute (s3Executor JOIN_TYPE_LEFT INDEX_LOOKUP_TYPE_LT)
      [[.integer 5, .integer 200], [.integer 5, .integer 1]]
      (freshState 2 4)).2.output_table = [] :=
  have h := out_of_range_last_key_LT_rethrown (s3Executor JOIN_TYPE_LEFT INDEX_LOOKUP_TYPE_LT)
    [.integer 5, .integer 200] (freshState 2 4) { overflow := true, underflow := false }
    (by decide) (Or.inl rfl)
    (fun i expr hi hx => by
      have h0 : i = 0 := by
        have : i < 1 := hi
        omega
      subst h0
      simp [s3Executor] at hx
      subst hx
      exact ⟨.integer 5, rfl⟩)
    ⟨fun t => t.getNValue 1, rfl, rfl⟩ (Or.inl rfl)
  h.elim (fun _ hks =>
    have hr := hks.2.2.2.2.2 [[.integer 5, .integer 1]]
    ⟨by decide, rfl, hr.1, hr.2.1, hr.2.2.2⟩)

/-- C12 (other errors propagate).  When the assignment of a search-key value
throws an exception whose flags hold neither overflow nor underflow, at any key
column and under any lookup kind and join kind, that exception leaves
`p_execute`: `keyException` is not set, the locals are not degraded, no call is
made on the index, no row is inserted and no later outer tuple is processed. -/
theorem other_key_error_propagates (ex : NestLoopIndexExecutor σ) (o : TableTuple)
    (st : ExecState σ) (e : SQLException) (c : Nat)
    (hok : ∀ i expr, i < c →
      ex.searchKeyExpressions[i]? = some expr → ∃ v, ex.keySetNValue i (expr o) = .ok v)
    (herr : ∃ expr, ex.searchKeyExpressions[c]? = some expr ∧
      ex.keySetNValue c (expr o) = .error e)
    (hov : e.overflow = false) (hun : e.underflow = false) :
    ∃ ks, buildSearchKey ex.keySetNValue o ex.searchKeyExpressions 0 (initialKeyState ex st)
        = (some (.threw e), ks) ∧
      ks.keyException = false ∧
      ks.activeNumOfSearchKeys = ex.searchKeyExpressions.length ∧
      ks.localLookupType = ex.m_lookupType ∧
      ks.localSortDirection = ex.m_sortDirection ∧
      ∀ rest, (p_execute ex (o :: rest) st).1 = .threw e ∧
        (p_execute ex (o :: rest) st).2.trace = st.trace ∧
        (p_execute ex (o :: rest) st).2.cursor = st.cursor ∧
        (p_execute ex (o :: rest) st).2.output_table = st.output_table := by
  obtain ⟨iv, hb⟩ := buildSearchKey_first_error ex o st e c hok herr
  rw [handleKeyException_other e c { initialKeyState ex st with index_values := iv } hov hun]
    at hb
  refine ⟨_, hb, rfl, rfl, rfl, rfl, fun rest => ?_⟩
  rw [(p_execute_key_stop ex o st _ _ hb).2 rest]
  exact ⟨rfl, rfl, rfl, rfl⟩

/-- The plan of scenario S3 under GT and a LEFT join with the outer tuple
('x', 5): a string does not go into the first TINYINT key column, and the error
carries neither flag. -/
theorem other_key_error_propagates_witness :
    tinyintSetNValue 0 (.varchar "x") = .error { overflow := false, underflow := false } ∧
    (p_execute (s3Executor JOIN_TYPE_LEFT INDEX_LOOKUP_TYPE_GT)
      [[.varchar "x", .integer 5], [.integer 5, .integer 1]] (freshState 2 4)).1 =
      .threw { overflow := false, underflow := false } ∧
    (p_execute (s3Executor JOIN_TYPE_LEFT INDEX_LOOKUP_TYPE_GT)
      [[.varchar "x", .integer 5], [.integer 5, .integer 1]] (freshState 2 4)).2.trace = [] ∧
    (p_execute (s3Executor JOIN_TYPE_LEFT INDEX_LOOKUP_TYPE_GT)
      [[.varchar "x", .integer 5], [.integer 5, .integer 1]]
      (freshState 2 4)).2.output_table = [] :=
  have h := other_key_error_propagates (s3Executor JOIN_TYPE_LEFT INDEX_LOOKUP_TYPE_GT)
    [.varchar "x", .integer 5] (freshState 2 4) { overflow := false, underflow := false } 0
    (fun i _ hi _ => absurd hi (by omega))
    ⟨fun t => t.getNValue 0, rfl, rfl⟩ rfl rfl
  h.elim (fun _ hks =>
    have hr := hks.2.2.2.2.2 [[.integer 5, .integer 1]]
    ⟨rfl, hr.1, hr.2.1, hr.2.2.2⟩)

/-- C13, as stated, fails in a build with `NDEBUG`: `p_init` accepts the plan
with one search key under GT on a TINYINT key column; for the outer tuple (-200)
key construction succeeds with the one key dropped, `activeNumOfSearchKeys = 0`
and no key error; the if-ladder then calls `moveToGreaterThanKey` on the key
buffer, and no `moveToEnd` is called for the outer tuple, where positioning by
the number of active keys calls `moveToEnd(true)`. -/
theorem single_key_underflow_counterexample :
    (p_init (singleKeyPlan INDEX_LOOKUP_TYPE_GT) [] staleStorage).1 = true ∧
    executorAfterInit (singleKeyPlan INDEX_LOOKUP_TYPE_GT)
      (p_init (singleKeyPlan INDEX_LOOKUP_TYPE_GT) [] staleStorage).2 = some singleKeyExecutor ∧
    buildSearchKeyNDEBUG singleKeyExecutor.keySetNValue [.integer (-200)]
        singleKeyExecutor.searchKeyExpressions 0
        (initialKeyState singleKeyExecutor (freshState 1 2)) = (none, droppedKeyState) ∧
    droppedKeyState.activeNumOfSearchKeys = 0 ∧ droppedKeyState.keyException = false ∧
    (processOuterTupleNDEBUG singleKeyExecutor [.integer (-200)] (freshState 1 2)).1 = none ∧
    (processOuterTupleNDEBUG singleKeyExecutor [.integer (-200)] (freshState 1 2)).2.trace =
      [.moveToGreaterThanKey [.null], .nextValue (some [.integer 1]),
        .nextValue (some [.integer 2]), .nextValue (some [.integer 3]), .nextValue none] ∧
    (positionBySpec singleKeyExecutor droppedKeyState (freshState 1 2)).map (fun s => s.trace) =
      some [.moveToEnd true] :=
  ⟨by decide, rfl, by decide, rfl, rfl, by decide, by decide, by decide⟩

/-- C13, amended.  When key construction succeeds for an outer tuple, in a build
with or without the assertion of line 264, the iterator is positioned by the
number of search keys of the plan and the per-tuple, possibly degraded, lookup
kind and sort direction: if the plan has search keys, EQ calls `moveToKey`, GT
`moveToGreaterThanKey` and GTE `moveToKeyOrGreater` on the search-key buffer; if
it has none, `moveToEnd` is called with `true` exactly when the local sort
direction is not DESC.  The call is the first one made on the index for the
outer tuple.  The number of active keys is positive exactly when the plan has
search keys, except when the one key of a one-key plan was dropped, which leaves
no active key under GT; with the assertion compiled in this does not occur, and
positioning is then also by the number of active keys. -/
theorem iterator_positioned_by_plan_keys (ex : NestLoopIndexExecutor σ) (o : TableTuple)
    (st : ExecState σ) (ks : KeyState)
    (hbuilt :
      buildSearchKey ex.keySetNValue o ex.searchKeyExpressions 0 (initialKeyState ex st) =
        (none, ks) ∨
      buildSearchKeyNDEBUG ex.keySetNValue o ex.searchKeyExpressions 0
        (initialKeyState ex st) = (none, ks))
    (hk : ks.keyException = false) :
    (0 < ex.searchKeyExpressions.length → ks.localLookupType = INDEX_LOOKUP_TYPE_EQ →
      ∃ rest, (processOuterTupleNDEBUG ex o st).2.trace =
        st.trace ++ .moveToKey ks.index_values :: rest) ∧
    (0 < ex.searchKeyExpressions.length → ks.localLookupType = INDEX_LOOKUP_TYPE_GT →
      ∃ rest, (processOuterTupleNDEBUG ex o st).2.trace =
        st.trace ++ .moveToGreaterThanKey ks.index_values :: rest) ∧
    (0 < ex.searchKeyExpressions.length → ks.localLookupType = INDEX_LOOKUP_TYPE_GTE →
      ∃ rest, (processOuterTupleNDEBUG ex o st).2.trace =
        st.trace ++ .moveToKeyOrGreater ks.index_values :: rest) ∧
    (ex.searchKeyExpressions.length = 0 →
      ∃ rest, (processOuterTupleNDEBUG ex o st).2.trace =
        st.trace ++
          .moveToEnd (decide (ks.localSortDirection ≠ SORT_DIRECTION_TYPE_DESC)) :: rest) ∧
    ((0 < ks.activeNumOfSearchKeys ↔ 0 < ex.searchKeyExpressions.length) ∨
      (ex.searchKeyExpressions.length = 1 ∧ ks.activeNumOfSearchKeys = 0 ∧
        ks.localLookupType = INDEX_LOOKUP_TYPE_GT)) ∧
    (buildSearchKey ex.keySetNValue o ex.searchKeyExpressions 0 (initialKeyState ex st) =
        (none, ks) →
      (0 < ks.activeNumOfSearchKeys ↔ 0 < ex.searchKeyExpressions.length) ∧
      processOuterTuple ex o st = processOuterTupleNDEBUG ex o st ∧
      positionIndex ex ks { st with index_values := ks.index_values } =
        positionBySpec ex ks { st with index_values := ks.index_values }) := by
  have hb : buildSearchKeyNDEBUG ex.keySetNValue o ex.searchKeyExpressions 0
      (initialKeyState ex st) = (none, ks) := by
    rcases hbuilt with h | h
    · rw [buildSearchKeyNDEBUG_eq ex.keySetNValue o _ _ _ (by rw [h]; simp)]
      exact h
    · exact h
  have hstart : ∀ st1, positionIndex ex ks { st with index_values := ks.index_values } = some st1 →
      ∃ rest, (processOuterTupleNDEBUG ex o st).2.trace = st1.trace ++ rest := by
    intro st1 hp
    rw [processOuterTupleNDEBUG_scanned ex o st st1 ks hb hk hp]
    exact scanInner_trace ex ks o st1
  refine ⟨?_, ?_, ?_, ?_, ?_, ?_⟩
  · intro hpos hl
    have hp : positionIndex ex ks { st with index_values := ks.index_values } =
        some { st with
          index_values := ks.index_values
          cursor := ex.index.moveToKey ks.index_values st.cursor
          trace := st.trace ++ [.moveToKey ks.index_values] } := by
      simp only [positionIndex, gt_iff_lt, if_pos hpos, hl]
    obtain ⟨rest, h⟩ := hstart _ hp
    exact ⟨rest, by rw [h]; simp⟩
  · intro hpos hl
    have hp : positionIndex ex ks { st with index_values := ks.index_values } =
        some { st with
          index_values := ks.index_values
          cursor := ex.index.moveToGreaterThanKey ks.index_values st.cursor
          trace := st.trace ++ [.moveToGreaterThanKey ks.index_values] } := by
      simp only [positionIndex, gt_iff_lt, if_pos hpos, hl]
    obtain ⟨rest, h⟩ := hstart _ hp
    exact ⟨rest, by rw [h]; simp⟩
  · intro hpos hl
    have hp : positionIndex ex ks { st with index_values := ks.index_values } =
        some { st with
          index_values := ks.index_values
          cursor := ex.index.moveToKeyOrGreater ks.index_values st.cursor
          trace := st.trace ++ [.moveToKeyOrGreater ks.index_values] } := by
      simp only [positionIndex, gt_iff_lt, if_pos hpos, hl]
    obtain ⟨rest, h⟩ := hstart _ hp
    exact ⟨rest, by rw [h]; simp⟩
  · intro hzero
    have hp : positionIndex ex ks { st with index_values := ks.index_values } =
        some { st with
          index_values := ks.index_values
          cursor := ex.index.moveToEnd
            (decide (ks.localSortDirection ≠ SORT_DIRECTION_TYPE_DESC)) st.cursor
          trace := st.trace ++
            [.moveToEnd (decide (ks.localSortDirection ≠ SORT_DIRECTION_TYPE_DESC))] } := by
      simp only [positionIndex, hzero, gt_iff_lt, Nat.lt_irrefl, if_false]
    obtain ⟨rest, h⟩ := hstart _ hp
    exact ⟨rest, by rw [h]; simp⟩
  · have h0 : (initialKeyState ex st).activeNumOfSearchKeys = ex.searchKeyExpressions.length :=
      rfl
    rcases buildSearchKeyNDEBUG_none ex.keySetNValue o ex.searchKeyExpressions 0
      (initialKeyState ex st) ks hb with h | ⟨h, hl⟩
    · left
      rw [h, h0]
    · rw [h0] at h
      by_cases h1 : ex.searchKeyExpressions.length = 1
      · right
        exact ⟨h1, by omega, hl⟩
      · left
        omega
  · intro hdebug
    have hiff := active_keys_pos_iff ex o st ks hdebug
    refine ⟨hiff, ?_, ?_⟩
    · exact (processOuterTupleNDEBUG_eq ex o st (by rw [hdebug]; simp)).symm
    · unfold positionIndex positionBySpec
      by_cases hpos : 0 < ex.searchKeyExpressions.length
      · rw [if_pos hpos, if_pos (hiff.mpr hpos)]
      · rw [if_neg hpos, if_neg (fun h => hpos (hiff.mp h))]

/-- The one-key plan under GT and the outer tuple (-200), without the assertion:
the one key is dropped, and the iterator is positioned with
`moveToGreaterThanKey` on the key buffer (NULL).  The plan of scenario S3 under
GTE and the outer tuple (5, -200), in either build: the locals are degraded to
GT on one key, and the iterator is positioned with `moveToGreaterThanKey` on the
key buffer (5, NULL). -/
theorem iterator_positioned_by_plan_keys_witness :
    (buildSearchKeyNDEBUG singleKeyExecutor.keySetNValue [.integer (-200)]
        singleKeyExecutor.searchKeyExpressions 0
        (initialKeyState singleKeyExecutor (freshState 1 2)) = (none, droppedKeyState) ∧
      ∃ rest, (processOuterTupleNDEBUG singleKeyExecutor [.integer (-200)]
          (freshState 1 2)).2.trace =
        (freshState 1 2).trace ++ .moveToGreaterThanKey [.null] :: rest) ∧
    ∃ rest, (processOuterTupleNDEBUG (s3Executor JOIN_TYPE_INNER INDEX_LOOKUP_TYPE_GTE)
        [.integer 5, .integer (-200)] (freshState 2 4)).2.trace =
      (freshState 2 4).trace ++ .moveToGreaterThanKey [.integer 5, .null] :: rest :=
  ⟨⟨by decide,
      (iterator_positioned_by_plan_keys singleKeyExecutor [.integer (-200)] (freshState 1 2)
        droppedKeyState (Or.inr (by decide)) rfl).2.1 (by decide) rfl⟩,
    (iterator_positioned_by_plan_keys (s3Executor JOIN_TYPE_INNER INDEX_LOOKUP_TYPE_GTE)
      [.integer 5, .integer (-200)] (freshState 2 4)
      { activeNumOfSearchKeys := 1
        localLookupType := INDEX_LOOKUP_TYPE_GT
        localSortDirection := SORT_DIRECTION_TYPE_ASC
        keyException := false
        index_values := [.integer 5, .null] } (Or.inl (by decide)) rfl).2.1 (by decide) rfl⟩

/-- C14, as stated, fails: under EQ with zero search keys it is not so that only
`nextValue` is consulted; `nextValueAtKey` is called before every `nextValue`. -/
theorem zero_key_EQ_fetch_counterexample :
    ¬ ((p_execute zeroKeyExecutor [[.integer 1, .varchar "a"]]
      (freshState 1 3)).2.trace.all (fun c => !c.isNextValueAtKey) = true) := by
  decide

/-- C14, amended.  Under a local lookup kind other than EQ each evaluation of
the loop condition calls `nextValue` alone.  Under EQ it calls `nextValueAtKey`
first: with search keys in the plan that is its only call, and under EQ with
zero search keys `nextValue` is consulted as well exactly when `nextValueAtKey`
returned the null tuple.  Over a whole inner loop, a lookup kind other than EQ
never consults `nextValueAtKey` and EQ with search keys never consults
`nextValue`. -/
theorem fetch_calls_by_lookup_kind (ex : NestLoopIndexExecutor σ) (ks : KeyState)
    (o : TableTuple) :
    (∀ st : ExecState σ, ks.localLookupType ≠ INDEX_LOOKUP_TYPE_EQ →
      (nextInnerTuple ex ks st).2.trace =
        st.trace ++ [.nextValue (nextInnerTuple ex ks st).1]) ∧
    (∀ st : ExecState σ, ks.localLookupType = INDEX_LOOKUP_TYPE_EQ →
      0 < ex.searchKeyExpressions.length →
      (nextInnerTuple ex ks st).2.trace =
        st.trace ++ [.nextValueAtKey (nextInnerTuple ex ks st).1]) ∧
    (∀ st : ExecState σ, ks.localLookupType = INDEX_LOOKUP_TYPE_EQ →
      ex.searchKeyExpressions.length = 0 →
      (nextInnerTuple ex ks st).2.trace =
          st.trace ++ [.nextValueAtKey (nextInnerTuple ex ks st).1] ∧
        (nextInnerTuple ex ks st).1 ≠ none ∨
      (nextInnerTuple ex ks st).2.trace =
          st.trace ++ [.nextValueAtKey none, .nextValue (nextInnerTuple ex ks st).1]) ∧
    (ks.localLookupType ≠ INDEX_LOOKUP_TYPE_EQ → ∀ (n : Nat) (m : Bool) (st : ExecState σ),
      ∃ calls, (scanLoop ex ks o n m st).2.2.trace = st.trace ++ calls ∧
        ∀ c ∈ calls, c.isNextValue = true) ∧
    (ks.localLookupType = INDEX_LOOKUP_TYPE_EQ → 0 < ex.searchKeyExpressions.length →
      ∀ (n : Nat) (m : Bool) (st : ExecState σ),
      ∃ calls, (scanLoop ex ks o n m st).2.2.trace = st.trace ++ calls ∧
        ∀ c ∈ calls, c.isNextValueAtKey = true) := by
  refine ⟨fun st => (nextInnerTuple_calls ex ks st).1,
    fun st => (nextInnerTuple_calls ex ks st).2.1,
    fun st => (nextInnerTuple_calls ex ks st).2.2, ?_, ?_⟩
  · intro hne
    exact scanLoop_calls ex ks o (fun c => c.isNextValue = true)
      (fun st => ⟨_, (nextInnerTuple_calls ex ks st).1 hne, by simp [IndexCall.isNextValue]⟩)
  · intro hEQ hK
    exact scanLoop_calls ex ks o (fun c => c.isNextValueAtKey = true)
      (fun st => ⟨_, (nextInnerTuple_calls ex ks st).2.1 hEQ hK,
        by simp [IndexCall.isNextValueAtKey]⟩)

/-- In scenario S1 (EQ with one search key) the calls made after positioning are
all `nextValueAtKey`; in the plan without search keys under EQ the two calls
alternate. -/
theorem fetch_calls_by_lookup_kind_witness :
    (∃ calls, (scanLoop (s1Executor JOIN_TYPE_INNER)
        { activeNumOfSearchKeys := 1
          localLookupType := INDEX_LOOKUP_TYPE_EQ
          localSortDirection := SORT_DIRECTION_TYPE_INVALID
          keyException := false
          index_values := [.integer 1] } [.integer 1, .varchar "a"] 2 false
        { freshState 1 3 with cursor := { scan := [[.integer 1]], atKey := [[.integer 1]] } }
        ).2.2.trace = [] ++ calls ∧ ∀ c ∈ calls, c.isNextValueAtKey = true) ∧
    (p_execute zeroKeyExecutor [[.integer 1, .varchar "a"]] (freshState 1 3)).2.trace =
      [.moveToEnd true, .nextValueAtKey none, .nextValue (some [.integer 1]),
        .nextValueAtKey none, .nextValue (some [.integer 2]),
        .nextValueAtKey none, .nextValue (some [.integer 3]),
        .nextValueAtKey none, .nextValue none] :=
  ⟨(fetch_calls_by_lookup_kind (s1Executor JOIN_TYPE_INNER)
      { activeNumOfSearchKeys := 1
        localLookupType := INDEX_LOOKUP_TYPE_EQ
        localSortDirection := SORT_DIRECTION_TYPE_INVALID
        keyException := false
        index_values := [.integer 1] } [.integer 1, .varchar "a"]).2.2.2.2 rfl (by decide)
      2 false { freshState 1 3 with cursor := { scan := [[.integer 1]], atKey := [[.integer 1]] } },
    by decide⟩

/-- C15 (LT and LTE at scan entry).  Under lookup kind LT or LTE with at least
one search key, at the first outer tuple whose key construction succeeds (the
outer tuples before it having set `keyException`) `p_execute` returns false:
no call has been made on the index and no exception leaves it.  In every run,
`p_execute` returns true unless it returns false in that case, an exception of
key assignment leaves it, the assertion of line 264 stops it (one search key,
lookup kind other than EQ), or an output expression is missing for an inner
column. -/
theorem LT_lookup_returns_false (ex : NestLoopIndexExecutor σ) :
    ((ex.m_lookupType = INDEX_LOOKUP_TYPE_LT ∨ ex.m_lookupType = INDEX_LOOKUP_TYPE_LTE) →
      0 < ex.searchKeyExpressions.length →
      ∀ (pre : List TableTuple) (o : TableTuple) (rest : List TableTuple) (st : ExecState σ),
        (∀ o' ∈ pre, ∀ st' : ExecState σ, ∃ ks,
          buildSearchKey ex.keySetNValue o' ex.searchKeyExpressions 0 (initialKeyState ex st')
            = (none, ks) ∧ ks.keyException = true) →
        (∀ st' : ExecState σ, ∃ ks,
          buildSearchKey ex.keySetNValue o ex.searchKeyExpressions 0 (initialKeyState ex st')
            = (none, ks) ∧ ks.keyException = false) →
        (p_execute ex (pre ++ o :: rest) st).1 = .returned false ∧
        (p_execute ex (pre ++ o :: rest) st).2.trace = st.trace ∧
        (p_execute ex (pre ++ o :: rest) st).2.cursor = st.cursor) ∧
    (∀ (outer_table : List TableTuple) (st : ExecState σ),
      (p_execute ex outer_table st).1 = .returned true ∨
      ((p_execute ex outer_table st).1 = .returned false ∧
        (ex.m_lookupType = INDEX_LOOKUP_TYPE_LT ∨ ex.m_lookupType = INDEX_LOOKUP_TYPE_LTE) ∧
        0 < ex.searchKeyExpressions.length) ∨
      (∃ e, (p_execute ex outer_table st).1 = .threw e) ∨
      ((p_execute ex outer_table st).1 = .assertionFailed ∧
        ex.searchKeyExpressions.length = 1 ∧ ex.m_lookupType ≠ INDEX_LOOKUP_TYPE_EQ) ∨
      ((p_execute ex outer_table st).1 = .outOfBounds ∧
        ex.m_outputExpressions.length < ex.num_of_inner_cols)) := by
  refine ⟨?_, p_execute_outcome ex⟩
  intro hl hK pre o rest st hskip hsucc
  obtain ⟨st1, h1, h2, h3⟩ := p_execute_skip ex pre st hskip
  obtain ⟨ks, hb, hk⟩ := hsucc st1
  have hp := processOuterTuple_LT ex o st1 ks hl hK hb hk
  have hrun : p_execute ex (o :: rest) st1 =
      (.returned false, { st1 with index_values := ks.index_values }) := by
    simp only [p_execute, hp]
  rw [h3 (o :: rest), hrun]
  exact ⟨rfl, h1, h2⟩

/-- The plan of scenario S3 with LT: the outer tuple (200, 5) sets `keyException`
(overflow in the first key column), and at (5, 1), whose key is built,
`p_execute` returns false without a call on the index; (6, 1) is not reached. -/
theorem LT_lookup_returns_false_witness :
    (p_execute (s3Executor JOIN_TYPE_INNER INDEX_LOOKUP_TYPE_LT)
      ([[.integer 200, .integer 5]] ++ [.integer 5, .integer 1] :: [[.integer 6, .integer 1]])
      (freshState 2 4)).1 = .returned false ∧
    (p_execute (s3Executor JOIN_TYPE_INNER INDEX_LOOKUP_TYPE_LT)
      ([[.integer 200, .integer 5]] ++ [.integer 5, .integer 1] :: [[.integer 6, .integer 1]])
      (freshState 2 4)).2.trace = (freshState 2 4).trace ∧
    (p_execute (s3Executor JOIN_TYPE_INNER INDEX_LOOKUP_TYPE_LT)
      ([[.integer 200, .integer 5]] ++ [.integer 5, .integer 1] :: [[.integer 6, .integer 1]])
      (freshState 2 4)).2.cursor = (freshState 2 4).cursor :=
  (LT_lookup_returns_false (s3Executor JOIN_TYPE_INNER INDEX_LOOKUP_TYPE_LT)).1
    (Or.inl rfl) (by decide) [[.integer 200, .integer 5]] [.integer 5, .integer 1]
    [[.integer 6, .integer 1]] (freshState 2 4)
    (fun o' ho' st' => by
      simp only [List.mem_singleton] at ho'
      subst ho'
      obtain ⟨iv, h⟩ := buildSearchKey_first_error
        (s3Executor JOIN_TYPE_INNER INDEX_LOOKUP_TYPE_LT) [.integer 200, .integer 5] st'
        { overflow := true, underflow := false } 0
        (fun i _ hi _ => absurd hi (by omega)) ⟨fun t => t.getNValue 0, rfl, rfl⟩
      rw [handleKeyException_not_last_or_EQ _ 0 _ (Or.inl rfl)
        (Or.inl (by simp [initialKeyState, s3Executor]))] at h
      exact ⟨_, h, rfl⟩)
    (fun st' => by
      obtain ⟨iv, h⟩ := buildSearchKey_all_ok
        (s3Executor JOIN_TYPE_INNER INDEX_LOOKUP_TYPE_LT).keySetNValue [.integer 5, .integer 1]
        (s3Executor JOIN_TYPE_INNER INDEX_LOOKUP_TYPE_LT).searchKeyExpressions 0
        (initialKeyState (s3Executor JOIN_TYPE_INNER INDEX_LOOKUP_TYPE_LT) st')
        (fun i expr hx => by
          have hi : i = 0 ∨ i = 1 := by
            have : i < 2 := by
              by_contra hcon
              have : (s3Executor JOIN_TYPE_INNER INDEX_LOOKUP_TYPE_LT).searchKeyExpressions[i]?
                  = none := List.getElem?_eq_none (by simp [s3Executor]; omega)
              rw [this] at hx
              exact absurd hx (by simp)
            omega
          rcases hi with hi | hi <;> subst hi <;> simp [s3Executor] at hx <;> subst hx
          · exact ⟨.integer 5, rfl⟩
          · exact ⟨.integer 1, rfl⟩)
      exact ⟨_, h, rfl⟩)

/-- C16 (`p_init`).  `p_init` returns false if and only if some search-key
expression slot of the plan is NULL or the target index name resolves to no
index of the inner table; otherwise, also with zero search keys, it returns
true.  The join kind, lookup kind and sort direction of the plan are cached in
either case, and on true the index is held and, whatever the fresh storage of
the search-key buffer held, the buffer has the columns of the key schema of the
index and every column of it is NULL. -/
theorem p_init_result (node : NestLoopIndexPlanNode σ)
    (m_outputExpressions0 : List (TableTuple → NValue))
    (index_values_backing_store : Nat → NValue) :
    ((p_init node m_outputExpressions0 index_values_backing_store).1 = false ↔
      (none ∈ node.inlineIndexScan.searchKeyExpressions ∨
        node.inlineIndexScan.targetTable.index node.inlineIndexScan.targetIndexName = none)) ∧
    ((p_init node m_outputExpressions0 index_values_backing_store).1 = true ↔
      ((∀ slot ∈ node.inlineIndexScan.searchKeyExpressions, slot ≠ none) ∧
        node.inlineIndexScan.targetTable.index node.inlineIndexScan.targetIndexName ≠ none)) ∧
    (p_init node m_outputExpressions0 index_values_backing_store).2.join_type =
      node.joinType ∧
    (p_init node m_outputExpressions0 index_values_backing_store).2.m_lookupType =
      node.inlineIndexScan.lookupType ∧
    (p_init node m_outputExpressions0 index_values_backing_store).2.m_sortDirection =
      node.inlineIndexScan.sortDirection ∧
    ((p_init node m_outputExpressions0 index_values_backing_store).1 = true →
      ∃ index keySchema buffer,
        node.inlineIndexScan.targetTable.index node.inlineIndexScan.targetIndexName =
          some (index, keySchema) ∧
        (p_init node m_outputExpressions0 index_values_backing_store).2.index =
          some (index, keySchema) ∧
        (p_init node m_outputExpressions0 index_values_backing_store).2.index_values =
          some buffer ∧
        buffer.length = keySchema.columnCount ∧ ∀ v ∈ buffer, v = NValue.null) := by
  have hnull : ∀ l : List (Option (TableTuple → NValue)),
      hasNullSearchKey l = true ↔ none ∈ l := by
    intro l
    induction l with
    | nil => simp [hasNullSearchKey]
    | cons a rest ih =>
      cases a with
      | none => simp [hasNullSearchKey]
      | some e => simp [hasNullSearchKey, ih]
  have hall : (∀ slot ∈ node.inlineIndexScan.searchKeyExpressions, slot ≠ none) ↔
      ¬ (none ∈ node.inlineIndexScan.searchKeyExpressions) :=
    ⟨fun h hm => h none hm rfl, fun h slot hm hs => h (hs ▸ hm)⟩
  rw [hall]
  unfold p_init
  by_cases hk : hasNullSearchKey node.inlineIndexScan.searchKeyExpressions = true
  · have hm := (hnull _).mp hk
    simp [hk, hm]
  · have hm : ¬ (none ∈ node.inlineIndexScan.searchKeyExpressions) :=
      fun h => hk ((hnull _).mpr h)
    cases hi : node.inlineIndexScan.targetTable.index node.inlineIndexScan.targetIndexName with
    | none => simp [hk, hm, hi]
    | some p =>
      obtain ⟨index, keySchema⟩ := p
      simp only [hk, hi, if_false]
      refine ⟨by simp [hm], by simp [hm], rfl, rfl, rfl, fun _ => ?_⟩
      refine ⟨index, keySchema, _, rfl, rfl, rfl, ?_, ?_⟩
      · simp [TableTuple.setAllNulls]
      · intro v hv
        simp only [TableTuple.setAllNulls, List.mem_map] at hv
        obtain ⟨_, _, hv⟩ := hv
        exact hv.symm

/-- The plan of scenario S1 is accepted, with one search key and with none, and
leaves a key buffer of one NULL column where the fresh storage held the integer
7; a NULL search-key slot and an unknown index name are refused. -/
theorem p_init_result_witness :
    (p_init (s1Plan [some (fun o => o.getNValue 0)] "I_IDX") [] staleStorage).1 = true ∧
    (p_init (s1Plan [] "I_IDX") [] staleStorage).1 = true ∧
    (List.range 1).map staleStorage = [NValue.integer 7] ∧
    (p_init (s1Plan [] "I_IDX") [] staleStorage).2.index_values = some [NValue.null] ∧
    (p_init (s1Plan [some (fun o => o.getNValue 0), none] "I_IDX") [] staleStorage).1 = false ∧
    (p_init (s1Plan [] "J_IDX") [] staleStorage).1 = false ∧
    (p_init (s1Plan [] "J_IDX") [] staleStorage).2.join_type = JOIN_TYPE_LEFT :=
  ⟨by decide, by decide, by decide, by decide,
    ((p_init_result (s1Plan [some (fun o => o.getNValue 0), none] "I_IDX") []
      staleStorage).1).mpr (Or.inl (by simp [s1Plan])),
    ((p_init_result (s1Plan [] "J_IDX") [] staleStorage).1).mpr (Or.inr rfl),
    (p_init_result (s1Plan [] "J_IDX") [] staleStorage).2.2.1⟩

/-- C17 (order of the rows).  Within one call of `p_execute` the rows are
inserted outer tuple by outer tuple in outer-iterator order, and for one outer
tuple in the order in which the index yielded their inner tuples: the output
table is what it held followed by one block of rows per outer tuple, in order;
the rows of a block are, in order, the rows emitted for a subsequence of the
inner tuples yielded for that outer tuple (or the one fallback row when none was
yielded under LEFT); so of two rows the one inserted first belongs to an earlier
outer tuple, or to the same outer tuple at an earlier place of its block. -/
theorem rows_in_outer_then_index_order (ex : NestLoopIndexExecutor σ)
    (outer_table : List TableTuple) (st : ExecState σ) :
    (p_execute ex outer_table st).2.output_table =
      st.output_table ++ (rowBlocks ex outer_table st).flatten ∧
    (rowBlocks ex outer_table st).length = outer_table.length ∧
    (∀ (o : TableTuple) (st1 : ExecState σ),
      ∃ ts, List.Sublist ts (yieldedTuples (callsFor ex o st1)) ∧
        (List.Forall₂ (EmittedFor ex o) ts (rowsAddedFor ex o st1) ∨
          (yieldedTuples (callsFor ex o st1) = [] ∧ ex.join_type = JOIN_TYPE_LEFT ∧
            ∃ row, rowsAddedFor ex o st1 = [row]))) ∧
    (∀ p1 p2, p1 < p2 → p2 < (rowBlocks ex outer_table st).flatten.length →
      ∃ i1 j1 i2 j2, i1 < outer_table.length ∧ i2 < outer_table.length ∧
        j1 < ((rowBlocks ex outer_table st).getD i1 []).length ∧
        j2 < ((rowBlocks ex outer_table st).getD i2 []).length ∧
        p1 = blockOffset (rowBlocks ex outer_table st) i1 + j1 ∧
        p2 = blockOffset (rowBlocks ex outer_table st) i2 + j2 ∧
        (p_execute ex outer_table st).2.output_table[st.output_table.length + p1]? =
          ((rowBlocks ex outer_table st).getD i1 [])[j1]? ∧
        (p_execute ex outer_table st).2.output_table[st.output_table.length + p2]? =
          ((rowBlocks ex outer_table st).getD i2 [])[j2]? ∧
        (i1 < i2 ∨ (i1 = i2 ∧ j1 < j2))) := by
  obtain ⟨hout, hlen⟩ := p_execute_rowBlocks ex outer_table st
  refine ⟨hout, hlen, fun o st1 => (rowsAddedFor_spec ex o st1).2.2, ?_⟩
  intro p1 p2 hlt hp2
  obtain ⟨i1, j1, a1, a2, a3, a4⟩ :=
    flatten_position (rowBlocks ex outer_table st) p1 (by omega)
  obtain ⟨i2, j2, b1, b2, b3, b4⟩ := flatten_position (rowBlocks ex outer_table st) p2 hp2
  refine ⟨i1, j1, i2, j2, by omega, by omega, a2, b2, a3, b3, ?_, ?_, ?_⟩
  · rw [hout, List.getElem?_append_right (by omega)]
    simpa using a4
  · rw [hout, List.getElem?_append_right (by omega)]
    simpa using b4
  · exact block_position_order (rowBlocks ex outer_table st) i1 j1 i2 j2 b2 b1
      (by omega)

/-- Scenario S6 with end expression `inner.key <= 10` and the outer tuples (5),
(11), (8): the blocks of rows are those of keys 5 and 8 for (5), none for (11),
and that of key 8 for (8). -/
theorem rows_in_outer_then_index_order_witness :
    rowBlocks (s6Executor innerKeyAtMost10) [[.integer 5], [.integer 11], [.integer 8]]
        (freshState 1 2) =
      [[[.integer 5, .integer 5], [.integer 5, .integer 8]], [],
        [[.integer 8, .integer 8]]] ∧
    (p_execute (s6Executor innerKeyAtMost10) [[.integer 5], [.integer 11], [.integer 8]]
        (freshState 1 2)).2.output_table =
      (freshState 1 2).output_table ++
        (rowBlocks (s6Executor innerKeyAtMost10) [[.integer 5], [.integer 11], [.integer 8]]
          (freshState 1 2)).flatten :=
  ⟨by decide,
    (rows_in_outer_then_index_order (s6Executor innerKeyAtMost10)
      [[.integer 5], [.integer 11], [.integer 8]] (freshState 1 2)).1⟩

/-- C18 (order of the deferred free set).  `SizePtrPairComparator` orders
(size, pointer) pairs lexicographically, size first and address second: it
returns -1 exactly when the first size is smaller, or the sizes are equal and
the first address is lower; +1 exactly in the mirrored cases; and 0 exactly
when sizes and addresses are equal. -/
theorem SizePtrPairComparator_lexicographic (v1 v2 : SizePtrPair) :
    (SizePtrPairComparator v1 v2 = -1 ↔ v1.1 < v2.1 ∨ (v1.1 = v2.1 ∧ v1.2 < v2.2)) ∧
    (SizePtrPairComparator v1 v2 = 1 ↔ v2.1 < v1.1 ∨ (v1.1 = v2.1 ∧ v2.2 < v1.2)) ∧
    (SizePtrPairComparator v1 v2 = 0 ↔ v1.1 = v2.1 ∧ v1.2 = v2.2) := by
  unfold SizePtrPairComparator
  rcases lt_trichotomy v1.1 v2.1 with h | h | h
  · have h' : ¬ v2.1 < v1.1 := by omega
    have h'' : ¬ v1.1 = v2.1 := by omega
    simp [h, h', h'']
  · rcases lt_trichotomy v1.2 v2.2 with g | g | g
    · have g' : ¬ v2.2 < v1.2 := by omega
      have g'' : ¬ v1.2 = v2.2 := by omega
      simp [h, g, g', g'']
    · simp [h, g]
    · have g' : ¬ v1.2 < v2.2 := by omega
      have g'' : ¬ v1.2 = v2.2 := by omega
      simp [h, g, g', g'']
  · have h' : ¬ v1.1 < v2.1 := by omega
    have h'' : ¬ v1.1 = v2.1 := by omega
    simp [h, h', h'']

/-- C19.  Relocation correctness: after any sequence `S` of `allocateRelocatable`
and `freeRelocatable` operations within the contract of the callers, run on a
fresh pool in immediate mode or in deferred mode, or inside the scope of a guard
up to its destruction, every operation succeeds, and for every surviving payload
the caller's registered referrer slot holds the current address of the payload,
and the payload is, with its size prefix `m_size` equal to the size passed, one
of the allocations of `S` that `S` has not freed. -/
theorem relocation_correctness (cfg : PoolConfig) (S : List PoolOp) (m : Bool)
    (h : respectsContract cfg [] S = true) :
    (∃ p, runOps { emptyPool cfg with deferredRelease := m } S = some p ∧
      RelocationCorrect S p) ∧
    (∃ p, runGuarded (emptyPool cfg) S = some p ∧ RelocationCorrect S p) := by
  constructor
  · obtain ⟨q, hq, hqinv, _, _, hqs⟩ := runOps_spec S
      { emptyPool cfg with deferredRelease := m } [] ((emptyPool_inv cfg).setMode m)
      (fun _ => rfl) (by rw [emptyPool_survivors]) (by simp) h
    exact ⟨q, hq, relocationCorrect_of_inv S q hqinv hqs⟩
  · obtain ⟨q, hq, hqinv, _, _, hqs⟩ := runGuarded_spec cfg S h
    exact ⟨q, hq, relocationCorrect_of_inv S q hqinv hqs⟩

/-- Witness of C19: scenario S4 on the table of two size classes. -/
theorem relocation_correctness_witness :
    respectsContract twoClasses [] s4Ops = true ∧
    (∃ p, runOps { emptyPool twoClasses with deferredRelease := false } s4Ops = some p ∧
      RelocationCorrect s4Ops p) ∧
    (∃ p, runGuarded (emptyPool twoClasses) s4Ops = some p ∧ RelocationCorrect s4Ops p) :=
  ⟨by decide, relocation_correctness twoClasses s4Ops false (by decide)⟩

/-- C20.  Deferred-mode equivalence: for every sequence `S` of
`allocateRelocatable` and `freeRelocatable` operations within the contract of
the callers, the run of `S` in immediate release mode and the run of the same
`S` inside a `ScopedPoolDeferredReleaseMode` guard, once the guard has been
destroyed, both succeed and leave the same multiset of surviving payloads, by
content and by referrer slot address; after the guard the pool is in immediate
mode again and its deferred free set is empty. -/
theorem deferred_mode_equivalence (cfg : PoolConfig) (S : List PoolOp)
    (h : respectsContract cfg [] S = true) :
    ∃ p1 p2, runOps (emptyPool cfg) S = some p1 ∧ runGuarded (emptyPool cfg) S = some p2 ∧
      p2.deferredRelease = false ∧ p2.deferredFrees = [] ∧
      (survivors p1 : Multiset PoolSlot) = (survivors p2 : Multiset PoolSlot) := by
  obtain ⟨p1, h1, _, _, _, hs1⟩ := runOps_spec S (emptyPool cfg) [] (emptyPool_inv cfg)
    (fun _ => rfl)
    (by have h0 : survivors (emptyPool cfg) = [] := emptyPool_survivors cfg false
        rw [h0]) (by simp) h
  obtain ⟨p2, h2, _, hm2, hT2, hs2⟩ := runGuarded_spec cfg S h
  exact ⟨p1, p2, h1, h2, hm2, hT2, hs1.trans hs2.symm⟩

/-- Witness of C20: scenario S5 on the table of two size classes. -/
theorem deferred_mode_equivalence_witness :
    respectsContract twoClasses [] s5Ops = true ∧
    ∃ p1 p2, runOps (emptyPool twoClasses) s5Ops = some p1 ∧
      runGuarded (emptyPool twoClasses) s5Ops = some p2 ∧
      p2.deferredRelease = false ∧ p2.deferredFrees = [] ∧
      (survivors p1 : Multiset PoolSlot) = (survivors p2 : Multiset PoolSlot) :=
  ⟨by decide, deferred_mode_equivalence twoClasses s5Ops (by decide)⟩

/-- C21 (bookkeeping of `Catalog::execute`).  After an `execute` of a batch of
delta commands on any catalog, whatever the marks and deleted paths that
earlier batches left: an item of the catalog has `wasAdded()` true exactly when
the batch has added its path; an item the batch deleted, and did not add again
afterwards, is absent from its parent collection; and the deleted paths, and
with them the result of `getDeletedPaths`, are exactly the paths of the `delete`
commands of the batch, in order. -/
theorem catalog_execute_bookkeeping (c c1 : Catalog) (batch : List CatalogCommand)
    (h : c.execute batch = some c1) :
    (∀ it ∈ c1.items, it.wasAdded = true ↔ ∃ cmd ∈ batch, cmd.addedPath = some it.path) ∧
    (∀ (pre post : List CatalogCommand) (ref : CatalogPath) (collection name : String),
      batch = pre ++ CatalogCommand.delete ref collection name :: post →
      (∀ later ∈ post, later.addedPath ≠ some (ref ++ [(collection, name)])) →
      c1.contains (ref ++ [(collection, name)]) = false ∧
      ∀ it ∈ c1.collection ref collection, it.path ≠ ref ++ [(collection, name)]) ∧
    c1.deletions = batch.filterMap CatalogCommand.deletedPath ∧
    c1.getDeletedPaths = (batch.filterMap CatalogCommand.deletedPath).map CatalogPath.text := by
  unfold Catalog.execute at h
  have hdel : c1.deletions = batch.filterMap CatalogCommand.deletedPath := by
    have := Catalog.executeAll_deletions batch _ c1 h
    simpa [Catalog.cleanupExecutionBookkeeping] using this
  refine ⟨?_, ?_, hdel, by rw [Catalog.getDeletedPaths, hdel]⟩
  · have := Catalog.executeAll_marks batch _ c1 [] h (by
      intro it hit
      simp only [Catalog.cleanupExecutionBookkeeping, List.mem_map] at hit
      obtain ⟨it0, -, he⟩ := hit
      subst he
      simp)
    simpa using this
  · intro pre post ref collection name hb hlater
    subst hb
    rw [Catalog.executeAll_append] at h
    cases h1 : c.cleanupExecutionBookkeeping.executeAll pre with
    | none => rw [h1] at h; simp at h
    | some c2 =>
      rw [h1] at h
      simp only [Option.some_bind, Catalog.executeAll] at h
      cases h2 : c2.executeOne (CatalogCommand.delete ref collection name) with
      | none => rw [h2] at h; simp at h
      | some c3 =>
        rw [h2] at h
        have habs := Catalog.executeAll_absent post c3 c1 _ h hlater
          (Catalog.executeOne_deleted c2 c3 _ _ h2 rfl)
        constructor
        · cases hcon : c1.contains (ref ++ [(collection, name)]) with
          | false => rfl
          | true =>
            obtain ⟨it, hit, he⟩ := (Catalog.contains_child c1 ref (collection, name)).mp hcon
            exact absurd he (habs it hit)
        · intro it hit
          exact habs it (List.mem_of_mem_filter hit)

/-- The tests `WasAddedFlagCleared` and `DeletionsSetCleared`: the batch that
deletes table A, after the batches of tables A and B.  Table B is the one table
left, its mark from the earlier batch is cleared, and the deleted paths are the
path of table A alone; after the further batch that deletes table B they are
the path of table B alone. -/
theorem catalog_execute_bookkeeping_witness :
    testCatalogAB.execute (tableDeleteCmd "tableA") = some testCatalogB ∧
    (testCatalogAB.collection testDatabase "tables").map
        (fun it => (it.path.text, it.wasAdded)) =
      [("/clusters[cluster]/databases[database]/tables[tableA]", false),
        ("/clusters[cluster]/databases[database]/tables[tableB]", true)] ∧
    (testCatalogB.collection testDatabase "tables").map
        (fun it => (it.path.text, it.wasAdded)) =
      [("/clusters[cluster]/databases[database]/tables[tableB]", false)] ∧
    testCatalogB.getDeletedPaths = ["/clusters[cluster]/databases[database]/tables[tableA]"] ∧
    testCatalogB.contains (testDatabase ++ [("tables", "tableA")]) = false ∧
    (testCatalogB.execute (tableDeleteCmd "tableB")).map Catalog.getDeletedPaths =
      some ["/clusters[cluster]/databases[database]/tables[tableB]"] :=
  ⟨by decide, by decide, by decide,
    (catalog_execute_bookkeeping testCatalogAB testCatalogB (tableDeleteCmd "tableA")
      (by decide)).2.2.2.trans (by decide),
    ((catalog_execute_bookkeeping testCatalogAB testCatalogB (tableDeleteCmd "tableA")
      (by decide)).2.1 [] [] testDatabase "tables" "tableA" rfl (by simp)).1,
    by decide⟩

/-- C22 (the left-outer fallback).  For every outer tuple the block of the
left-outer fallback (lines 422-434) is entered if and only if the join kind is
LEFT and the index iterator yielded no inner tuple for the outer tuple, because
of a key error or because the first fetch returned the null tuple; that is, if
and only if the join kind is LEFT, the loop body runs to its end and the
iterator yielded nothing.  `match` is set at the fallback test exactly when the
iterator yielded an inner tuple, also one that the end expression or the post
expression rejected, and then the fallback is not entered.  The rows inserted
for the outer tuple are rows emitted for yielded inner tuples, followed by the
one row of the fallback when it is entered: at most one fallback row. -/
theorem left_outer_fallback_iff (ex : NestLoopIndexExecutor σ) (o : TableTuple)
    (st : ExecState σ) :
    (fallbackTaken ex o st = true ↔
      ex.join_type = JOIN_TYPE_LEFT ∧
        (keyErrorFor ex o st = true ∨ firstFetchFor ex o st = some none)) ∧
    (fallbackTaken ex o st = true ↔
      ex.join_type = JOIN_TYPE_LEFT ∧ (processOuterTuple ex o st).1 = none ∧
        yieldedFor ex o st = 0) ∧
    (matchAtFallback ex o st = some true ↔
      (processOuterTuple ex o st).1 = none ∧ 0 < yieldedFor ex o st) ∧
    ∃ ts rows jt, List.Sublist ts (yieldedTuples (callsFor ex o st)) ∧
      List.Forall₂ (EmittedFor ex o) ts rows ∧
      rowsAddedFor ex o st = rows ++
        (if fallbackTaken ex o st = true then
          [nullInnerColumns ex.num_of_outer_cols ex.num_of_inner_cols jt] else []) := by
  obtain ⟨calls, rows, ts, jt, h1, h2, h3, h4, h5, h6, h7, h8⟩ :=
    processOuterTuple_fallback ex o st
  have hy : yieldedFor ex o st = yieldCount calls := by simp [yieldedFor, h1]
  have hcalls : callsFor ex o st = calls := by simp [callsFor, h1]
  have hrows : rowsAddedFor ex o st = rows ++
      (if fallbackTaken ex o st = true then
        [nullInnerColumns ex.num_of_outer_cols ex.num_of_inner_cols jt] else []) := by
    simp [rowsAddedFor, h2]
  have hft : fallbackTaken ex o st = true ↔
      matchAtFallback ex o st = some false ∧ ex.join_type = JOIN_TYPE_LEFT := by
    unfold fallbackTaken
    cases hm : matchAtFallback ex o st with
    | none => simp
    | some m => cases m <;> simp
  have hdone : matchAtFallback ex o st = some false ↔
      (processOuterTuple ex o st).1 = none ∧ yieldCount calls = 0 := by
    constructor
    · intro hm
      exact ⟨h5.mpr (by rw [hm]; rfl), h7 hm⟩
    · rintro ⟨hn, h0⟩
      have hsome := h5.mp hn
      cases hm : matchAtFallback ex o st with
      | none => rw [hm] at hsome; simp at hsome
      | some m =>
        cases m with
        | false => rfl
        | true =>
          have := h8 hm
          omega
  refine ⟨?_, ?_, ?_, ts, rows, jt, by rw [hcalls]; exact h3, h4, hrows⟩
  · rw [hft, h6]
    exact And.comm
  · rw [hft, hdone, hy]
    constructor
    · rintro ⟨⟨a, b⟩, c⟩
      exact ⟨c, a, b⟩
    · rintro ⟨c, a, b⟩
      exact ⟨⟨a, b⟩, c⟩
  · rw [hy]
    constructor
    · intro hm
      exact ⟨h5.mpr (by rw [hm]; rfl), h8 hm⟩
    · rintro ⟨hn, hpos⟩
      have hsome := h5.mp hn
      cases hm : matchAtFallback ex o st with
      | none => rw [hm] at hsome; simp at hsome
      | some m =>
        cases m with
        | true => rfl
        | false =>
          have := h7 hm
          omega

/-- The LEFT joins over the index of S1.  For the outer tuple (1, a) the post
expression that rejects every pair, and the end expression that is false at the
first inner tuple, leave a yielded tuple, `match` set and no row.  For the outer
tuple (4, c) of scenario S2 nothing is yielded and the one row is the
fallback row. -/
theorem left_outer_fallback_iff_witness :
    (yieldedFor rejectingLeftExecutor [.integer 1, .varchar "a"] (freshState 1 3) = 1 ∧
      matchAtFallback rejectingLeftExecutor [.integer 1, .varchar "a"] (freshState 1 3) =
        some true ∧
      fallbackTaken rejectingLeftExecutor [.integer 1, .varchar "a"] (freshState 1 3) = false ∧
      rowsAddedFor rejectingLeftExecutor [.integer 1, .varchar "a"] (freshState 1 3) = []) ∧
    (yieldedFor endingLeftExecutor [.integer 1, .varchar "a"] (freshState 1 3) = 1 ∧
      fallbackTaken endingLeftExecutor [.integer 1, .varchar "a"] (freshState 1 3) = false ∧
      rowsAddedFor endingLeftExecutor [.integer 1, .varchar "a"] (freshState 1 3) = []) ∧
    (yieldedFor (s1Executor JOIN_TYPE_LEFT) [.integer 4, .varchar "c"] (freshState 1 3) = 0 ∧
      fallbackTaken (s1Executor JOIN_TYPE_LEFT) [.integer 4, .varchar "c"] (freshState 1 3) =
        true ∧
      (rowsAddedFor (s1Executor JOIN_TYPE_LEFT) [.integer 4, .varchar "c"]
        (freshState 1 3)).length = 1) :=
  ⟨⟨by decide,
      ((left_outer_fallback_iff rejectingLeftExecutor [.integer 1, .varchar "a"]
        (freshState 1 3)).2.2.1).mpr ⟨by decide, by decide⟩,
      by decide, by decide⟩,
    ⟨by decide, by decide, by decide⟩,
    ⟨by decide,
      ((left_outer_fallback_iff (s1Executor JOIN_TYPE_LEFT) [.integer 4, .varchar "c"]
        (freshState 1 3)).2.1).mpr ⟨rfl, by decide, by decide⟩,
      by decide⟩⟩

/-- C23 (the assertion of line 264), evaluated where it fails: `p_init` accepts
the plan with exactly one search key under GT on a TINYINT key column; for the
outer tuple (200) the assignment overflows on the last key column, for (-200)
it underflows, the branch of lines 259-301 is entered with
`activeNumOfSearchKeys = 1`, and `assert(activeNumOfSearchKeys > 1)` fails. -/
theorem single_key_plan_fails_assertion :
    (p_init (singleKeyPlan INDEX_LOOKUP_TYPE_GT) [] staleStorage).1 = true ∧
    ∃ ex, executorAfterInit (singleKeyPlan INDEX_LOOKUP_TYPE_GT)
        (p_init (singleKeyPlan INDEX_LOOKUP_TYPE_GT) [] staleStorage).2 = some ex ∧
      ex.searchKeyExpressions.length = 1 ∧
      (initialKeyState ex (freshState 1 2)).activeNumOfSearchKeys = 1 ∧
      (p_execute ex [[.integer 200]] (freshState 1 2)).1 = .assertionFailed ∧
      (p_execute ex [[.integer (-200)]] (freshState 1 2)).1 = .assertionFailed :=
  ⟨by decide, _, rfl, by decide, by decide, by decide, by decide⟩

/-- C24, as stated, fails: `p_init` accepts the plan whose inline index-scan
node has an empty output schema over an inner table of one column; it caches no
output expression, and the first row `p_execute` emits reads
`m_outputExpressions[0]` past the end of the vector. -/
theorem narrow_output_schema_counterexample :
    (p_init narrowPlan [] staleStorage).1 = true ∧
    ∃ ex, executorAfterInit narrowPlan (p_init narrowPlan [] staleStorage).2 = some ex ∧
      ex.m_outputExpressions.length = 0 ∧ ex.num_of_inner_cols = 1 ∧
      (p_execute ex s1Outer (freshState 1 3)).1 = .outOfBounds :=
  ⟨by decide, _, rfl, by decide, by decide, by decide⟩

/-- C24, amended.  For every plan that `p_init` accepts, `p_init` caches the
output-schema expressions of the inline index-scan node after what
`m_outputExpressions` held, and the loop bound of `p_execute` is the column
count of the inner table.  When that column count is at most the number of
cached expressions, every `m_outputExpressions[col_ctr]` of the emit loop is in
bounds: each emission succeeds and `p_execute` never ends on such an access.
In general `p_execute` ends on such an access only when fewer expressions are
cached than the inner table has columns. -/
theorem output_expressions_in_bounds (node : NestLoopIndexPlanNode σ)
    (m0 : List (TableTuple → NValue)) (storage : Nat → NValue)
    (h : (p_init node m0 storage).1 = true) :
    ∃ ex, executorAfterInit node (p_init node m0 storage).2 = some ex ∧
      ex.m_outputExpressions.length = m0.length + node.inlineIndexScan.outputSchema.length ∧
      ex.num_of_inner_cols = node.inlineIndexScan.targetTable.columnCount ∧
      (node.inlineIndexScan.targetTable.columnCount ≤
          m0.length + node.inlineIndexScan.outputSchema.length →
        (∀ col_ctr, col_ctr < ex.num_of_inner_cols →
          (ex.m_outputExpressions[col_ctr]?).isSome = true) ∧
        (∀ (o t : TableTuple) (st : ExecState σ), (emitJoinTuple ex o t st).isSome = true) ∧
        ∀ (outer_table : List TableTuple) (st : ExecState σ),
          (p_execute ex outer_table st).1 ≠ .outOfBounds) ∧
      (∀ (outer_table : List TableTuple) (st : ExecState σ),
        (p_execute ex outer_table st).1 = .outOfBounds →
        m0.length + node.inlineIndexScan.outputSchema.length <
          node.inlineIndexScan.targetTable.columnCount) := by
  obtain ⟨ex, hex, hout, hin, -⟩ := executorAfterInit_accepted node m0 storage h
  have hlen : ex.m_outputExpressions.length =
      m0.length + node.inlineIndexScan.outputSchema.length := by
    rw [hout, List.length_append]
  have hbug : ∀ (outer_table : List TableTuple) (st : ExecState σ),
      (p_execute ex outer_table st).1 = .outOfBounds →
      ex.m_outputExpressions.length < ex.num_of_inner_cols := by
    intro outer_table st hob
    rcases p_execute_outcome ex outer_table st with h1 | ⟨h1, -⟩ | ⟨e, h1⟩ | ⟨h1, -⟩ | ⟨-, h2⟩
    · rw [h1] at hob; simp at hob
    · rw [h1] at hob; simp at hob
    · rw [h1] at hob; simp at hob
    · rw [h1] at hob; simp at hob
    · exact h2
  refine ⟨ex, hex, hlen, hin, ?_, ?_⟩
  · intro hsize
    refine ⟨?_, ?_, ?_⟩
    · intro col_ctr hc
      rw [List.getElem?_eq_getElem (by omega)]
      rfl
    · intro o t st
      obtain ⟨st2, h2⟩ := emitJoinTuple_isSome ex o t st (by omega)
      rw [h2]
      rfl
    · intro outer_table st hob
      have := hbug outer_table st hob
      omega
  · intro outer_table st hob
    have := hbug outer_table st hob
    omega

/-- The plan of scenario S1, whose output schema of one expression covers the
one column of the inner table. -/
theorem output_expressions_in_bounds_witness :
    (p_init (s1Plan [some (fun o => o.getNValue 0)] "I_IDX") [] staleStorage).1 = true ∧
    ∃ ex, executorAfterInit (s1Plan [some (fun o => o.getNValue 0)] "I_IDX")
        (p_init (s1Plan [some (fun o => o.getNValue 0)] "I_IDX") [] staleStorage).2 = some ex ∧
      ex.m_outputExpressions.length = 1 ∧ ex.num_of_inner_cols = 1 ∧
      (p_execute ex s1Outer (freshState 1 3)).1 ≠ .outOfBounds := by
  obtain ⟨ex, h1, h2, h3, h4, -⟩ :=
    output_expressions_in_bounds (s1Plan [some (fun o => o.getNValue 0)] "I_IDX") []
      staleStorage (by decide)
  exact ⟨by decide, ex, h1, h2, h3, (h4 (by decide)).2.2 s1Outer (freshState 1 3)⟩

/-- C25 (`SizePtrPairComparator` is a total order).  For all (size, pointer)
pairs `a`, `b`, `c`: the result of the comparator is -1, 0 or 1;
`cmp(a, b) = -cmp(b, a)`; `cmp(a, b) = 0` exactly when `a = b`; and
`cmp(a, b) ≤ 0` with `cmp(b, c) ≤ 0` gives `cmp(a, c) ≤ 0`. -/
theorem SizePtrPairComparator_total_order (a b c : SizePtrPair) :
    (SizePtrPairComparator a b = -1 ∨ SizePtrPairComparator a b = 0 ∨
      SizePtrPairComparator a b = 1) ∧
    SizePtrPairComparator a b = -SizePtrPairComparator b a ∧
    (SizePtrPairComparator a b = 0 ↔ a = b) ∧
    (SizePtrPairComparator a b ≤ 0 → SizePtrPairComparator b c ≤ 0 →
      SizePtrPairComparator a c ≤ 0) := by
  obtain ⟨a1, a2⟩ := a
  obtain ⟨b1, b2⟩ := b
  obtain ⟨c1, c2⟩ := c
  unfold SizePtrPairComparator
  simp only [Prod.mk.injEq]
  dsimp only
  refine ⟨?_, ?_, ?_, ?_⟩
  · split_ifs <;> simp
  · split_ifs <;> first | rfl | omega
  · split_ifs <;> constructor <;> intro h <;> first | exact h.elim | omega
  · split_ifs <;> intro h1 h2 <;> omega

/-- C26 (three-valued predicates of the scan).  The test of the end expression
holds only when the expression is present and evaluates to the boolean false,
and the test of the post expression only when the expression is absent or
evaluates to the boolean true; NULL satisfies neither.  With the output
expressions in bounds, the inner scan of an outer tuple from the positioned
iterator ends in one of two ways.  Either it ends on a fetch of the null tuple:
then no yielded inner tuple made the end expression false, and the rows
inserted are, in order, those emitted for the yielded tuples on which the post
expression is absent or true.  Or it ends at the first yielded tuple on which
the end expression is false, which is the last one yielded: then the rows are
those emitted for the tuples before it on which the post expression is absent
or true.  So an end expression that is NULL does not stop the scan and the
tuple goes on to the post check, and a post expression that is NULL suppresses
the row and does not stop the scan. -/
theorem scan_predicates_three_valued (ex : NestLoopIndexExecutor σ) (ks : KeyState)
    (o : TableTuple) (st : ExecState σ)
    (hexprs : ex.num_of_inner_cols ≤ ex.m_outputExpressions.length) :
    (∀ t, endExpressionIsFalse ex o t = true ↔
      ∃ e, ex.end_expression = some e ∧ e o t = .boolean false) ∧
    (∀ t, postExpressionPasses ex o t = true ↔
      ex.post_expression = none ∨ ∃ p, ex.post_expression = some p ∧ p o t = .boolean true) ∧
    (scanInner ex ks o st).1 = none ∧
    ∃ calls rows, (scanInner ex ks o st).2.2.trace = st.trace ++ calls ∧
      (scanInner ex ks o st).2.2.output_table = st.output_table ++ rows ∧
      (((∃ pre c, calls = pre ++ [c] ∧ c.fetchedNull = true) ∧
          (∀ t ∈ yieldedTuples calls, endExpressionIsFalse ex o t = false) ∧
          List.Forall₂ (EmittedFor ex o)
            ((yieldedTuples calls).filter (postExpressionPasses ex o)) rows) ∨
        (∃ ts t, yieldedTuples calls = ts ++ [t] ∧
          (∀ u ∈ ts, endExpressionIsFalse ex o u = false) ∧
          endExpressionIsFalse ex o t = true ∧
          List.Forall₂ (EmittedFor ex o) (ts.filter (postExpressionPasses ex o)) rows)) :=
  ⟨endExpressionIsFalse_iff ex o, postExpressionPasses_iff ex o,
    scanLoop_ok ex ks o hexprs _ _ _,
    scanLoop_three_valued ex ks o hexprs _ false st (Nat.lt_succ_self _)⟩

/-- Scenario S6 with an end expression that is NULL at inner key 8 and false at
12, and a post expression that is NULL at inner key 11, for the outer tuple (5):
the iterator yields 5, 8, 11 and 12; the rows are those of 5 and 8. -/
theorem scan_predicates_three_valued_witness :
    nullPredicateExecutor.num_of_inner_cols ≤ nullPredicateExecutor.m_outputExpressions.length ∧
    (scanInner nullPredicateExecutor s6KeyState [.integer 5] s6Positioned).1 = none ∧
    yieldedTuples ((scanInner nullPredicateExecutor s6KeyState [.integer 5]
        s6Positioned).2.2.trace.drop s6Positioned.trace.length) =
      [[.integer 5], [.integer 8], [.integer 11], [.integer 12]] ∧
    (scanInner nullPredicateExecutor s6KeyState [.integer 5] s6Positioned).2.2.output_table =
      [[.integer 5, .integer 5], [.integer 5, .integer 8]] ∧
    endNullAt8 [.integer 5] [.integer 8] = .null ∧
    postNullAt11 [.integer 5] [.integer 11] = .null :=
  ⟨by decide,
    (scan_predicates_three_valued nullPredicateExecutor s6KeyState [.integer 5] s6Positioned
      (by decide)).2.2.1,
    by decide, by decide, by decide, by decide⟩

end voltdb
